import Mathlib

/-!
Shallow embedding of `src/rust_ext/src/lib.rs` (xflr6/concepts Rust extension):
bit-parallel Formal Concept Analysis primitives, Lindig's lattice algorithm,
and the FCBO / FCBO-dual enumeration algorithms.

Machine integers (`u64`, `u128`, `usize`) are modelled as `Nat` with explicit
`% 2 ^ 64` (resp. `% 2 ^ 128`) truncation exactly where the Rust code wraps or
casts.  `Vec<u64>` becomes `List Nat`.  The Rust `while` loops driven by a
`BinaryHeap` (Lindig) or an explicit stack (FCBO) are modelled with an explicit
fuel parameter; theorems about completed runs hypothesise that the worklist is
empty in the final state.
-/

namespace Concepts

/-- Width of one storage word (`u64`). -/
def wordSize : Nat := 64

/-- `u64::MAX` as a natural number. -/
def u64Max : Nat := 2 ^ 64 - 1

/-- A bitset represented as a vector of u64 words (Rust `struct BitSet`).
Bit 0 is the LSB of `words[0]`, bit 64 the LSB of `words[1]`, etc. -/
structure BitSet where
  words : List Nat
  n_bits : Nat
deriving DecidableEq, Repr

instance : Inhabited BitSet := ⟨⟨[], 0⟩⟩

namespace BitSet

/-- `BitSet::new`: all bits 0, `(n_bits + 63) / 64` words. -/
def new (n_bits : Nat) : BitSet :=
  { words := List.replicate ((n_bits + 63) / 64) 0, n_bits := n_bits }

/-- `BitSet::supremum`: all `n_bits` bits set, extra bits of the last word
masked off. -/
def supremum (n_bits : Nat) : BitSet :=
  let n_words := (n_bits + 63) / 64
  let ws := List.replicate n_words u64Max
  if n_bits % 64 ≠ 0 then
    { words := ws.set (n_words - 1) (u64Max &&& (2 ^ (n_bits % 64) - 1)),
      n_bits := n_bits }
  else
    { words := ws, n_bits := n_bits }

/-- `BitSet::from_u128`: word 0 is `value as u64`, word 1 (when present) is
`(value >> 64) as u64`; no masking to `n_bits` is performed. -/
def from_u128 (value : Nat) (n_bits : Nat) : BitSet :=
  let n_words := (n_bits + 63) / 64
  let ws := List.replicate n_words 0
  let ws := if 1 ≤ n_words then ws.set 0 (value % 2 ^ 64) else ws
  let ws := if 2 ≤ n_words then ws.set 1 ((value >>> 64) % 2 ^ 64) else ws
  { words := ws, n_bits := n_bits }

/-- `BitSet::to_u128`. -/
def to_u128 (b : BitSet) : Nat :=
  let r : Nat := if 1 ≤ b.words.length then b.words.getD 0 0 else 0
  if 2 ≤ b.words.length then r ||| ((b.words.getD 1 0) <<< 64) else r

/-- `BitSet::is_empty`: all words zero. -/
def is_empty (b : BitSet) : Bool :=
  b.words.all (fun w => w == 0)

/-- `u64::count_ones` for a word value `< 2 ^ 64`. -/
def popCount64 (w : Nat) : Nat :=
  (List.range 64).countP (fun i => w.testBit i)

/-- `BitSet::count`: total number of set bits. -/
def count (b : BitSet) : Nat :=
  (b.words.map popCount64).sum

/-- `BitSet::get`: bit at position `i`; positions `≥ n_bits` read as `false`. -/
def get (b : BitSet) (i : Nat) : Bool :=
  if b.n_bits ≤ i then false
  else (b.words.getD (i / 64) 0).testBit (i % 64)

/-- `BitSet::set`: set bit `i`; positions `≥ n_bits` are silently ignored. -/
def setBit (b : BitSet) (i : Nat) : BitSet :=
  if i < b.n_bits then
    { b with words := b.words.set (i / 64) ((b.words.getD (i / 64) 0) ||| (2 ^ (i % 64))) }
  else b

/-- `BitSet::complement`: per-word `!w` (u64 complement is xor with
`u64::MAX`), last word re-masked to the declared width.  The Rust loop writes
`result.words[i] = !w` over all of `self.words`, which on the reachable
(equal-length) states is exactly a map. -/
def complement (b : BitSet) : BitSet :=
  let ws := b.words.map (fun w => w ^^^ u64Max)
  let n_words := ws.length
  if b.n_bits % 64 ≠ 0 then
    { words := ws.set (n_words - 1) ((ws.getD (n_words - 1) 0) &&& (2 ^ (b.n_bits % 64) - 1)),
      n_bits := b.n_bits }
  else
    { words := ws, n_bits := b.n_bits }

/-- `BitSet::and`: word-wise conjunction (operand word vectors have equal
length on all reachable states). -/
def and (b other : BitSet) : BitSet :=
  { words := List.zipWith (fun a c => a &&& c) b.words other.words,
    n_bits := b.n_bits }

/-- `BitSet::or`: word-wise disjunction. -/
def or (b other : BitSet) : BitSet :=
  { words := List.zipWith (fun a c => a ||| c) b.words other.words,
    n_bits := b.n_bits }

/-- Borrow-propagating word-level decrement (`BitSet::sub_one` main loop):
leading zero words wrap to `u64::MAX`, the first non-zero word is decremented,
later words are unchanged. -/
def subOneWords : List Nat → List Nat
  | [] => []
  | w :: ws => if w = 0 then u64Max :: subOneWords ws else (w - 1) :: ws

/-- `BitSet::sub_one`: subtract 1 with borrow across words, last word
re-masked to the declared width. -/
def sub_one (b : BitSet) : BitSet :=
  let ws := subOneWords b.words
  let n_words := ws.length
  if b.n_bits % 64 ≠ 0 then
    { words := ws.set (n_words - 1) ((ws.getD (n_words - 1) 0) &&& (2 ^ (b.n_bits % 64) - 1)),
      n_bits := b.n_bits }
  else
    { words := ws, n_bits := b.n_bits }

/-- `BitSet::shortlex`: sort key `(count, words)`. -/
def shortlex (b : BitSet) : Nat × List Nat :=
  (b.count, b.words)

/-- `BitSet::iter_bits`: positions of set bits in ascending order, restricted
to positions `< n_bits`. -/
def iter_bits (b : BitSet) : List Nat :=
  b.words.enum.flatMap (fun p =>
    (List.range 64).filterMap (fun bit =>
      if (p.snd.testBit bit && decide (p.fst * 64 + bit < b.n_bits)) then
        some (p.fst * 64 + bit)
      else none))

/-- `BitSet::atoms`: one singleton bitset per set bit. -/
def atoms (b : BitSet) : List BitSet :=
  b.iter_bits.map (fun i => (new b.n_bits).setBit i)

end BitSet

/-- Formal context (Rust `struct FcaContext`): `extents[j]` is the set of
objects incident with property `j`, `intents[i]` the set of properties of
object `i`. -/
structure FcaContext where
  n_objects : Nat
  n_properties : Nat
  extents : List BitSet
  intents : List BitSet

namespace FcaContext

/-- `FcaContext::new`: build the context from raw `u128` rows/columns. -/
def new (n_objects n_properties : Nat) (extents_raw intents_raw : List Nat) :
    FcaContext :=
  { n_objects := n_objects
    n_properties := n_properties
    extents := extents_raw.map (fun e => BitSet.from_u128 e n_objects)
    intents := intents_raw.map (fun i => BitSet.from_u128 i n_properties) }

/-- `FcaContext::prime_objects`: intersect the intents of all objects in the
given set, seeded with `⊤_P`. -/
def prime_objects (ctx : FcaContext) (objects : BitSet) : BitSet :=
  objects.iter_bits.foldl
    (fun result i =>
      if i < ctx.intents.length then result.and (ctx.intents.getD i default)
      else result)
    (BitSet.supremum ctx.n_properties)

/-- `FcaContext::prime_properties`: intersect the extents of all properties in
the given set, seeded with `⊤_O`. -/
def prime_properties (ctx : FcaContext) (properties : BitSet) : BitSet :=
  properties.iter_bits.foldl
    (fun result j =>
      if j < ctx.extents.length then result.and (ctx.extents.getD j default)
      else result)
    (BitSet.supremum ctx.n_objects)

/-- `FcaContext::doubleprime_objects`: `(A″, A′)`. -/
def doubleprime_objects (ctx : FcaContext) (objects : BitSet) : BitSet × BitSet :=
  let intent := ctx.prime_objects objects
  let extent := ctx.prime_properties intent
  (extent, intent)

/-- `FcaContext::doubleprime_properties`: `(B′, B″)`. -/
def doubleprime_properties (ctx : FcaContext) (properties : BitSet) : BitSet × BitSet :=
  let extent := ctx.prime_properties properties
  let intent := ctx.prime_objects extent
  (extent, intent)

end FcaContext

/-! ### Lindig's Fast Concept Analysis -/

/-- A concept record in Lindig's output:
`(extent, intent, upper cover indices, lower cover indices)`. -/
abbrev ConceptRec := BitSet × BitSet × List Nat × List Nat

/-- Rust `struct HeapEntry`. -/
structure HeapEntry where
  shortlex_key : Nat × List Nat
  extent : BitSet
  intent : BitSet
  index : Nat
deriving DecidableEq, Repr

/-- Lexicographic order on `Vec<u64>` (Rust `Vec::cmp`). -/
def wordsLt : List Nat → List Nat → Bool
  | [], [] => false
  | [], _ :: _ => true
  | _ :: _, [] => false
  | a :: as, b :: bs => if a < b then true else if b < a then false else wordsLt as bs

/-- Strict order on shortlex keys `(count, words)` (Rust tuple `cmp`). -/
def keyLt (k₁ k₂ : Nat × List Nat) : Bool :=
  if k₁.fst < k₂.fst then true
  else if k₂.fst < k₁.fst then false
  else wordsLt k₁.snd k₂.snd

/-- Extract the entry with the smallest shortlex key (the element
`BinaryHeap::pop` returns under the reversed `HeapEntry` ordering; all keys in
the heap are distinct on reachable states, so any heap is refined by this
deterministic choice). -/
def popMin : List HeapEntry → Option (HeapEntry × List HeapEntry)
  | [] => none
  | e :: es =>
    match popMin es with
    | none => some (e, [])
    | some (m, rest) =>
      if keyLt m.shortlex_key e.shortlex_key then some (m, e :: rest)
      else some (e, es)

/-- One step of the `neighbors` scan over object index `i`, carrying
`(result, minimal)`. -/
def neighborsStep (ctx : FcaContext) (objects : BitSet)
    (st : List (BitSet × BitSet) × BitSet) (i : Nat) :
    List (BitSet × BitSet) × BitSet :=
  let minimal := st.snd
  if minimal.get i = false then st
  else
    let add := (BitSet.new ctx.n_objects).setBit i
    let objects_and_add := objects.or add
    let ei := ctx.doubleprime_objects objects_and_add
    let check := (ei.fst.and objects_and_add.complement).and minimal
    if check.is_empty = false then
      (st.fst, minimal.and add.complement)
    else
      (st.fst ++ [ei], minimal)

/-- Rust `fn neighbors`: upper neighbors of the extent `objects`. -/
def neighbors (objects : BitSet) (ctx : FcaContext) : List (BitSet × BitSet) :=
  ((List.range ctx.n_objects).foldl (neighborsStep ctx objects)
    ([], objects.complement)).fst

/-- State of Lindig's main loop. -/
structure LindigState where
  concepts : List ConceptRec
  mapping : List (List Nat × Nat)
  heap : List HeapEntry

/-- Append `v` to the upper-cover list of concept `u`. -/
def pushUpper (cs : List ConceptRec) (u v : Nat) : List ConceptRec :=
  cs.set u (let c := cs.getD u default; (c.1, c.2.1, c.2.2.1 ++ [v], c.2.2.2))

/-- Append `v` to the lower-cover list of concept `u`. -/
def pushLower (cs : List ConceptRec) (u v : Nat) : List ConceptRec :=
  cs.set u (let c := cs.getD u default; (c.1, c.2.1, c.2.2.1, c.2.2.2 ++ [v]))

/-- Process one neighbor `(n_extent, n_intent)` of the popped concept
`current_idx` (the body of the `for` loop in `lindig_lattice`). -/
def lindigProcess (st : LindigState) (current_idx : Nat)
    (nb : BitSet × BitSet) : LindigState :=
  match st.mapping.lookup nb.fst.words with
  | some existing_idx =>
    { st with
      concepts := pushLower (pushUpper st.concepts current_idx existing_idx)
        existing_idx current_idx }
  | none =>
    { concepts :=
        pushUpper st.concepts current_idx st.concepts.length ++
          [(nb.fst, nb.snd, [], [current_idx])]
      mapping := (nb.fst.words, st.concepts.length) :: st.mapping
      heap := { shortlex_key := nb.fst.shortlex, extent := nb.fst,
                intent := nb.snd, index := st.concepts.length } :: st.heap }

/-- The `while let Some(entry) = heap.pop()` loop of `lindig_lattice`, with
explicit fuel. -/
def lindigLoop (ctx : FcaContext) : Nat → LindigState → LindigState
  | 0, st => st
  | fuel + 1, st =>
    match popMin st.heap with
    | none => st
    | some (entry, rest) =>
      let current_idx := entry.index
      let extent := (st.concepts.getD current_idx default).1
      let nbrs := neighbors extent ctx
      lindigLoop ctx fuel
        (nbrs.foldl (fun s nb => lindigProcess s current_idx nb)
          { st with heap := rest })

/-- Initial state of `lindig_lattice`: the closure of `infimum` at index 0. -/
def lindigInit (ctx : FcaContext) (infimum : BitSet) : LindigState :=
  let ei := ctx.doubleprime_objects infimum
  { concepts := [(ei.fst, ei.snd, [], [])]
    mapping := [(ei.fst.words, 0)]
    heap := [{ shortlex_key := ei.fst.shortlex, extent := ei.fst,
               intent := ei.snd, index := 0 }] }

/-- Rust `fn lindig_lattice` (fuelled): the concept list of the final state,
converted to `u128` output format. -/
def lindig_lattice (ctx : FcaContext) (infimum : BitSet) (fuel : Nat) :
    List (Nat × Nat × List Nat × List Nat) :=
  (lindigLoop ctx fuel (lindigInit ctx infimum)).concepts.map
    (fun c => (c.1.to_u128, c.2.1.to_u128, c.2.2.1, c.2.2.2))

/-! ### FCBO (Fast Close-by-One) -/

/-- A stack frame of `fcbo_fast_generate_from` / `fcbo_dual`:
`(concept, pivot index, property/object sets)`. -/
abbrev FcboFrame := (BitSet × BitSet) × Nat × List BitSet

/-- Body of the inner (reverse) `for` loop of `fcbo_fast_generate_from`,
carrying `(next_property_sets, stack)`. -/
def fcboInner (ctx : FcaContext) (extent intent : BitSet)
    (st : List BitSet × List FcboFrame) (jp : Nat × BitSet) :
    List BitSet × List FcboFrame :=
  let next_property_sets := st.fst
  let stack := st.snd
  let j := jp.fst
  let j_property := jp.snd
  if (j_property.and intent).is_empty = false then st
  else
    let j_mask := j_property.sub_one
    let x := (next_property_sets.getD j default).and j_mask
    if x.and intent = x then
      let j_extent_bits := extent.and (ctx.extents.getD j default)
      let j_intent := ctx.prime_objects j_extent_bits
      let j_lower := j_intent.and j_mask
      if j_lower.and intent = j_lower then
        (next_property_sets, ((j_extent_bits, j_intent), j + 1, next_property_sets) :: stack)
      else
        (next_property_sets.set j j_intent, stack)
    else st

/-- The `while let Some(...) = stack.pop()` loop of `fcbo_fast_generate_from`,
with explicit fuel.  Returns `(result, stack)` so completion is observable. -/
def fcboLoop (ctx : FcaContext) (j_atom : List (Nat × BitSet)) :
    Nat → List FcboFrame → List (Nat × Nat) → List (Nat × Nat) × List FcboFrame
  | 0, stack, result => (result, stack)
  | _ + 1, [], result => (result, [])
  | fuel + 1, (concept, property_index, property_sets) :: stack, result =>
    let extent := concept.fst
    let intent := concept.snd
    let result := result ++ [(extent.to_u128, intent.to_u128)]
    if property_index = ctx.n_properties ∨ extent.is_empty = true then
      fcboLoop ctx j_atom fuel stack result
    else
      let st := ((j_atom.drop property_index).reverse).foldl
        (fcboInner ctx extent intent) (property_sets, stack)
      fcboLoop ctx j_atom fuel st.snd result

/-- Rust `fn fcbo_fast_generate_from` (fuelled): the `(result, final stack)`
pair; the Rust function's return value is the first component of a completed
run (empty final stack). -/
def fcbo_fast_generate_from (ctx : FcaContext) (fuel : Nat) :
    List (Nat × Nat) × List FcboFrame :=
  let n_properties := ctx.n_properties
  let properties_supremum := BitSet.supremum n_properties
  let j_atom := properties_supremum.atoms.enum
  let objects_supremum := BitSet.supremum ctx.n_objects
  let properties_infimum := BitSet.new n_properties
  let initial_concept := ctx.doubleprime_objects objects_supremum
  let initial_property_sets := List.replicate n_properties properties_infimum
  fcboLoop ctx j_atom fuel [(initial_concept, 0, initial_property_sets)] []

/-- Body of the inner (reverse) `for` loop of `fcbo_dual`, carrying
`(next_object_sets, stack)`. -/
def fcboDualInner (ctx : FcaContext) (extent intent : BitSet)
    (st : List BitSet × List FcboFrame) (jp : Nat × BitSet) :
    List BitSet × List FcboFrame :=
  let next_object_sets := st.fst
  let stack := st.snd
  let j := jp.fst
  let j_object := jp.snd
  if (extent.and j_object).is_empty = false then st
  else
    let j_mask := j_object.sub_one
    let x := (next_object_sets.getD j default).and j_mask
    if x.and extent = x then
      let j_intent_bits := intent.and (ctx.intents.getD j default)
      let j_extent := ctx.prime_properties j_intent_bits
      let j_lower := j_extent.and j_mask
      if j_lower.and extent = j_lower then
        (next_object_sets, ((j_extent, j_intent_bits), j + 1, next_object_sets) :: stack)
      else
        (next_object_sets.set j j_extent, stack)
    else st

/-- The main loop of `fcbo_dual`, with explicit fuel. -/
def fcboDualLoop (ctx : FcaContext) (j_atom : List (Nat × BitSet)) :
    Nat → List FcboFrame → List (Nat × Nat) → List (Nat × Nat) × List FcboFrame
  | 0, stack, result => (result, stack)
  | _ + 1, [], result => (result, [])
  | fuel + 1, (concept, object_index, object_sets) :: stack, result =>
    let extent := concept.fst
    let intent := concept.snd
    let result := result ++ [(extent.to_u128, intent.to_u128)]
    if object_index = ctx.n_objects ∨ intent.is_empty = true then
      fcboDualLoop ctx j_atom fuel stack result
    else
      let st := ((j_atom.drop object_index).reverse).foldl
        (fcboDualInner ctx extent intent) (object_sets, stack)
      fcboDualLoop ctx j_atom fuel st.snd result

/-- Rust `fn fcbo_dual` (fuelled). -/
def fcbo_dual (ctx : FcaContext) (fuel : Nat) :
    List (Nat × Nat) × List FcboFrame :=
  let n_objects := ctx.n_objects
  let objects_supremum := BitSet.supremum n_objects
  let j_atom := objects_supremum.atoms.enum
  let objects_infimum := BitSet.new n_objects
  let initial_concept := ctx.doubleprime_objects objects_infimum
  let initial_object_sets := List.replicate n_objects objects_infimum
  fcboDualLoop ctx j_atom fuel [(initial_concept, 0, initial_object_sets)] []

/-! ### Well-formedness of bitsets and generic list helpers -/

/-- Value of a little-endian word vector as a natural number. -/
def wordsVal : List Nat → Nat
  | [] => 0
  | w :: ws => w + 2 ^ 64 * wordsVal ws

/-- The trailing-word masking invariant: no stored bit at or beyond the
declared width. -/
def Masked (b : BitSet) : Prop :=
  ∀ k bit : Nat, b.n_bits ≤ 64 * k + bit → (b.words.getD k 0).testBit bit = false

/-- Well-formed bitset of width `n`: declared width `n`, exactly
`(n + 63) / 64` words, and every stored set bit is at a word-internal offset
`< 64` (so each word is a `u64` value) and a global position `< n`. -/
def wfBitSet (b : BitSet) (n : Nat) : Prop :=
  b.n_bits = n ∧ b.words.length = (n + 63) / 64 ∧
    ∀ k bit : Nat, (b.words.getD k 0).testBit bit = true → bit < 64 ∧ 64 * k + bit < n

theorem wfBitSet.masked {b : BitSet} {n : Nat} (h : wfBitSet b n) : Masked b := by
  intro k bit hk
  by_contra hbit
  rcases h.2.2 k bit (by revert hbit; cases (b.words.getD k 0).testBit bit <;> simp) with ⟨_, hlt⟩
  have hn := h.1
  omega

theorem getD_replicate {α : Type} (n k : Nat) (a d : α) :
    (List.replicate n a).getD k d = if k < n then a else d := by
  rw [List.getD_eq_getElem?_getD, List.getElem?_replicate]
  split <;> rfl

theorem getD_set {α : Type} (l : List α) (i k : Nat) (v : α) (d : α) :
    (l.set i v).getD k d =
      if i = k ∧ i < l.length then v else l.getD k d := by
  rw [List.getD_eq_getElem?_getD, List.getElem?_set]
  by_cases hik : i = k
  · subst hik
    by_cases hlen : i < l.length
    · simp [hlen]
    · rw [if_pos rfl, if_neg hlen, if_neg (fun hc : i = i ∧ i < l.length => hlen hc.2)]
      rw [List.getD_eq_getElem?_getD, List.getElem?_eq_none (by omega)]
  · rw [if_neg hik, if_neg (by intro hc; exact hik hc.1), List.getD_eq_getElem?_getD]

theorem getD_zipWith (f : Nat → Nat → Nat) (hf : f 0 0 = 0)
    (as bs : List Nat) (k : Nat) (hlen : as.length = bs.length) :
    (List.zipWith f as bs).getD k 0 = f (as.getD k 0) (bs.getD k 0) := by
  rw [List.getD_eq_getElem?_getD, List.getElem?_zipWith]
  by_cases hk : k < as.length
  · rw [List.getElem?_eq_getElem hk, List.getElem?_eq_getElem (by omega)]
    simp [List.getD_eq_getElem?_getD, List.getElem?_eq_getElem, hk, hlen ▸ hk]
  · rw [List.getElem?_eq_none (by omega), List.getElem?_eq_none (by omega)]
    simp only [List.getD_eq_getElem?_getD]
    rw [List.getElem?_eq_none (by omega), List.getElem?_eq_none (by omega)]
    simpa using hf.symm

theorem get_new (n i : Nat) : (BitSet.new n).get i = false := by
  unfold BitSet.new BitSet.get
  by_cases h : n ≤ i
  · simp [h]
  · simp only [h, if_false, getD_replicate]
    split <;> simp

theorem wf_new (n : Nat) : wfBitSet (BitSet.new n) n := by
  refine ⟨rfl, by simp [BitSet.new], ?_⟩
  intro k bit h
  exfalso
  rw [BitSet.new] at h
  simp only [getD_replicate] at h
  revert h
  split <;> simp

theorem testBit_u64Max (i : Nat) : Nat.testBit u64Max i = decide (i < 64) :=
  Nat.testBit_two_pow_sub_one 64 i

theorem u64Max_and_mask (m : Nat) (hm : m ≤ 64) :
    u64Max &&& (2 ^ m - 1) = 2 ^ m - 1 := by
  apply Nat.eq_of_testBit_eq
  intro i
  rw [Nat.testBit_and, testBit_u64Max, Nat.testBit_two_pow_sub_one]
  rcases Nat.lt_or_ge i 64 with hi | hi
  · simp [hi]
  · have hnm : ¬ i < m := by omega
    simp [hnm]

theorem nbits_supremum (n : Nat) : (BitSet.supremum n).n_bits = n := by
  unfold BitSet.supremum
  split <;> rfl

theorem words_length_supremum (n : Nat) :
    (BitSet.supremum n).words.length = (n + 63) / 64 := by
  unfold BitSet.supremum
  split <;> simp

theorem getD_words_supremum (n k : Nat) :
    (BitSet.supremum n).words.getD k 0 =
      if k < (n + 63) / 64 then
        (if n % 64 ≠ 0 ∧ k = (n + 63) / 64 - 1 then 2 ^ (n % 64) - 1 else u64Max)
      else 0 := by
  unfold BitSet.supremum
  split
  · rename_i hm
    simp only [getD_set, List.length_replicate, getD_replicate,
      u64Max_and_mask (n % 64) (by omega)]
    by_cases hk : k < (n + 63) / 64
    · by_cases hke : k = (n + 63) / 64 - 1
      · rw [if_pos ⟨hke.symm, by omega⟩, if_pos hk, if_pos ⟨hm, hke⟩]
      · rw [if_neg (fun hc => hke hc.1.symm), if_pos hk, if_pos hk,
          if_neg (fun hc => hke hc.2)]
    · rw [if_neg (fun hc : _ ∧ _ => hk (by omega)), if_neg hk, if_neg hk]
  · rename_i hm
    have hm0 : n % 64 = 0 := by omega
    simp only [getD_replicate]
    by_cases hk : k < (n + 63) / 64
    · rw [if_pos hk, if_pos hk, if_neg (fun hc => hc.1 hm0)]
    · rw [if_neg hk, if_neg hk]

theorem get_supremum (n i : Nat) :
    (BitSet.supremum n).get i = decide (i < n) := by
  rw [BitSet.get, nbits_supremum, getD_words_supremum]
  by_cases h : n ≤ i
  · simp [h, Nat.not_lt_of_le h]
  · have hin : i < n := by omega
    have hdiv : i / 64 < (n + 63) / 64 := by omega
    rw [if_neg h, if_pos hdiv]
    by_cases htrail : n % 64 ≠ 0 ∧ i / 64 = (n + 63) / 64 - 1
    · rw [if_pos htrail, Nat.testBit_two_pow_sub_one]
      have hlt : i % 64 < n % 64 := by
        rcases htrail with ⟨hm, hk⟩
        omega
      simp [hlt, hin]
    · rw [if_neg htrail, testBit_u64Max]
      have hm64 : i % 64 < 64 := by omega
      simp [hm64, hin]

theorem wf_supremum (n : Nat) : wfBitSet (BitSet.supremum n) n := by
  refine ⟨nbits_supremum n, words_length_supremum n, ?_⟩
  intro k bit h
  rw [getD_words_supremum] at h
  by_cases hk : k < (n + 63) / 64
  · rw [if_pos hk] at h
    by_cases htrail : n % 64 ≠ 0 ∧ k = (n + 63) / 64 - 1
    · rw [if_pos htrail, Nat.testBit_two_pow_sub_one] at h
      have hb : bit < n % 64 := by simpa using h
      rcases htrail with ⟨hm, hke⟩
      have hmlt : n % 64 < 64 := by omega
      exact ⟨by omega, by omega⟩
    · rw [if_neg htrail, testBit_u64Max] at h
      have hb : bit < 64 := by simpa using h
      refine ⟨hb, ?_⟩
      rw [Classical.not_and_iff_or_not_not] at htrail
      rcases htrail with hm | hke
      · have hm0 : n % 64 = 0 := by omega
        omega
      · omega
  · rw [if_neg hk] at h
    simp at h

theorem getD_map (f : Nat → Nat) (hf : f 0 = 0) (l : List Nat) (k : Nat) :
    (l.map f).getD k 0 = f (l.getD k 0) := by
  rw [List.getD_eq_getElem?_getD, List.getElem?_map]
  by_cases hk : k < l.length
  · rw [List.getElem?_eq_getElem hk]
    simp [List.getD_eq_getElem?_getD, List.getElem?_eq_getElem, hk]
  · rw [List.getElem?_eq_none (by omega)]
    simp only [List.getD_eq_getElem?_getD]
    rw [List.getElem?_eq_none (by omega)]
    simpa using hf.symm

theorem getD_ge {α : Type} (l : List α) (k : Nat) (d : α) (hk : l.length ≤ k) :
    l.getD k d = d := by
  rw [List.getD_eq_getElem?_getD, List.getElem?_eq_none hk]
  rfl

theorem getD_map_lt (f : Nat → Nat) (l : List Nat) (k : Nat) (hk : k < l.length) :
    (l.map f).getD k 0 = f (l.getD k 0) := by
  rw [List.getD_eq_getElem?_getD, List.getElem?_map, List.getElem?_eq_getElem hk]
  simp [List.getD_eq_getElem?_getD, List.getElem?_eq_getElem hk]

theorem get_def (b : BitSet) (i : Nat) :
    b.get i = if b.n_bits ≤ i then false
      else (b.words.getD (i / 64) 0).testBit (i % 64) := rfl

theorem get_mk (ws : List Nat) (m k : Nat) :
    (BitSet.mk ws m).get k = if m ≤ k then false
      else (ws.getD (k / 64) 0).testBit (k % 64) := rfl

theorem setBit_lt {b : BitSet} {i : Nat} (hi : i < b.n_bits) :
    b.setBit i = BitSet.mk
      (b.words.set (i / 64) ((b.words.getD (i / 64) 0) ||| (2 ^ (i % 64))))
      b.n_bits := by
  unfold BitSet.setBit
  rw [if_pos hi]

theorem setBit_ge {b : BitSet} {i : Nat} (hi : ¬ i < b.n_bits) :
    b.setBit i = b := by
  unfold BitSet.setBit
  rw [if_neg hi]

theorem and_mk (a b : BitSet) :
    a.and b = BitSet.mk (List.zipWith (fun x y => x &&& y) a.words b.words)
      a.n_bits := rfl

theorem or_mk (a b : BitSet) :
    a.or b = BitSet.mk (List.zipWith (fun x y => x ||| y) a.words b.words)
      a.n_bits := rfl

theorem get_setBit {b : BitSet} {n : Nat} (h : wfBitSet b n) (i k : Nat) :
    (b.setBit i).get k = if k = i ∧ i < n then true else b.get k := by
  rcases h with ⟨hn, hlen, hbits⟩
  by_cases hi : i < b.n_bits
  · rw [setBit_lt hi, get_mk, get_def]
    by_cases hkn : b.n_bits ≤ k
    · rw [if_pos hkn, if_pos hkn, if_neg (fun hc : _ ∧ _ => by omega)]
    · rw [if_neg hkn, if_neg hkn, getD_set]
      by_cases hsame : i / 64 = k / 64
      · rw [if_pos (show i / 64 = k / 64 ∧ i / 64 < b.words.length from
          ⟨hsame, by omega⟩), Nat.testBit_or, Nat.testBit_two_pow]
        by_cases hki : k = i
        · subst hki
          rw [if_pos ⟨rfl, by omega⟩]
          simp
        · have hmodne : ¬ i % 64 = k % 64 := by omega
          rw [if_neg (fun hc : _ ∧ _ => hki hc.1),
            decide_eq_false_iff_not.mpr hmodne, hsame]
          simp
      · rw [if_neg (fun hc : _ ∧ _ => hsame hc.1),
          if_neg (fun hc : _ ∧ _ => by omega)]
  · rw [setBit_ge hi, if_neg (fun hc : _ ∧ _ => by omega)]

theorem wf_setBit {b : BitSet} {n : Nat} (h : wfBitSet b n) (i : Nat) :
    wfBitSet (b.setBit i) n := by
  rcases h with ⟨hn, hlen, hbits⟩
  by_cases hi : i < b.n_bits
  · rw [setBit_lt hi]
    refine ⟨hn, by simpa using hlen, ?_⟩
    intro k bit hk
    simp only [getD_set] at hk
    by_cases hcond : i / 64 = k ∧ i / 64 < b.words.length
    · rw [if_pos hcond] at hk
      rw [Nat.testBit_or, Nat.testBit_two_pow] at hk
      rcases Bool.or_eq_true_iff.mp hk with hw | he
      · exact hbits k bit (hcond.1 ▸ hw)
      · have hbe : i % 64 = bit := by simpa using he
        rcases hcond with ⟨hck, _⟩
        exact ⟨by omega, by omega⟩
    · rw [if_neg hcond] at hk
      exact hbits k bit hk
  · rw [setBit_ge hi]
    exact ⟨hn, hlen, hbits⟩

theorem get_and {a b : BitSet} {n : Nat} (ha : wfBitSet a n) (hb : wfBitSet b n)
    (i : Nat) : (a.and b).get i = (a.get i && b.get i) := by
  rcases ha with ⟨han, halen, habits⟩
  rcases hb with ⟨hbn, hblen, hbbits⟩
  rw [and_mk, get_mk, get_def, get_def]
  by_cases hni : a.n_bits ≤ i
  · rw [if_pos hni, if_pos hni, if_pos (show b.n_bits ≤ i by omega)]
    rfl
  · rw [if_neg hni, if_neg hni, if_neg (show ¬ b.n_bits ≤ i by omega)]
    rw [getD_zipWith (fun x y => x &&& y) (by simp) _ _ _ (by omega)]
    exact Nat.testBit_and _ _ _

theorem wf_and {a b : BitSet} {n : Nat} (ha : wfBitSet a n) (hb : wfBitSet b n) :
    wfBitSet (a.and b) n := by
  rcases ha with ⟨han, halen, habits⟩
  rcases hb with ⟨hbn, hblen, hbbits⟩
  rw [and_mk]
  refine ⟨han, by simp [List.length_zipWith]; omega, ?_⟩
  intro k bit hk
  simp only at hk
  rw [getD_zipWith (fun x y => x &&& y) (by simp) _ _ _ (by omega)] at hk
  rw [Nat.testBit_and] at hk
  exact habits k bit (Bool.and_eq_true_iff.mp hk).1

theorem get_or {a b : BitSet} {n : Nat} (ha : wfBitSet a n) (hb : wfBitSet b n)
    (i : Nat) : (a.or b).get i = (a.get i || b.get i) := by
  rcases ha with ⟨han, halen, habits⟩
  rcases hb with ⟨hbn, hblen, hbbits⟩
  rw [or_mk, get_mk, get_def, get_def]
  by_cases hni : a.n_bits ≤ i
  · rw [if_pos hni, if_pos hni, if_pos (show b.n_bits ≤ i by omega)]
    rfl
  · rw [if_neg hni, if_neg hni, if_neg (show ¬ b.n_bits ≤ i by omega)]
    rw [getD_zipWith (fun x y => x ||| y) (by simp) _ _ _ (by omega)]
    exact Nat.testBit_or _ _ _

theorem wf_or {a b : BitSet} {n : Nat} (ha : wfBitSet a n) (hb : wfBitSet b n) :
    wfBitSet (a.or b) n := by
  rcases ha with ⟨han, halen, habits⟩
  rcases hb with ⟨hbn, hblen, hbbits⟩
  rw [or_mk]
  refine ⟨han, by simp [List.length_zipWith]; omega, ?_⟩
  intro k bit hk
  simp only at hk
  rw [getD_zipWith (fun x y => x ||| y) (by simp) _ _ _ (by omega)] at hk
  rw [Nat.testBit_or] at hk
  rcases Bool.or_eq_true_iff.mp hk with hw | hw
  · exact habits k bit hw
  · exact hbbits k bit hw

theorem getD_words_complement {b : BitSet} {n : Nat} (h : wfBitSet b n)
    (k : Nat) :
    b.complement.words.getD k 0 =
      if k < (n + 63) / 64 then
        (if n % 64 ≠ 0 ∧ k = (n + 63) / 64 - 1 then
          ((b.words.getD k 0) ^^^ u64Max) &&& (2 ^ (n % 64) - 1)
        else (b.words.getD k 0) ^^^ u64Max)
      else 0 := by
  rcases h with ⟨hn, hlen, hbits⟩
  have hmlen : (b.words.map (fun w => w ^^^ u64Max)).length = (n + 63) / 64 := by
    simp [hlen]
  have hmap : ∀ j, j < (n + 63) / 64 →
      (b.words.map (fun w => w ^^^ u64Max)).getD j 0 =
        (b.words.getD j 0) ^^^ u64Max := by
    intro j hj
    exact getD_map_lt _ _ _ (by omega)
  unfold BitSet.complement
  split
  · rename_i hm
    rw [hn] at hm
    rw [getD_set, hmlen]
    by_cases hk : k < (n + 63) / 64
    · by_cases hke : k = (n + 63) / 64 - 1
      · rw [if_pos ⟨hke.symm, by omega⟩, if_pos hk, if_pos ⟨hm, hke⟩]
        rw [hmap _ (by omega), hke, hn]
      · rw [if_neg (show ¬ ((n + 63) / 64 - 1 = k ∧
            (n + 63) / 64 - 1 < (n + 63) / 64) from fun hc => hke hc.1.symm),
          if_pos hk, if_neg (show ¬ (n % 64 ≠ 0 ∧ k = (n + 63) / 64 - 1) from
            fun hc => hke hc.2)]
        exact hmap _ hk
    · rw [if_neg (show ¬ ((n + 63) / 64 - 1 = k ∧
          (n + 63) / 64 - 1 < (n + 63) / 64) from fun hc => hk (by omega)),
        if_neg hk]
      exact getD_ge _ _ _ (by omega)
  · rename_i hm
    rw [hn] at hm
    have hm0 : n % 64 = 0 := by omega
    simp only
    by_cases hk : k < (n + 63) / 64
    · rw [if_pos hk, if_neg (show ¬ (n % 64 ≠ 0 ∧ k = (n + 63) / 64 - 1) from
        fun hc => hc.1 hm0)]
      exact hmap _ hk
    · rw [if_neg hk]
      exact getD_ge _ _ _ (by omega)

theorem nbits_complement (b : BitSet) : b.complement.n_bits = b.n_bits := by
  unfold BitSet.complement
  split <;> rfl

theorem words_length_complement (b : BitSet) :
    b.complement.words.length = b.words.length := by
  unfold BitSet.complement
  split <;> simp

theorem get_complement {b : BitSet} {n : Nat} (h : wfBitSet b n) (i : Nat) :
    b.complement.get i = (decide (i < n) && ! b.get i) := by
  have hn := h.1
  have hlen := h.2.1
  rw [get_def, nbits_complement, hn, getD_words_complement h, get_def, hn]
  by_cases hni : n ≤ i
  · simp [hni, Nat.not_lt_of_le hni]
  · have hdiv : i / 64 < (n + 63) / 64 := by omega
    rw [if_neg hni, if_pos hdiv, if_neg hni]
    have hin : i < n := by omega
    have hm64 : i % 64 < 64 := Nat.mod_lt i (by omega)
    by_cases htrail : n % 64 ≠ 0 ∧ i / 64 = (n + 63) / 64 - 1
    · rw [if_pos htrail, Nat.testBit_and, Nat.testBit_xor, testBit_u64Max,
        Nat.testBit_two_pow_sub_one]
      have hm : i % 64 < n % 64 := by
        rcases htrail with ⟨hm, hk⟩
        omega
      simp [hm64, hm, hin]
    · rw [if_neg htrail, Nat.testBit_xor, testBit_u64Max]
      simp [hm64, hin]

theorem wf_complement {b : BitSet} {n : Nat} (h : wfBitSet b n) :
    wfBitSet b.complement n := by
  have hn := h.1
  have hlen := h.2.1
  refine ⟨nbits_complement b ▸ hn, (words_length_complement b).trans hlen, ?_⟩
  intro k bit hk
  rw [getD_words_complement h] at hk
  by_cases hdiv : k < (n + 63) / 64
  · rw [if_pos hdiv] at hk
    by_cases htrail : n % 64 ≠ 0 ∧ k = (n + 63) / 64 - 1
    · rw [if_pos htrail] at hk
      rw [Nat.testBit_and, Nat.testBit_two_pow_sub_one] at hk
      rcases Bool.and_eq_true_iff.mp hk with ⟨_, hb2⟩
      have hblt : bit < n % 64 := by simpa using hb2
      have hm64 : n % 64 < 64 := Nat.mod_lt n (by omega)
      rcases htrail with ⟨hm, hke⟩
      exact ⟨by omega, by omega⟩
    · rw [if_neg htrail] at hk
      rw [Nat.testBit_xor, testBit_u64Max] at hk
      have hblt : bit < 64 := by
        by_contra hb
        rw [decide_eq_false_iff_not.mpr (fun hc : bit < 64 => hb hc)] at hk
        have hbf : (b.words.getD k 0).testBit bit = false := by
          by_contra hbt
          have := h.2.2 k bit (by revert hbt; cases (b.words.getD k 0).testBit bit <;> simp)
          omega
        rw [hbf] at hk
        simp at hk
      refine ⟨hblt, ?_⟩
      rw [Classical.not_and_iff_or_not_not] at htrail
      rcases htrail with hm | hke
      · have hm0 : n % 64 = 0 := by omega
        omega
      · omega
  · rw [if_neg hdiv] at hk
    simp at hk

theorem getD_eq_getElem {α : Type} (l : List α) (k : Nat) (d : α)
    (hk : k < l.length) : l.getD k d = l[k] := by
  rw [List.getD_eq_getElem?_getD, List.getElem?_eq_getElem hk]
  rfl

/-- Two well-formed bitsets of the same width with the same bits are equal. -/
theorem wf_ext {a b : BitSet} {n : Nat} (ha : wfBitSet a n) (hb : wfBitSet b n)
    (h : ∀ i, a.get i = b.get i) : a = b := by
  rcases a with ⟨aw, an⟩
  rcases b with ⟨bw, bn⟩
  obtain ⟨han, halen, habits⟩ := ha
  obtain ⟨hbn, hblen, hbbits⟩ := hb
  simp only at han hbn halen hblen
  have hnb : an = bn := han.trans hbn.symm
  refine congrArg₂ BitSet.mk ?_ hnb
  apply List.ext_getElem (by omega)
  intro k hk1 hk2
  apply Nat.eq_of_testBit_eq
  intro bit
  by_cases hbit : bit < 64
  · by_cases hpos : 64 * k + bit < n
    · have hget := h (64 * k + bit)
      rw [get_mk, get_mk, if_neg (by omega), if_neg (by omega)] at hget
      have hdiv : (64 * k + bit) / 64 = k := by omega
      have hmod : (64 * k + bit) % 64 = bit := by omega
      rw [hdiv, hmod, getD_eq_getElem _ _ _ hk1, getD_eq_getElem _ _ _ hk2] at hget
      exact hget
    · have h1 : aw[k].testBit bit = false := by
        by_contra hc
        have := habits k bit (by
          rw [getD_eq_getElem _ _ _ hk1]
          revert hc
          cases aw[k].testBit bit <;> simp)
        omega
      have h2 : bw[k].testBit bit = false := by
        by_contra hc
        have := hbbits k bit (by
          rw [getD_eq_getElem _ _ _ hk2]
          revert hc
          cases bw[k].testBit bit <;> simp)
        omega
      rw [h1, h2]
  · have h1 : aw[k].testBit bit = false := by
      by_contra hc
      have := habits k bit (by
        rw [getD_eq_getElem _ _ _ hk1]
        revert hc
        cases aw[k].testBit bit <;> simp)
      omega
    have h2 : bw[k].testBit bit = false := by
      by_contra hc
      have := hbbits k bit (by
        rw [getD_eq_getElem _ _ _ hk2]
        revert hc
        cases bw[k].testBit bit <;> simp)
      omega
    rw [h1, h2]

/-- `iter_bits` yields exactly the positions whose `get` is true. -/
theorem mem_iter_bits {b : BitSet} {i : Nat} :
    i ∈ b.iter_bits ↔ b.get i = true := by
  unfold BitSet.iter_bits
  rw [List.mem_flatMap]
  constructor
  · rintro ⟨p, hp, hmem⟩
    rw [List.mem_filterMap] at hmem
    rcases hmem with ⟨bit, hbit, heq⟩
    rw [List.mem_range] at hbit
    by_cases hc : (p.snd.testBit bit && decide (p.fst * 64 + bit < b.n_bits)) = true
    · rw [if_pos hc] at heq
      rcases Bool.and_eq_true_iff.mp hc with ⟨htb, hlt⟩
      have hlt' : p.fst * 64 + bit < b.n_bits := by simpa using hlt
      have hi : i = p.fst * 64 + bit := by
        cases heq
        rfl
      rcases p with ⟨pi, pw⟩
      have hpmem : b.words[pi]? = some pw := by
        rw [← List.mk_mem_enum_iff_getElem?]
        exact hp
      have hplen : pi < b.words.length := by
        by_contra hcon
        rw [List.getElem?_eq_none (by omega)] at hpmem
        cases hpmem
      rw [get_def, if_neg (by omega)]
      have hdiv : i / 64 = pi := by simp only at hi; omega
      have hmod : i % 64 = bit := by simp only at hi; omega
      rw [hdiv, hmod, getD_eq_getElem _ _ _ hplen]
      have : b.words[pi] = pw := by
        rw [List.getElem?_eq_getElem hplen] at hpmem
        cases hpmem
        rfl
      rw [this]
      exact htb
    · rw [if_neg hc] at heq
      cases heq
  · intro hget
    rw [get_def] at hget
    by_cases hni : b.n_bits ≤ i
    · rw [if_pos hni] at hget
      cases hget
    · rw [if_neg hni] at hget
      have hlen : i / 64 < b.words.length := by
        by_contra hcon
        rw [getD_ge _ _ _ (by omega)] at hget
        rw [Nat.zero_testBit] at hget
        cases hget
      refine ⟨(i / 64, b.words[i / 64]), ?_, ?_⟩
      · rw [List.mk_mem_enum_iff_getElem?, List.getElem?_eq_getElem hlen]
      · rw [List.mem_filterMap]
        refine ⟨i % 64, by rw [List.mem_range]; omega, ?_⟩
        have harith : i / 64 * 64 + i % 64 = i := by omega
        have hcondt : (b.words[i / 64].testBit (i % 64) &&
            decide (i / 64 * 64 + i % 64 < b.n_bits)) = true := by
          rw [harith]
          simp only [Bool.and_eq_true, decide_eq_true_eq]
          refine ⟨?_, by omega⟩
          rw [getD_eq_getElem _ _ _ hlen] at hget
          exact hget
        rw [if_pos hcondt, harith]

theorem get_true_lt {b : BitSet} {i : Nat} (h : b.get i = true) :
    i < b.n_bits := by
  rw [get_def] at h
  by_cases hc : b.n_bits ≤ i
  · rw [if_pos hc] at h
    cases h
  · omega

theorem countP_lt {α : Type} (l : List α) (p q : α → Bool)
    (h : ∀ x ∈ l, p x = true → q x = true) (x₀ : α) (hx : x₀ ∈ l)
    (hp : p x₀ = false) (hq : q x₀ = true) :
    l.countP p < l.countP q := by
  induction l with
  | nil => cases hx
  | cons a l ih =>
    rcases List.mem_cons.mp hx with rfl | hx2
    · rw [List.countP_cons_of_neg p _ (by simp [hp]),
        List.countP_cons_of_pos q _ hq]
      have hle := List.countP_mono_left
        (fun x hxl hpx => h x (List.mem_cons_of_mem _ hxl) hpx)
      omega
    · have htail : ∀ x ∈ l, p x = true → q x = true :=
        fun x hxl => h x (List.mem_cons_of_mem _ hxl)
      have hstep := ih htail hx2
      by_cases hpa : p a = true
      · rw [List.countP_cons_of_pos p _ hpa,
          List.countP_cons_of_pos q _ (h a (List.mem_cons_self _ _) hpa)]
        omega
      · rw [List.countP_cons_of_neg p _ hpa, List.countP_cons q]
        omega

theorem sum_popCount_eq (ws : List Nat) :
    (ws.map BitSet.popCount64).sum =
      (List.range (64 * ws.length)).countP
        (fun i => (ws.getD (i / 64) 0).testBit (i % 64)) := by
  induction ws with
  | nil => simp
  | cons w ws ih =>
    rw [List.map_cons, List.sum_cons, List.length_cons]
    have h1 : 64 * (ws.length + 1) = 64 + 64 * ws.length := by omega
    rw [h1, List.range_add, List.countP_append, List.countP_map]
    have hhead : (List.range 64).countP
        (fun i => ((w :: ws).getD (i / 64) 0).testBit (i % 64)) =
          BitSet.popCount64 w := by
      unfold BitSet.popCount64
      apply List.countP_congr
      intro i hi
      rw [List.mem_range] at hi
      have hdiv : i / 64 = 0 := by omega
      have hmod : i % 64 = i := by omega
      rw [hdiv, hmod, List.getD_cons_zero]
    have htail : (List.range (64 * ws.length)).countP
        ((fun i => ((w :: ws).getD (i / 64) 0).testBit (i % 64)) ∘ (64 + ·)) =
          (List.range (64 * ws.length)).countP
            (fun i => (ws.getD (i / 64) 0).testBit (i % 64)) := by
      apply List.countP_congr
      intro i hi
      simp only [Function.comp_apply]
      have hdiv : (64 + i) / 64 = i / 64 + 1 := by omega
      have hmod : (64 + i) % 64 = i % 64 := by omega
      rw [hdiv, hmod, List.getD_cons_succ]
    rw [hhead, htail, ih]

theorem count_eq_countP {b : BitSet} {n : Nat} (h : wfBitSet b n) :
    b.count = (List.range n).countP (fun i => b.get i) := by
  unfold BitSet.count
  rw [sum_popCount_eq, h.2.1]
  have hsplit : 64 * ((n + 63) / 64) = n + (64 * ((n + 63) / 64) - n) := by omega
  rw [hsplit, List.range_add, List.countP_append, List.countP_map]
  have h2 : (List.range (64 * ((n + 63) / 64) - n)).countP
      ((fun i => (b.words.getD (i / 64) 0).testBit (i % 64)) ∘ (n + ·)) = 0 := by
    rw [List.countP_eq_zero]
    intro i hi
    simp only [Function.comp_apply]
    intro hc
    have := h.masked ((n + i) / 64) ((n + i) % 64) (by rw [h.1]; omega)
    rw [this] at hc
    cases hc
  rw [h2, Nat.add_zero]
  apply List.countP_congr
  intro i hi
  rw [List.mem_range] at hi
  rw [get_def, h.1, if_neg (by omega)]

/-- Strict monotonicity of popcount for well-formed bitsets. -/
theorem count_lt_count {a b : BitSet} {n : Nat} (ha : wfBitSet a n)
    (hb : wfBitSet b n) (hsub : ∀ i, a.get i = true → b.get i = true)
    (x : Nat) (hxa : a.get x = false) (hxb : b.get x = true) :
    a.count < b.count := by
  rw [count_eq_countP ha, count_eq_countP hb]
  apply countP_lt _ _ _ (fun i _ hp => hsub i hp) x _ hxa hxb
  rw [List.mem_range]
  have := get_true_lt hxb
  have hn := hb.1
  omega

theorem countP_range_lt (N j : Nat) :
    (List.range N).countP (fun i => decide (i < j)) = min j N := by
  induction N with
  | zero => simp
  | succ N ih =>
    rw [List.range_succ, List.countP_append, ih, List.countP_singleton]
    by_cases hj : N < j
    · rw [if_pos (by simpa using hj)]
      omega
    · rw [if_neg (by simpa using hj)]
      omega

theorem getD_words_from_u128 (v n k : Nat) :
    (BitSet.from_u128 v n).words.getD k 0 =
      if k < (n + 63) / 64 then
        (if k = 0 then v % 2 ^ 64 else if k = 1 then (v >>> 64) % 2 ^ 64 else 0)
      else 0 := by
  unfold BitSet.from_u128
  simp only
  by_cases h1 : 1 ≤ (n + 63) / 64
  · by_cases h2 : 2 ≤ (n + 63) / 64
    · rw [if_pos h1, if_pos h2]
      simp only [getD_set, List.length_set, List.length_replicate, getD_replicate]
      by_cases hk0 : k = 0
      · subst hk0
        rw [if_neg (fun hc : _ ∧ _ => by omega), if_pos ⟨rfl, by omega⟩,
          if_pos (by omega), if_pos rfl]
      · by_cases hk1 : k = 1
        · subst hk1
          rw [if_pos ⟨rfl, by omega⟩, if_pos (by omega), if_neg (by omega),
            if_pos rfl]
        · rw [if_neg (fun hc : _ ∧ _ => by omega),
            if_neg (fun hc : _ ∧ _ => by omega)]
          by_cases hk : k < (n + 63) / 64
          · rw [if_pos hk, if_pos hk, if_neg hk0, if_neg hk1]
          · rw [if_neg hk, if_neg hk]
    · have h1e : (n + 63) / 64 = 1 := by omega
      rw [if_pos h1, if_neg h2]
      simp only [getD_set, List.length_replicate, getD_replicate]
      by_cases hk0 : k = 0
      · subst hk0
        rw [if_pos ⟨rfl, by omega⟩, if_pos (by omega), if_pos rfl]
      · rw [if_neg (fun hc : _ ∧ _ => by omega)]
        by_cases hk : k < (n + 63) / 64
        · omega
        · rw [if_neg hk, if_neg hk]
  · have h0 : (n + 63) / 64 = 0 := by omega
    rw [if_neg h1, if_neg (by omega)]
    simp only [getD_replicate, h0]
    rw [if_neg (by omega), if_neg (by omega)]

theorem nbits_from_u128 (v n : Nat) : (BitSet.from_u128 v n).n_bits = n := rfl

theorem words_length_from_u128 (v n : Nat) :
    (BitSet.from_u128 v n).words.length = (n + 63) / 64 := by
  unfold BitSet.from_u128
  simp only
  split <;> split <;> simp

theorem get_from_u128 {v : Nat} (hv : v < 2 ^ 128) (n i : Nat) :
    (BitSet.from_u128 v n).get i = (decide (i < n) && v.testBit i) := by
  rw [get_def, nbits_from_u128, getD_words_from_u128]
  by_cases hni : n ≤ i
  · simp [hni, Nat.not_lt_of_le hni]
  · have hdiv : i / 64 < (n + 63) / 64 := by omega
    rw [if_neg hni, if_pos hdiv]
    by_cases hk0 : i / 64 = 0
    · rw [if_pos hk0, Nat.testBit_mod_two_pow]
      have : i % 64 = i := by omega
      rw [this]
      have hm64 : i % 64 < 64 := by omega
      have hi64 : i < 64 := by omega
      have hin : i < n := by omega
      simp [hm64, hi64, hin]
    · by_cases hk1 : i / 64 = 1
      · rw [if_neg hk0, if_pos hk1, Nat.testBit_mod_two_pow, Nat.testBit_shiftRight]
        have h64 : 64 + i % 64 = i := by omega
        rw [h64]
        have hm64 : i % 64 < 64 := by omega
        have hin : i < n := by omega
        simp [hm64, hin]
      · rw [if_neg hk0, if_neg hk1]
        have hge : 128 ≤ i := by omega
        have : v.testBit i = false :=
          Nat.testBit_lt_two_pow (Nat.lt_of_lt_of_le hv (Nat.pow_le_pow_right (by omega) hge))
        simp [this]

theorem wf_from_u128 {v n : Nat} (hv : v < 2 ^ n) :
    wfBitSet (BitSet.from_u128 v n) n := by
  refine ⟨nbits_from_u128 v n, words_length_from_u128 v n, ?_⟩
  intro k bit hk
  rw [getD_words_from_u128] at hk
  by_cases hdiv : k < (n + 63) / 64
  · rw [if_pos hdiv] at hk
    by_cases hk0 : k = 0
    · subst hk0
      rw [if_pos rfl, Nat.testBit_mod_two_pow] at hk
      rcases Bool.and_eq_true_iff.mp hk with ⟨hb1, hb2⟩
      have hblt : bit < 64 := by simpa using hb1
      refine ⟨hblt, ?_⟩
      have hge := Nat.testBit_implies_ge hb2
      by_contra hc
      have : 2 ^ n ≤ 2 ^ bit := Nat.pow_le_pow_right (by omega) (by omega)
      omega
    · by_cases hk1 : k = 1
      · subst hk1
        rw [if_neg hk0, if_pos rfl, Nat.testBit_mod_two_pow,
          Nat.testBit_shiftRight] at hk
        rcases Bool.and_eq_true_iff.mp hk with ⟨hb1, hb2⟩
        have hblt : bit < 64 := by simpa using hb1
        refine ⟨hblt, ?_⟩
        have hge := Nat.testBit_implies_ge hb2
        by_contra hc
        have : 2 ^ n ≤ 2 ^ (64 + bit) := Nat.pow_le_pow_right (by omega) (by omega)
        omega
      · rw [if_neg hk0, if_neg hk1] at hk
        simp at hk
  · rw [if_neg hdiv] at hk
    simp at hk

/-- Boolean subset relation on bitsets. -/
def bsubset (a b : BitSet) : Prop :=
  ∀ i, a.get i = true → b.get i = true

/-- Well-formed context: dual incidence families of the right lengths and
widths, mutually consistent (`i ∈ extents[j] ⇔ j ∈ intents[i]`). -/
def wfCtx (ctx : FcaContext) : Prop :=
  ctx.extents.length = ctx.n_properties ∧
  ctx.intents.length = ctx.n_objects ∧
  (∀ e ∈ ctx.extents, wfBitSet e ctx.n_objects) ∧
  (∀ b ∈ ctx.intents, wfBitSet b ctx.n_properties) ∧
  (∀ i j, i < ctx.n_objects → j < ctx.n_properties →
    (ctx.extents.getD j default).get i = (ctx.intents.getD i default).get j)

/-- Well-formed raw driver inputs: right lengths, every encoded bitset value
below `2 ^ width` (and representable as `u128`), and mutually consistent. -/
def wellFormedRaw (n_objects n_properties : Nat)
    (extents_raw intents_raw : List Nat) : Prop :=
  extents_raw.length = n_properties ∧ intents_raw.length = n_objects ∧
  (∀ v ∈ extents_raw, v < 2 ^ n_objects ∧ v < 2 ^ 128) ∧
  (∀ v ∈ intents_raw, v < 2 ^ n_properties ∧ v < 2 ^ 128) ∧
  (∀ i j, i < n_objects → j < n_properties →
    (extents_raw.getD j 0).testBit i = (intents_raw.getD i 0).testBit j)

theorem getD_map_bitset (f : Nat → BitSet) (l : List Nat) (k : Nat)
    (hk : k < l.length) : (l.map f).getD k default = f (l.getD k 0) := by
  rw [getD_eq_getElem _ _ _ (by simpa using hk), getD_eq_getElem _ _ _ hk,
    List.getElem_map]

theorem wfCtx_new (nO nP : Nat) (er ir : List Nat)
    (h : wellFormedRaw nO nP er ir) :
    wfCtx (FcaContext.new nO nP er ir) := by
  obtain ⟨hle, hli, hve, hvi, hcons⟩ := h
  refine ⟨by simp [FcaContext.new, hle], by simp [FcaContext.new, hli], ?_, ?_, ?_⟩
  · intro e he
    rw [FcaContext.new] at he
    simp only [List.mem_map] at he
    rcases he with ⟨v, hv, rfl⟩
    exact wf_from_u128 (hve v hv).1
  · intro b hb
    rw [FcaContext.new] at hb
    simp only [List.mem_map] at hb
    rcases hb with ⟨v, hv, rfl⟩
    exact wf_from_u128 (hvi v hv).1
  · intro i j hi hj
    have hno : (FcaContext.new nO nP er ir).n_objects = nO := rfl
    have hnp : (FcaContext.new nO nP er ir).n_properties = nP := rfl
    show ((er.map (fun e => BitSet.from_u128 e nO)).getD j default).get i =
      ((ir.map (fun v => BitSet.from_u128 v nP)).getD i default).get j
    rw [getD_map_bitset _ _ _ (by omega), getD_map_bitset _ _ _ (by omega)]
    rw [get_from_u128 (hve _ (by
        have : er.getD j 0 = er[j] := getD_eq_getElem _ _ _ (by omega)
        rw [this]
        exact List.getElem_mem _)).2,
      get_from_u128 (hvi _ (by
        have : ir.getD i 0 = ir[i] := getD_eq_getElem _ _ _ (by omega)
        rw [this]
        exact List.getElem_mem _)).2]
    rw [hno] at hi
    rw [hnp] at hj
    have hdi : decide (i < nO) = true := by simpa using hi
    have hdj : decide (j < nP) = true := by simpa using hj
    rw [hdi, hdj, Bool.true_and, Bool.true_and, hcons i j hi hj]

theorem foldl_and_wf {n₂ : Nat} (sets : List BitSet)
    (hsets : ∀ s ∈ sets, wfBitSet s n₂) (l : List Nat) (init : BitSet)
    (hinit : wfBitSet init n₂) :
    wfBitSet (l.foldl (fun r i =>
      if i < sets.length then r.and (sets.getD i default) else r) init) n₂ := by
  induction l generalizing init with
  | nil => exact hinit
  | cons a l ih =>
    rw [List.foldl_cons]
    apply ih
    by_cases ha : a < sets.length
    · rw [if_pos ha]
      refine wf_and hinit (hsets _ ?_)
      rw [getD_eq_getElem _ _ _ ha]
      exact List.getElem_mem _
    · rw [if_neg ha]
      exact hinit

theorem foldl_and_get {n₂ : Nat} (sets : List BitSet)
    (hsets : ∀ s ∈ sets, wfBitSet s n₂) (l : List Nat) (init : BitSet)
    (hinit : wfBitSet init n₂) (j : Nat) :
    (l.foldl (fun r i =>
      if i < sets.length then r.and (sets.getD i default) else r) init).get j =
    (init.get j && l.all (fun i =>
      if i < sets.length then (sets.getD i default).get j else true)) := by
  induction l generalizing init with
  | nil => simp
  | cons a l ih =>
    rw [List.foldl_cons, List.all_cons]
    by_cases ha : a < sets.length
    · have hmem : sets.getD a default ∈ sets := by
        rw [getD_eq_getElem _ _ _ ha]
        exact List.getElem_mem _
      rw [ih _ (by rw [if_pos ha]; exact wf_and hinit (hsets _ hmem))]
      rw [if_pos ha, if_pos ha, get_and hinit (hsets _ hmem)]
      rw [Bool.and_assoc]
    · rw [ih _ (by rw [if_neg ha]; exact hinit), if_neg ha, if_neg ha]
      rw [Bool.true_and]

theorem wf_prime_objects {ctx : FcaContext} (hc : wfCtx ctx) (A : BitSet) :
    wfBitSet (ctx.prime_objects A) ctx.n_properties := by
  unfold FcaContext.prime_objects
  exact foldl_and_wf _ hc.2.2.2.1 _ _ (wf_supremum _)

theorem wf_prime_properties {ctx : FcaContext} (hc : wfCtx ctx) (B : BitSet) :
    wfBitSet (ctx.prime_properties B) ctx.n_objects := by
  unfold FcaContext.prime_properties
  exact foldl_and_wf _ hc.2.2.1 _ _ (wf_supremum _)

/-- Membership characterisation of `prime_objects` for a well-formed input. -/
theorem mem_prime_objects {ctx : FcaContext} (hc : wfCtx ctx) {A : BitSet}
    (hA : wfBitSet A ctx.n_objects) (j : Nat) :
    ((ctx.prime_objects A).get j = true ↔
      j < ctx.n_properties ∧
        ∀ i, A.get i = true → (ctx.intents.getD i default).get j = true) := by
  unfold FcaContext.prime_objects
  rw [foldl_and_get _ hc.2.2.2.1 _ _ (wf_supremum _), get_supremum]
  rw [Bool.and_eq_true_iff]
  constructor
  · rintro ⟨h1, h2⟩
    refine ⟨by simpa using h1, ?_⟩
    intro i hi
    have hil : i < ctx.intents.length := by
      have := get_true_lt hi
      have := hA.1
      have := hc.2.1
      omega
    have := (List.all_eq_true.mp h2) i (mem_iter_bits.mpr hi)
    rw [if_pos hil] at this
    exact this
  · rintro ⟨h1, h2⟩
    refine ⟨by simpa using h1, ?_⟩
    rw [List.all_eq_true]
    intro i hi
    have hget := mem_iter_bits.mp hi
    by_cases hil : i < ctx.intents.length
    · rw [if_pos hil]
      exact h2 i hget
    · rw [if_neg hil]

theorem bsubset_antisymm_get {a b : BitSet} (h1 : bsubset a b)
    (h2 : bsubset b a) (i : Nat) : a.get i = b.get i := by
  cases ha : a.get i
  · cases hb : b.get i
    · rfl
    · have := h2 i hb
      rw [ha] at this
      cases this
  · rw [h1 i ha]

/-- Membership characterisation of `prime_properties` for a well-formed
input. -/
theorem mem_prime_properties {ctx : FcaContext} (hc : wfCtx ctx) {B : BitSet}
    (hB : wfBitSet B ctx.n_properties) (i : Nat) :
    ((ctx.prime_properties B).get i = true ↔
      i < ctx.n_objects ∧
        ∀ j, B.get j = true → (ctx.extents.getD j default).get i = true) := by
  unfold FcaContext.prime_properties
  rw [foldl_and_get _ hc.2.2.1 _ _ (wf_supremum _), get_supremum]
  rw [Bool.and_eq_true_iff]
  constructor
  · rintro ⟨h1, h2⟩
    refine ⟨by simpa using h1, ?_⟩
    intro j hj
    have hjl : j < ctx.extents.length := by
      have := get_true_lt hj
      have := hB.1
      have := hc.1
      omega
    have := (List.all_eq_true.mp h2) j (mem_iter_bits.mpr hj)
    rw [if_pos hjl] at this
    exact this
  · rintro ⟨h1, h2⟩
    refine ⟨by simpa using h1, ?_⟩
    rw [List.all_eq_true]
    intro j hj
    have hget := mem_iter_bits.mp hj
    by_cases hjl : j < ctx.extents.length
    · rw [if_pos hjl]
      exact h2 j hget
    · rw [if_neg hjl]


/-- The Galois connection `A ⊆ B′ ⇔ B ⊆ A′` (needs the consistency
invariant). -/
theorem galois {ctx : FcaContext} (hc : wfCtx ctx) {A B : BitSet}
    (hA : wfBitSet A ctx.n_objects) (hB : wfBitSet B ctx.n_properties) :
    bsubset A (ctx.prime_properties B) ↔ bsubset B (ctx.prime_objects A) := by
  constructor
  · intro h j hj
    rw [mem_prime_objects hc hA]
    refine ⟨by have := get_true_lt hj; have := hB.1; omega, ?_⟩
    intro i hi
    have hmem := h i hi
    rw [mem_prime_properties hc hB] at hmem
    have h2 := hmem.2 j hj
    rw [hc.2.2.2.2 i j (by have := get_true_lt hi; have := hA.1; omega)
      (by have := get_true_lt hj; have := hB.1; omega)] at h2
    exact h2
  · intro h i hi
    rw [mem_prime_properties hc hB]
    refine ⟨by have := get_true_lt hi; have := hA.1; omega, ?_⟩
    intro j hj
    have hmem := h j hj
    rw [mem_prime_objects hc hA] at hmem
    have h2 := hmem.2 i hi
    rw [hc.2.2.2.2 i j (by have := get_true_lt hi; have := hA.1; omega)
      (by have := get_true_lt hj; have := hB.1; omega)]
    exact h2

theorem prime_objects_antitone {ctx : FcaContext} (hc : wfCtx ctx)
    {A C : BitSet} (hA : wfBitSet A ctx.n_objects)
    (hC : wfBitSet C ctx.n_objects) (h : bsubset A C) :
    bsubset (ctx.prime_objects C) (ctx.prime_objects A) := by
  intro j hj
  rw [mem_prime_objects hc hC] at hj
  rw [mem_prime_objects hc hA]
  exact ⟨hj.1, fun i hi => hj.2 i (h i hi)⟩

theorem prime_properties_antitone {ctx : FcaContext} (hc : wfCtx ctx)
    {B D : BitSet} (hB : wfBitSet B ctx.n_properties)
    (hD : wfBitSet D ctx.n_properties) (h : bsubset B D) :
    bsubset (ctx.prime_properties D) (ctx.prime_properties B) := by
  intro i hi
  rw [mem_prime_properties hc hD] at hi
  rw [mem_prime_properties hc hB]
  exact ⟨hi.1, fun j hj => hi.2 j (h j hj)⟩

/-- Extensivity `A ⊆ A″` on object sets. -/
theorem doubleprime_obj_extensive {ctx : FcaContext} (hc : wfCtx ctx)
    {A : BitSet} (hA : wfBitSet A ctx.n_objects) :
    bsubset A (ctx.prime_properties (ctx.prime_objects A)) :=
  (galois hc hA (wf_prime_objects hc A)).mpr (fun _ hj => hj)

/-- Extensivity `B ⊆ B″` on property sets. -/
theorem doubleprime_prop_extensive {ctx : FcaContext} (hc : wfCtx ctx)
    {B : BitSet} (hB : wfBitSet B ctx.n_properties) :
    bsubset B (ctx.prime_objects (ctx.prime_properties B)) :=
  (galois hc (wf_prime_properties hc B) hB).mp (fun _ hi => hi)

/-- `A‴ = A′` as bitsets. -/
theorem prime_triple_objects {ctx : FcaContext} (hc : wfCtx ctx) {A : BitSet}
    (hA : wfBitSet A ctx.n_objects) :
    ctx.prime_objects (ctx.prime_properties (ctx.prime_objects A)) =
      ctx.prime_objects A := by
  apply wf_ext (wf_prime_objects hc _) (wf_prime_objects hc _)
  apply bsubset_antisymm_get
  · exact prime_objects_antitone hc hA (wf_prime_properties hc _)
      (doubleprime_obj_extensive hc hA)
  · exact doubleprime_prop_extensive hc (wf_prime_objects hc A)

/-- `B‴ = B′` as bitsets. -/
theorem prime_triple_properties {ctx : FcaContext} (hc : wfCtx ctx) {B : BitSet}
    (hB : wfBitSet B ctx.n_properties) :
    ctx.prime_properties (ctx.prime_objects (ctx.prime_properties B)) =
      ctx.prime_properties B := by
  apply wf_ext (wf_prime_properties hc _) (wf_prime_properties hc _)
  apply bsubset_antisymm_get
  · exact prime_properties_antitone hc hB (wf_prime_objects hc _)
      (doubleprime_prop_extensive hc hB)
  · exact doubleprime_obj_extensive hc (wf_prime_properties hc B)


/-! ### `sub_one` lemmas -/

theorem subOneWords_length (ws : List Nat) :
    (BitSet.subOneWords ws).length = ws.length := by
  induction ws with
  | nil => rfl
  | cons w ws ih =>
    unfold BitSet.subOneWords
    by_cases hw : w = 0
    · rw [if_pos hw]
      simp [ih]
    · rw [if_neg hw]
      simp

theorem subOneWords_getD_cases (ws : List Nat) (k : Nat) :
    (BitSet.subOneWords ws).getD k 0 = u64Max ∨
      (BitSet.subOneWords ws).getD k 0 ≤ ws.getD k 0 := by
  induction ws generalizing k with
  | nil => right; exact Nat.le_refl _
  | cons w ws ih =>
    unfold BitSet.subOneWords
    by_cases hw : w = 0
    · rw [if_pos hw]
      cases k with
      | zero => left; rfl
      | succ k => simpa using ih k
    · rw [if_neg hw]
      cases k with
      | zero => right; simp only [List.getD_cons_zero]; omega
      | succ k => right; simp

theorem lt_two_pow_64_of_wf_word {w : Nat}
    (h : ∀ bit, w.testBit bit = true → bit < 64) : w < 2 ^ 64 := by
  apply Nat.lt_pow_two_of_testBit
  intro i hi
  by_contra hc
  have : w.testBit i = true := by
    revert hc
    cases w.testBit i <;> simp
  have := h i this
  omega

theorem nbits_sub_one (b : BitSet) : b.sub_one.n_bits = b.n_bits := by
  unfold BitSet.sub_one
  split <;> rfl

theorem words_length_sub_one (b : BitSet) :
    b.sub_one.words.length = b.words.length := by
  unfold BitSet.sub_one
  split <;> simp [subOneWords_length]

theorem wf_word_bits {b : BitSet} {n : Nat} (h : wfBitSet b n) (k : Nat) :
    b.words.getD k 0 < 2 ^ 64 := by
  apply lt_two_pow_64_of_wf_word
  intro bit hbit
  exact (h.2.2 k bit hbit).1

theorem wf_sub_one {b : BitSet} {n : Nat} (h : wfBitSet b n) :
    wfBitSet b.sub_one n := by
  have hn := h.1
  have hlen := h.2.1
  refine ⟨(nbits_sub_one b).trans hn, (words_length_sub_one b).trans hlen, ?_⟩
  intro k bit hk
  have hword : ∀ k', (BitSet.subOneWords b.words).getD k' 0 < 2 ^ 64 := by
    intro k'
    rcases subOneWords_getD_cases b.words k' with hc | hc
    · rw [hc]
      unfold u64Max
      omega
    · have := wf_word_bits h k'
      omega
  have hbit64 : ∀ k' bit', ((BitSet.subOneWords b.words).getD k' 0).testBit bit' = true →
      bit' < 64 := by
    intro k' bit' hb
    by_contra hc
    have := Nat.testBit_lt_two_pow
      (Nat.lt_of_lt_of_le (hword k')
        (Nat.pow_le_pow_right (by omega) (show 64 ≤ bit' by omega)))
    rw [this] at hb
    cases hb
  unfold BitSet.sub_one at hk
  by_cases hm : b.n_bits % 64 ≠ 0
  · rw [if_pos hm] at hk
    simp only [getD_set, subOneWords_length] at hk
    rw [hn] at hm
    by_cases hcond : b.words.length - 1 = k ∧ b.words.length - 1 < b.words.length
    · rw [if_pos hcond] at hk
      rw [Nat.testBit_and, Nat.testBit_two_pow_sub_one] at hk
      rcases Bool.and_eq_true_iff.mp hk with ⟨hb1, hb2⟩
      have hblt : bit < b.n_bits % 64 := by simpa using hb2
      rw [hn] at hblt
      rcases hcond with ⟨hke, hklt⟩
      refine ⟨by omega, ?_⟩
      rw [hlen] at hke
      omega
    · rw [if_neg hcond] at hk
      have hb64 := hbit64 k bit hk
      refine ⟨hb64, ?_⟩
      -- k is not the trailing word, so k + 1 < length or k ≥ length
      by_cases hklen : k < b.words.length
      · have hkne : k < b.words.length - 1 := by
          rcases Classical.not_and_iff_or_not_not.mp hcond with hc | hc
          · omega
          · omega
        rw [hlen] at hkne
        omega
      · exfalso
        rw [getD_ge _ _ _ (by rw [subOneWords_length]; omega)] at hk
        rw [Nat.zero_testBit] at hk
        cases hk
  · rw [if_neg hm] at hk
    simp only at hk
    have hb64 := hbit64 k bit hk
    have hm0 : n % 64 = 0 := by rw [hn] at hm; omega
    refine ⟨hb64, ?_⟩
    by_cases hklen : k < b.words.length
    · rw [hlen] at hklen
      omega
    · exfalso
      rw [getD_ge _ _ _ (by rw [subOneWords_length]; omega)] at hk
      rw [Nat.zero_testBit] at hk
      cases hk


theorem set_replicate_split {α : Type} (m p : Nat) (a v : α) (hp : p < m) :
    (List.replicate m a).set p v =
      List.replicate p a ++ v :: List.replicate (m - p - 1) a := by
  induction p generalizing m with
  | zero =>
    cases m with
    | zero => omega
    | succ m => simp [List.replicate_succ]
  | succ p ih =>
    cases m with
    | zero => omega
    | succ m =>
      rw [List.replicate_succ, List.set_cons_succ, ih m (by omega)]
      simp [List.replicate_succ]

theorem getD_replicate_append {α : Type} (p : Nat) (a : α) (l : List α)
    (k : Nat) (d : α) :
    (List.replicate p a ++ l).getD k d =
      if k < p then a else l.getD (k - p) d := by
  by_cases hk : k < p
  · rw [if_pos hk, List.getD_eq_getElem?_getD,
      List.getElem?_append_left (by simpa using hk), List.getElem?_replicate,
      if_pos hk]
    rfl
  · rw [if_neg hk, List.getD_eq_getElem?_getD,
      List.getElem?_append_right (by simpa using hk), List.getD_eq_getElem?_getD]
    simp

theorem subOneWords_replicate_zero (p : Nat) (w : Nat) (rest : List Nat)
    (hw : w ≠ 0) :
    BitSet.subOneWords (List.replicate p 0 ++ w :: rest) =
      List.replicate p u64Max ++ (w - 1) :: rest := by
  induction p with
  | zero =>
    unfold BitSet.subOneWords
    simp [hw]
  | succ p ih =>
    rw [List.replicate_succ, List.cons_append]
    unfold BitSet.subOneWords
    rw [if_pos rfl, ih]
    simp [List.replicate_succ]

theorem atom_words {n j : Nat} (hj : j < n) :
    ((BitSet.new n).setBit j).words =
      List.replicate (j / 64) 0 ++
        2 ^ (j % 64) :: List.replicate ((n + 63) / 64 - j / 64 - 1) 0 := by
  rw [setBit_lt (show j < (BitSet.new n).n_bits from hj)]
  show ((List.replicate ((n + 63) / 64) 0).set (j / 64)
      ((List.replicate ((n + 63) / 64) (0 : Nat)).getD (j / 64) 0 ||| 2 ^ (j % 64))) = _
  rw [getD_replicate, if_pos (by omega : j / 64 < (n + 63) / 64)]
  rw [Nat.zero_or, set_replicate_split _ _ _ _ (by omega : j / 64 < (n + 63) / 64)]

theorem two_pow_sub_one_and {a b : Nat} (h : a ≤ b) :
    (2 ^ a - 1) &&& (2 ^ b - 1) = 2 ^ a - 1 := by
  apply Nat.eq_of_testBit_eq
  intro i
  rw [Nat.testBit_and, Nat.testBit_two_pow_sub_one, Nat.testBit_two_pow_sub_one]
  by_cases hi : i < a
  · have hib : i < b := by omega
    simp [hi, hib]
  · rw [decide_eq_false_iff_not.mpr hi]
    simp

/-- Bit characterisation of `(atom j) − 1` for `j < n`: exactly the positions
`< j` are set. -/
theorem nbits_setBit (b : BitSet) (i : Nat) : (b.setBit i).n_bits = b.n_bits := by
  unfold BitSet.setBit
  split <;> rfl

theorem get_sub_one_atom {n j : Nat} (hj : j < n) (i : Nat) :
    (((BitSet.new n).setBit j).sub_one).get i = decide (i < j) := by
  have hwords := atom_words hj
  have hsub : BitSet.subOneWords ((BitSet.new n).setBit j).words =
      List.replicate (j / 64) u64Max ++
        (2 ^ (j % 64) - 1) :: List.replicate ((n + 63) / 64 - j / 64 - 1) 0 := by
    rw [hwords, subOneWords_replicate_zero _ _ _ (by positivity)]
  have hnb : ((BitSet.new n).setBit j).n_bits = n := nbits_setBit _ _
  have hWget : ∀ k, (BitSet.subOneWords ((BitSet.new n).setBit j).words).getD k 0 =
      if k < j / 64 then u64Max
      else if k = j / 64 then 2 ^ (j % 64) - 1 else 0 := by
    intro k
    rw [hsub, getD_replicate_append]
    by_cases hk : k < j / 64
    · rw [if_pos hk, if_pos hk]
    · rw [if_neg hk, if_neg hk]
      by_cases hke : k = j / 64
      · rw [if_pos hke, hke, Nat.sub_self]
        rfl
      · rw [if_neg hke]
        have : k - j / 64 = (k - j / 64 - 1) + 1 := by omega
        rw [this, List.getD_cons_succ, getD_replicate]
        split <;> rfl
  have hfin : ∀ w, w = (if i / 64 < j / 64 then u64Max
      else if i / 64 = j / 64 then 2 ^ (j % 64) - 1 else 0) →
      ¬ n ≤ i → w.testBit (i % 64) = decide (i < j) := by
    intro w hw hni
    subst hw
    by_cases hk : i / 64 < j / 64
    · rw [if_pos hk, testBit_u64Max]
      simp [show i % 64 < 64 by omega, show i < j by omega]
    · rw [if_neg hk]
      by_cases hke2 : i / 64 = j / 64
      · rw [if_pos hke2, Nat.testBit_two_pow_sub_one]
        by_cases hij : i < j
        · simp [hij, show i % 64 < j % 64 by omega]
        · rw [decide_eq_false_iff_not.mpr (show ¬ i % 64 < j % 64 by omega),
            decide_eq_false_iff_not.mpr hij]
      · rw [if_neg hke2, Nat.zero_testBit]
        rw [decide_eq_false_iff_not.mpr (show ¬ i < j by omega)]
  unfold BitSet.sub_one
  by_cases hm : ((BitSet.new n).setBit j).n_bits % 64 ≠ 0
  · rw [if_pos hm, get_mk]
    rw [hnb] at hm
    by_cases hni : n ≤ i
    · rw [if_pos (by omega)]
      rw [decide_eq_false_iff_not.mpr (show ¬ i < j by omega)]
    · rw [if_neg (by omega)]
      rw [getD_set, subOneWords_length]
      have hwl : ((BitSet.new n).setBit j).words.length = (n + 63) / 64 := by
        rw [hwords]
        simp
        omega
      rw [hwl, hnb]
      by_cases hcond : (n + 63) / 64 - 1 = i / 64 ∧ (n + 63) / 64 - 1 < (n + 63) / 64
      · rw [if_pos hcond, hWget]
        rcases hcond with ⟨hke, _⟩
        rw [hke]
        by_cases hk : i / 64 < j / 64
        · exfalso
          omega
        · rw [if_neg hk]
          by_cases hke2 : i / 64 = j / 64
          · rw [if_pos hke2,
              two_pow_sub_one_and (show j % 64 ≤ n % 64 by omega),
              Nat.testBit_two_pow_sub_one]
            by_cases hij : i < j
            · simp [hij, show i % 64 < j % 64 by omega]
            · rw [decide_eq_false_iff_not.mpr (show ¬ i % 64 < j % 64 by omega),
                decide_eq_false_iff_not.mpr hij]
          · rw [if_neg hke2, Nat.zero_and, Nat.zero_testBit]
            rw [decide_eq_false_iff_not.mpr (show ¬ i < j by omega)]
      · rw [if_neg hcond, hWget]
        exact hfin _ rfl hni
  · rw [if_neg hm, get_mk]
    rw [hnb] at hm
    by_cases hni : n ≤ i
    · rw [if_pos (by omega)]
      rw [decide_eq_false_iff_not.mpr (show ¬ i < j by omega)]
    · rw [if_neg (by omega), hWget]
      exact hfin _ rfl hni

theorem wf_atom {n j : Nat} : wfBitSet ((BitSet.new n).setBit j) n :=
  wf_setBit (wf_new n) j

/-- `(atom j) − 1` has exactly `j` set bits (for `j < n`). -/
theorem count_sub_one_atom {n j : Nat} (hj : j < n) :
    (((BitSet.new n).setBit j).sub_one).count = j := by
  rw [count_eq_countP (wf_sub_one wf_atom)]
  have : (List.range n).countP (fun i => (((BitSet.new n).setBit j).sub_one).get i) =
      (List.range n).countP (fun i => decide (i < j)) := by
    apply List.countP_congr
    intro i _
    rw [get_sub_one_atom hj i]
  rw [this, countP_range_lt]
  omega


/-! ### `wordsVal` and `from_u128` value pattern -/

theorem wordsVal_replicate_zero (m : Nat) :
    wordsVal (List.replicate m 0) = 0 := by
  induction m with
  | zero => rfl
  | succ m ih =>
    rw [List.replicate_succ]
    simp only [wordsVal]
    rw [ih]
    simp

theorem wordsVal_from_u128 (v n : Nat) (hv : v < 2 ^ 128) :
    wordsVal (BitSet.from_u128 v n).words = v % 2 ^ (64 * ((n + 63) / 64)) := by
  unfold BitSet.from_u128
  simp only
  by_cases h1 : 1 ≤ (n + 63) / 64
  · by_cases h2 : 2 ≤ (n + 63) / 64
    · rw [if_pos h1, if_pos h2]
      obtain ⟨m, hm⟩ : ∃ m, (n + 63) / 64 = m + 2 := ⟨(n + 63) / 64 - 2, by omega⟩
      rw [hm]
      rw [show List.replicate (m + 2) (0 : Nat) = 0 :: 0 :: List.replicate m 0 by
        simp [List.replicate_succ]]
      rw [show ((0 : Nat) :: 0 :: List.replicate m 0).set 0 (v % 2 ^ 64) =
        (v % 2 ^ 64) :: 0 :: List.replicate m 0 from rfl]
      rw [show ((v % 2 ^ 64) :: (0 : Nat) :: List.replicate m 0).set 1
          ((v >>> 64) % 2 ^ 64) =
        (v % 2 ^ 64) :: ((v >>> 64) % 2 ^ 64) :: List.replicate m 0 from rfl]
      simp only [wordsVal]
      rw [wordsVal_replicate_zero]
      have hshift : (v >>> 64) % 2 ^ 64 = v / 2 ^ 64 := by
        rw [Nat.shiftRight_eq_div_pow]
        apply Nat.mod_eq_of_lt
        apply Nat.div_lt_of_lt_mul
        calc v < 2 ^ 128 := hv
        _ = 2 ^ 64 * 2 ^ 64 := by norm_num
      rw [hshift]
      have hmod : v % 2 ^ (64 * (m + 2)) = v := by
        apply Nat.mod_eq_of_lt
        calc v < 2 ^ 128 := hv
        _ ≤ 2 ^ (64 * (m + 2)) := Nat.pow_le_pow_right (by omega) (by omega)
      rw [hmod, Nat.mul_zero, Nat.add_zero, Nat.add_comm]
      exact Nat.div_add_mod v (2 ^ 64)
    · rw [if_pos h1, if_neg h2]
      have hm1 : (n + 63) / 64 = 1 := by omega
      rw [hm1]
      rw [show List.replicate 1 (0 : Nat) = [0] from rfl]
      rw [show ([0] : List Nat).set 0 (v % 2 ^ 64) = [v % 2 ^ 64] from rfl]
      simp only [wordsVal]
      omega
  · rw [if_neg h1, if_neg (by omega)]
    have hm0 : (n + 63) / 64 = 0 := by omega
    rw [hm0]
    simp only [List.replicate_zero, wordsVal]
    rw [Nat.mul_zero, Nat.pow_zero, Nat.mod_one]

theorem doubleprime_objects_fst (ctx : FcaContext) (A : BitSet) :
    (ctx.doubleprime_objects A).fst =
      ctx.prime_properties (ctx.prime_objects A) := rfl

theorem doubleprime_objects_snd (ctx : FcaContext) (A : BitSet) :
    (ctx.doubleprime_objects A).snd = ctx.prime_objects A := rfl

theorem doubleprime_properties_fst (ctx : FcaContext) (B : BitSet) :
    (ctx.doubleprime_properties B).fst = ctx.prime_properties B := rfl

theorem doubleprime_properties_snd (ctx : FcaContext) (B : BitSet) :
    (ctx.doubleprime_properties B).snd =
      ctx.prime_objects (ctx.prime_properties B) := rfl

/-! ### Claim theorems: C5, C6, C9, C10 -/

/-- C5: for every well-formed context and well-formed object bitset `A`,
the double-prime closure is idempotent (`A″″ = A″`, comparing the extent
component of `doubleprime_objects`) and extensive (`A ⊆ A″`); symmetrically
for property bitsets `B` via `doubleprime_properties` (intent component). -/
theorem c5_closure_laws (nO nP : Nat) (er ir : List Nat)
    (hraw : wellFormedRaw nO nP er ir) (A B : BitSet)
    (hA : wfBitSet A nO) (hB : wfBitSet B nP) :
    (((FcaContext.new nO nP er ir).doubleprime_objects
        ((FcaContext.new nO nP er ir).doubleprime_objects A).fst).fst =
      ((FcaContext.new nO nP er ir).doubleprime_objects A).fst) ∧
    (∀ i, A.get i = true →
      (((FcaContext.new nO nP er ir).doubleprime_objects A).fst).get i = true) ∧
    (((FcaContext.new nO nP er ir).doubleprime_properties
        ((FcaContext.new nO nP er ir).doubleprime_properties B).snd).snd =
      ((FcaContext.new nO nP er ir).doubleprime_properties B).snd) ∧
    (∀ j, B.get j = true →
      (((FcaContext.new nO nP er ir).doubleprime_properties B).snd).get j = true) := by
  have hc := wfCtx_new nO nP er ir hraw
  refine ⟨?_, ?_, ?_, ?_⟩
  · rw [doubleprime_objects_fst, doubleprime_objects_fst,
      prime_triple_objects hc hA]
  · simp only [doubleprime_objects_fst]
    exact doubleprime_obj_extensive hc hA
  · rw [doubleprime_properties_snd, doubleprime_properties_snd,
      prime_triple_properties hc hB]
  · simp only [doubleprime_properties_snd]
    exact doubleprime_prop_extensive hc hB

theorem c5_closure_laws_witness :
    wellFormedRaw 2 2 [1, 2] [1, 2] ∧
    wfBitSet (BitSet.from_u128 1 2) 2 ∧ wfBitSet (BitSet.from_u128 3 2) 2 ∧
    ((((FcaContext.new 2 2 [1, 2] [1, 2]).doubleprime_objects
        ((FcaContext.new 2 2 [1, 2] [1, 2]).doubleprime_objects
          (BitSet.from_u128 1 2)).fst).fst =
      ((FcaContext.new 2 2 [1, 2] [1, 2]).doubleprime_objects
        (BitSet.from_u128 1 2)).fst) ∧
    (∀ i, (BitSet.from_u128 1 2).get i = true →
      (((FcaContext.new 2 2 [1, 2] [1, 2]).doubleprime_objects
        (BitSet.from_u128 1 2)).fst).get i = true) ∧
    (((FcaContext.new 2 2 [1, 2] [1, 2]).doubleprime_properties
        ((FcaContext.new 2 2 [1, 2] [1, 2]).doubleprime_properties
          (BitSet.from_u128 3 2)).snd).snd =
      ((FcaContext.new 2 2 [1, 2] [1, 2]).doubleprime_properties
        (BitSet.from_u128 3 2)).snd) ∧
    (∀ j, (BitSet.from_u128 3 2).get j = true →
      (((FcaContext.new 2 2 [1, 2] [1, 2]).doubleprime_properties
        (BitSet.from_u128 3 2)).snd).get j = true)) := by
  have hraw : wellFormedRaw 2 2 [1, 2] [1, 2] := by
    refine ⟨rfl, rfl, ?_, ?_, ?_⟩
    · intro v hv
      have hv2 : v = 1 ∨ v = 2 := by simpa using hv
      rcases hv2 with rfl | rfl <;> exact ⟨by norm_num, by norm_num⟩
    · intro v hv
      have hv2 : v = 1 ∨ v = 2 := by simpa using hv
      rcases hv2 with rfl | rfl <;> exact ⟨by norm_num, by norm_num⟩
    · intro i j hi hj
      have hi2 : i = 0 ∨ i = 1 := by omega
      have hj2 : j = 0 ∨ j = 1 := by omega
      rcases hi2 with rfl | rfl <;> rcases hj2 with rfl | rfl <;> decide
  have hA : wfBitSet (BitSet.from_u128 1 2) 2 := wf_from_u128 (by norm_num)
  have hB : wfBitSet (BitSet.from_u128 3 2) 2 := wf_from_u128 (by norm_num)
  exact ⟨hraw, hA, hB, c5_closure_laws 2 2 [1, 2] [1, 2] hraw _ _ hA hB⟩

/-- C6 [counterexample]: for the atom at position `j = 0` of width `n = 5`,
`sub_one` yields the empty bitset: it has `0` set bits, not `n = 5` as the
claim states for the `j = 0` case. -/
theorem c6_sub_one_atom_counterexample :
    (((BitSet.new 5).setBit 0).sub_one).count = 0 ∧
      ¬ ((((BitSet.new 5).setBit 0).sub_one).count = 5) := by
  decide

/-- C6 [amended]: for every width `n` and atom position `j < n`, the
decrement of the atom has exactly `j` set bits, all at positions `< j`
(uniformly, including `j = 0`, where it has `0` set bits rather than `n`). -/
theorem c6_sub_one_atom (n j : Nat) (hj : j < n) :
    (((BitSet.new n).setBit j).sub_one).count = j ∧
    (∀ i, (((BitSet.new n).setBit j).sub_one).get i = true → i < j) ∧
    (∀ i, i < j → (((BitSet.new n).setBit j).sub_one).get i = true) := by
  refine ⟨count_sub_one_atom hj, ?_, ?_⟩
  · intro i hi
    rw [get_sub_one_atom hj] at hi
    simpa using hi
  · intro i hi
    rw [get_sub_one_atom hj]
    simpa using hi

theorem c6_sub_one_atom_witness :
    3 < 5 ∧
    ((((BitSet.new 5).setBit 3).sub_one).count = 3 ∧
    (∀ i, (((BitSet.new 5).setBit 3).sub_one).get i = true → i < 3) ∧
    (∀ i, i < 3 → (((BitSet.new 5).setBit 3).sub_one).get i = true)) :=
  ⟨by omega, c6_sub_one_atom 5 3 (by omega)⟩

/-- C9: reading a bit at an index `≥ n_bits` returns `false` (total, no
panic), and setting a bit at an index `≥ n_bits` leaves the bitset
unchanged. -/
theorem c9_out_of_range (b : BitSet) (i : Nat) (h : b.n_bits ≤ i) :
    b.get i = false ∧ b.setBit i = b := by
  constructor
  · rw [get_def, if_pos h]
  · exact setBit_ge (by omega)

theorem c9_out_of_range_witness :
    (BitSet.new 3).n_bits ≤ 7 ∧
    ((BitSet.new 3).get 7 = false ∧ (BitSet.new 3).setBit 7 = BitSet.new 3) :=
  ⟨by decide, c9_out_of_range (BitSet.new 3) 7 (by decide)⟩

/-- C10: `from_u128` stores exactly the low `64 * ((n_bits + 63) / 64)` bits
of the supplied value, without masking to the declared width; in particular
`from_u128 2 1` violates the `Masked` trailing-word invariant, while every
other constructor and write operation preserves it, and at the driver
boundary the invariant (full well-formedness) holds exactly under the
precondition `v < 2 ^ n_bits`. -/
theorem c10_from_u128_unmasked (v n : Nat) (hv : v < 2 ^ 128) :
    wordsVal (BitSet.from_u128 v n).words = v % 2 ^ (64 * ((n + 63) / 64)) ∧
    ¬ Masked (BitSet.from_u128 2 1) ∧
    (v < 2 ^ n → wfBitSet (BitSet.from_u128 v n) n) ∧
    (∀ nO nP er ir, wellFormedRaw nO nP er ir →
      ((∀ e ∈ (FcaContext.new nO nP er ir).extents, Masked e) ∧
       (∀ b ∈ (FcaContext.new nO nP er ir).intents, Masked b))) ∧
    (∀ m : Nat, Masked (BitSet.new m) ∧ Masked (BitSet.supremum m)) ∧
    (∀ c : BitSet, ∀ m i : Nat, wfBitSet c m →
      Masked (c.setBit i) ∧ Masked c.complement ∧ Masked c.sub_one) := by
  refine ⟨wordsVal_from_u128 v n hv, ?_, fun hvn => wf_from_u128 hvn, ?_, ?_, ?_⟩
  · intro hmask
    have := hmask 0 1 (by decide)
    revert this
    decide
  · intro nO nP er ir hraw
    have hc := wfCtx_new nO nP er ir hraw
    exact ⟨fun e he => ((hc.2.2.1 e he).masked),
           fun b hb => ((hc.2.2.2.1 b hb).masked)⟩
  · intro m
    exact ⟨(wf_new m).masked, (wf_supremum m).masked⟩
  · intro c m i hc
    exact ⟨(wf_setBit hc i).masked, (wf_complement hc).masked,
      (wf_sub_one hc).masked⟩

theorem c10_from_u128_unmasked_witness :
    2 < 2 ^ 128 ∧
    wordsVal (BitSet.from_u128 2 1).words = 2 % 2 ^ (64 * ((1 + 63) / 64)) ∧
    ¬ Masked (BitSet.from_u128 2 1) :=
  ⟨by norm_num, (c10_from_u128_unmasked 2 1 (by norm_num)).1,
    (c10_from_u128_unmasked 2 1 (by norm_num)).2.1⟩


/-! ### Claim counterexamples: C3, C7, C8 (concrete Lindig runs) -/

/-- C3 [counterexample]: in the context with 3 objects, 3 properties,
`extents = [0b001, 0b010, 0b110]`, `intents = [0b001, 0b110, 0b100]`
(concept lattice `∅ ⊂ {0}, {1}; {1} ⊂ {1,2} ⊂ ⊤; {0} ⊂ ⊤`), the completed
run of `lindig_lattice` with infimum `0` emits the cover edge from concept 4
(extent `{1,2}`) up to concept 3 (the top, extent `{0,1,2}`): index 3 appears
in the upper-cover list of concept 4, yet `4 < 3` is false, refuting
`index(u) < index(v)` for every edge `u → v`. -/
theorem c3_index_order_counterexample :
    3 ∈ ((lindig_lattice (FcaContext.new 3 3 [1, 2, 6] [1, 6, 4])
        (BitSet.from_u128 0 3) 20).getD 4 (0, 0, [], [])).2.2.1 ∧
    ¬ (4 < 3) ∧
    (lindigLoop (FcaContext.new 3 3 [1, 2, 6] [1, 6, 4]) 20
      (lindigInit (FcaContext.new 3 3 [1, 2, 6] [1, 6, 4])
        (BitSet.from_u128 0 3))).heap = [] := by
  decide

/-- C7 [counterexample]: in the same context, the completed Lindig run
returns 5 concepts; the last element of the list has extent `0b110` while the
top concept (full extent `0b111`, a strict superset) sits at index 3 — the
top concept is emitted but is not the last element. -/
theorem c7_top_last_counterexample :
    (lindig_lattice (FcaContext.new 3 3 [1, 2, 6] [1, 6, 4])
        (BitSet.from_u128 0 3) 20).length = 5 ∧
    ((lindig_lattice (FcaContext.new 3 3 [1, 2, 6] [1, 6, 4])
        (BitSet.from_u128 0 3) 20).getD 4 (0, 0, [], [])).1 = 6 ∧
    ((lindig_lattice (FcaContext.new 3 3 [1, 2, 6] [1, 6, 4])
        (BitSet.from_u128 0 3) 20).getD 3 (0, 0, [], [])).1 = 7 ∧
    (6 : Nat) ||| 7 = 7 ∧ (6 : Nat) ≠ 7 ∧
    (lindigLoop (FcaContext.new 3 3 [1, 2, 6] [1, 6, 4]) 20
      (lindigInit (FcaContext.new 3 3 [1, 2, 6] [1, 6, 4])
        (BitSet.from_u128 0 3))).heap = [] := by
  decide

/-- C8 [counterexample]: in the 1×1 context with no incidence
(`extents = [0]`, `intents = [0]`), no object has all properties, yet the
completed Lindig run with infimum `0` still emits intent `0b1 = ⊤_P` at
index 0 — refuting the "if and only if" of the claim. -/
theorem c8_intent_top_counterexample :
    ((lindig_lattice (FcaContext.new 1 1 [0] [0])
        (BitSet.from_u128 0 1) 10).getD 0 (0, 0, [], [])).2.1 =
      (BitSet.supremum 1).to_u128 ∧
    (∀ i, i < 1 →
      (FcaContext.new 1 1 [0] [0]).intents.getD i default ≠ BitSet.supremum 1) ∧
    (lindigLoop (FcaContext.new 1 1 [0] [0]) 10
      (lindigInit (FcaContext.new 1 1 [0] [0])
        (BitSet.from_u128 0 1))).heap = [] := by
  decide


/-! ### Lindig loop machinery: basic lemmas -/

/-- The default `ConceptRec`. -/
abbrev dC : ConceptRec := default

theorem pushUpper_length (cs : List ConceptRec) (u v : Nat) :
    (pushUpper cs u v).length = cs.length := by
  unfold pushUpper
  simp

theorem pushLower_length (cs : List ConceptRec) (u v : Nat) :
    (pushLower cs u v).length = cs.length := by
  unfold pushLower
  simp

theorem pushUpper_getD_parts (cs : List ConceptRec) (u v k : Nat) :
    ((pushUpper cs u v).getD k dC).1 = (cs.getD k dC).1 ∧
    ((pushUpper cs u v).getD k dC).2.1 = (cs.getD k dC).2.1 ∧
    ((pushUpper cs u v).getD k dC).2.2.2 = (cs.getD k dC).2.2.2 ∧
    ((pushUpper cs u v).getD k dC).2.2.1 =
      (if u = k ∧ u < cs.length then (cs.getD k dC).2.2.1 ++ [v]
       else (cs.getD k dC).2.2.1) := by
  unfold pushUpper
  rw [getD_set]
  by_cases hc : u = k ∧ u < cs.length
  · rw [if_pos hc, if_pos hc]
    rcases hc with ⟨rfl, hlen⟩
    exact ⟨rfl, rfl, rfl, rfl⟩
  · rw [if_neg hc, if_neg hc]
    exact ⟨rfl, rfl, rfl, rfl⟩

theorem pushLower_getD_parts (cs : List ConceptRec) (u v k : Nat) :
    ((pushLower cs u v).getD k dC).1 = (cs.getD k dC).1 ∧
    ((pushLower cs u v).getD k dC).2.1 = (cs.getD k dC).2.1 ∧
    ((pushLower cs u v).getD k dC).2.2.1 = (cs.getD k dC).2.2.1 ∧
    ((pushLower cs u v).getD k dC).2.2.2 =
      (if u = k ∧ u < cs.length then (cs.getD k dC).2.2.2 ++ [v]
       else (cs.getD k dC).2.2.2) := by
  unfold pushLower
  rw [getD_set]
  by_cases hc : u = k ∧ u < cs.length
  · rw [if_pos hc, if_pos hc]
    rcases hc with ⟨rfl, hlen⟩
    exact ⟨rfl, rfl, rfl, rfl⟩
  · rw [if_neg hc, if_neg hc]
    exact ⟨rfl, rfl, rfl, rfl⟩

theorem getD_append_left {α : Type} [Inhabited α] (l₁ l₂ : List α) (k : Nat)
    (hk : k < l₁.length) : (l₁ ++ l₂).getD k default = l₁.getD k default := by
  rw [List.getD_eq_getElem?_getD, List.getElem?_append_left hk,
    List.getD_eq_getElem?_getD]

theorem getD_append_right_self {α : Type} [Inhabited α] (l₁ : List α) (a : α) :
    (l₁ ++ [a]).getD l₁.length default = a := by
  rw [List.getD_eq_getElem?_getD, List.getElem?_append_right (Nat.le_refl _),
    Nat.sub_self]
  rfl

theorem popMin_mem : ∀ {l : List HeapEntry} {e : HeapEntry}
    {rest : List HeapEntry}, popMin l = some (e, rest) →
    e ∈ l ∧ ∀ x ∈ rest, x ∈ l := by
  intro l
  induction l with
  | nil => intro e rest h; cases h
  | cons a as ih =>
    intro e rest h
    unfold popMin at h
    rcases hrec : popMin as with _ | ⟨m, r⟩
    · rw [hrec] at h
      cases h
      exact ⟨List.mem_cons_self _ _, by intro x hx; cases hx⟩
    · rw [hrec] at h
      rcases ih hrec with ⟨hm, hr⟩
      have h2 : (if keyLt m.shortlex_key a.shortlex_key = true
          then some (m, a :: r) else some (a, as)) = some (e, rest) := h
      by_cases hk : keyLt m.shortlex_key a.shortlex_key = true
      · rw [if_pos hk] at h2
        cases h2
        refine ⟨List.mem_cons_of_mem _ hm, ?_⟩
        intro x hx
        rcases List.mem_cons.mp hx with rfl | hx2
        · exact List.mem_cons_self _ _
        · exact List.mem_cons_of_mem _ (hr x hx2)
      · rw [if_neg hk] at h2
        cases h2
        exact ⟨List.mem_cons_self _ _, fun x hx => List.mem_cons_of_mem _ hx⟩

/-- A concept pair: `I = E′` and `E = I′`. -/
def IsConceptPair (ctx : FcaContext) (E I : BitSet) : Prop :=
  I = ctx.prime_objects E ∧ E = ctx.prime_properties I

theorem doubleprime_concept_pair {ctx : FcaContext} (hc : wfCtx ctx)
    {S : BitSet} (hS : wfBitSet S ctx.n_objects) :
    IsConceptPair ctx (ctx.doubleprime_objects S).fst
      (ctx.doubleprime_objects S).snd := by
  rw [doubleprime_objects_fst, doubleprime_objects_snd]
  constructor
  · rw [prime_triple_objects hc hS]
  · rfl

/-- Unfolding equation for one step of the `neighbors` scan. -/
theorem neighborsStep_eq (ctx : FcaContext) (A : BitSet)
    (res : List (BitSet × BitSet)) (minimal : BitSet) (i : Nat) :
    neighborsStep ctx A (res, minimal) i =
      if minimal.get i = false then (res, minimal)
      else if ((((ctx.doubleprime_objects
          (A.or ((BitSet.new ctx.n_objects).setBit i))).fst.and
            ((A.or ((BitSet.new ctx.n_objects).setBit i)).complement)).and
              minimal).is_empty = false)
        then (res, minimal.and (((BitSet.new ctx.n_objects).setBit i).complement))
        else (res ++ [ctx.doubleprime_objects
          (A.or ((BitSet.new ctx.n_objects).setBit i))], minimal) := rfl

/-- Every element of `neighbors A ctx` is the double-prime closure of
`A ∪ {i}` for some object `i < n_objects` with `i ∉ A`. -/
theorem neighbors_mem {ctx : FcaContext} {A : BitSet}
    (hA : wfBitSet A ctx.n_objects)
    {EI : BitSet × BitSet} (h : EI ∈ neighbors A ctx) :
    ∃ i, i < ctx.n_objects ∧ A.get i = false ∧
      EI = ctx.doubleprime_objects
        (A.or ((BitSet.new ctx.n_objects).setBit i)) := by
  unfold neighbors at h
  suffices hgen : ∀ (l : List Nat) (res : List (BitSet × BitSet))
      (minimal : BitSet),
      (∀ EI2 ∈ res, ∃ i, i < ctx.n_objects ∧ A.get i = false ∧
        EI2 = ctx.doubleprime_objects
          (A.or ((BitSet.new ctx.n_objects).setBit i))) →
      wfBitSet minimal ctx.n_objects →
      (∀ t, minimal.get t = true → A.get t = false) →
      ∀ EI2 ∈ (l.foldl (neighborsStep ctx A) (res, minimal)).fst,
        ∃ i, i < ctx.n_objects ∧ A.get i = false ∧
          EI2 = ctx.doubleprime_objects
            (A.or ((BitSet.new ctx.n_objects).setBit i)) by
    refine hgen _ [] A.complement
      (fun _ h2 => absurd h2 (List.not_mem_nil _))
      (wf_complement hA)
      (fun t ht => ?_) EI h
    rw [get_complement hA] at ht
    rcases Bool.and_eq_true_iff.mp ht with ⟨_, h2⟩
    revert h2
    cases A.get t <;> simp
  intro l
  induction l with
  | nil =>
    intro res minimal hres _ _ EI2 hEI2
    exact hres EI2 hEI2
  | cons a l ih =>
    intro res minimal hres hwm hmin EI2 hEI2
    rw [List.foldl_cons, neighborsStep_eq] at hEI2
    by_cases hma : minimal.get a = false
    · rw [if_pos hma] at hEI2
      exact ih res minimal hres hwm hmin EI2 hEI2
    · rw [if_neg hma] at hEI2
      have hma2 : minimal.get a = true := by
        revert hma
        cases minimal.get a <;> simp
      have haA : A.get a = false := hmin a hma2
      have han : a < ctx.n_objects := by
        have h1 := get_true_lt hma2
        have h2 := hwm.1
        omega
      by_cases hchk : ((((ctx.doubleprime_objects
          (A.or ((BitSet.new ctx.n_objects).setBit a))).fst.and
            ((A.or ((BitSet.new ctx.n_objects).setBit a)).complement)).and
              minimal).is_empty = false)
      · rw [if_pos hchk] at hEI2
        have hwatom : wfBitSet ((BitSet.new ctx.n_objects).setBit a)
            ctx.n_objects := wf_setBit (wf_new _) a
        refine ih res _ hres
          (wf_and hwm (wf_complement hwatom)) (fun t ht => ?_) EI2 hEI2
        rw [get_and hwm (wf_complement hwatom)] at ht
        exact hmin t (Bool.and_eq_true_iff.mp ht).1
      · rw [if_neg hchk] at hEI2
        refine ih _ minimal (fun EI3 hEI3 => ?_) hwm hmin EI2 hEI2
        rcases List.mem_append.mp hEI3 with hin | hin
        · exact hres EI3 hin
        · rcases List.mem_singleton.mp hin with rfl
          exact ⟨a, han, haA, rfl⟩


/-! ### Lindig main-loop invariant -/

/-- Invariant maintained by Lindig's main loop: the first concept is the
closure of the starting extent, every stored concept is a well-formed
concept pair, every recorded cover edge goes from a strictly smaller extent
to a strictly larger one, the hash map is a bijection onto the stored
extents, and every heap entry points at its concept. -/
structure StateOK (ctx : FcaContext) (E0 I0 : BitSet) (st : LindigState) :
    Prop where
  len_pos : 0 < st.concepts.length
  head_extent : (st.concepts.getD 0 dC).1 = E0
  head_intent : (st.concepts.getD 0 dC).2.1 = I0
  cwf : ∀ k, k < st.concepts.length →
    wfBitSet (st.concepts.getD k dC).1 ctx.n_objects ∧
    wfBitSet (st.concepts.getD k dC).2.1 ctx.n_properties
  cpair : ∀ k, k < st.concepts.length →
    IsConceptPair ctx (st.concepts.getD k dC).1 (st.concepts.getD k dC).2.1
  upper_ok : ∀ u v, u < st.concepts.length →
    v ∈ (st.concepts.getD u dC).2.2.1 →
    v < st.concepts.length ∧
    bsubset (st.concepts.getD u dC).1 (st.concepts.getD v dC).1 ∧
    (st.concepts.getD u dC).1 ≠ (st.concepts.getD v dC).1
  lower_ok : ∀ v u, v < st.concepts.length →
    u ∈ (st.concepts.getD v dC).2.2.2 →
    u < st.concepts.length ∧
    bsubset (st.concepts.getD u dC).1 (st.concepts.getD v dC).1 ∧
    (st.concepts.getD u dC).1 ≠ (st.concepts.getD v dC).1
  map_fwd : ∀ p ∈ st.mapping, p.2 < st.concepts.length ∧
    (st.concepts.getD p.2 dC).1.words = p.1
  map_bwd : ∀ idx, idx < st.concepts.length →
    st.mapping.lookup ((st.concepts.getD idx dC).1.words) = some idx
  heap_ok : ∀ e ∈ st.heap, e.index < st.concepts.length ∧
    (st.concepts.getD e.index dC).1 = e.extent

theorem zero_lt_two_pow (n : Nat) : 0 < 2 ^ n := Nat.pos_pow_of_pos n (by omega)

/-- The initial Lindig state satisfies the invariant. -/
theorem lindigInit_ok {ctx : FcaContext} (hc : wfCtx ctx) {inf : BitSet}
    (hinf : wfBitSet inf ctx.n_objects) :
    StateOK ctx (ctx.doubleprime_objects inf).fst
      (ctx.doubleprime_objects inf).snd (lindigInit ctx inf) := by
  have hwE : wfBitSet (ctx.doubleprime_objects inf).fst ctx.n_objects := by
    rw [doubleprime_objects_fst]
    exact wf_prime_properties hc _
  have hwI : wfBitSet (ctx.doubleprime_objects inf).snd ctx.n_properties := by
    rw [doubleprime_objects_snd]
    exact wf_prime_objects hc _
  refine ⟨by simp [lindigInit], rfl, rfl, ?_, ?_, ?_, ?_, ?_, ?_, ?_⟩
  · intro k hk
    have hk0 : k = 0 := by
      simp [lindigInit] at hk
      omega
    subst hk0
    exact ⟨hwE, hwI⟩
  · intro k hk
    have hk0 : k = 0 := by
      simp [lindigInit] at hk
      omega
    subst hk0
    exact doubleprime_concept_pair hc hinf
  · intro u v hu hv
    have hu0 : u = 0 := by
      simp [lindigInit] at hu
      omega
    subst hu0
    exact absurd hv (List.not_mem_nil _)
  · intro v u hv hu
    have hv0 : v = 0 := by
      simp [lindigInit] at hv
      omega
    subst hv0
    exact absurd hu (List.not_mem_nil _)
  · intro p hp
    rcases List.mem_singleton.mp hp with rfl
    exact ⟨by simp [lindigInit], rfl⟩
  · intro idx hidx
    have h0 : idx = 0 := by
      simp [lindigInit] at hidx
      omega
    subst h0
    simp [lindigInit, List.lookup]
  · intro e he
    rcases List.mem_singleton.mp he with rfl
    exact ⟨by simp [lindigInit], rfl⟩

/-- Strictness of popcount on a strict subset. -/
theorem bsubset_strict_count {a b : BitSet} {n : Nat} (ha : wfBitSet a n)
    (hb : wfBitSet b n) (hsub : bsubset a b) (hne : a ≠ b) :
    a.count < b.count := by
  have hex : ∃ x, a.get x = false ∧ b.get x = true := by
    by_contra hcon
    apply hne
    apply wf_ext ha hb
    apply bsubset_antisymm_get hsub
    intro i hib
    cases hia : a.get i
    · exact absurd ⟨i, hia, hib⟩ hcon
    · rfl
  rcases hex with ⟨x, hxa, hxb⟩
  exact count_lt_count ha hb hsub x hxa hxb

/-- What the loop body needs to know about a neighbor of the concept at
index `cur`. -/
theorem neighbor_props {ctx : FcaContext} (hc : wfCtx ctx) {A : BitSet}
    (hA : wfBitSet A ctx.n_objects) {nb : BitSet × BitSet}
    (hnb : nb ∈ neighbors A ctx) :
    wfBitSet nb.1 ctx.n_objects ∧ wfBitSet nb.2 ctx.n_properties ∧
    IsConceptPair ctx nb.1 nb.2 ∧ bsubset A nb.1 ∧ A ≠ nb.1 := by
  rcases neighbors_mem hA hnb with ⟨i, hi, hiA, hEI⟩
  have hwatom : wfBitSet ((BitSet.new ctx.n_objects).setBit i) ctx.n_objects :=
    wf_setBit (wf_new _) i
  have hwor : wfBitSet (A.or ((BitSet.new ctx.n_objects).setBit i))
      ctx.n_objects := wf_or hA hwatom
  have hE : nb.1 = (ctx.doubleprime_objects
      (A.or ((BitSet.new ctx.n_objects).setBit i))).fst := by rw [hEI]
  have hI : nb.2 = (ctx.doubleprime_objects
      (A.or ((BitSet.new ctx.n_objects).setBit i))).snd := by rw [hEI]
  have hext := doubleprime_obj_extensive hc hwor
  have hori : (A.or ((BitSet.new ctx.n_objects).setBit i)).get i = true := by
    rw [get_or hA hwatom, get_setBit (wf_new _)]
    rw [if_pos ⟨rfl, hi⟩]
    simp
  refine ⟨?_, ?_, ?_, ?_, ?_⟩
  · rw [hE, doubleprime_objects_fst]
    exact wf_prime_properties hc _
  · rw [hI, doubleprime_objects_snd]
    exact wf_prime_objects hc _
  · rw [hE, hI]
    exact doubleprime_concept_pair hc hwor
  · intro t ht
    rw [hE, doubleprime_objects_fst]
    apply hext
    rw [get_or hA hwatom, ht]
    simp
  · intro hEq
    have hgi : nb.1.get i = true := by
      rw [hE, doubleprime_objects_fst]
      exact hext i hori
    rw [← hEq] at hgi
    rw [hiA] at hgi
    cases hgi


theorem lookup_mem {α β : Type} [BEq α] [LawfulBEq α] {l : List (α × β)}
    {a : α} {b : β} (h : l.lookup a = some b) : (a, b) ∈ l := by
  induction l with
  | nil => cases h
  | cons p l ih =>
    rcases p with ⟨k, v⟩
    rw [List.lookup] at h
    rcases hbeq : a == k with _ | _
    · rw [hbeq] at h
      exact List.mem_cons_of_mem _ (ih h)
    · rw [hbeq] at h
      cases h
      have : a = k := eq_of_beq hbeq
      subst this
      exact List.mem_cons_self _ _

theorem bitset_eq_of_words {a b : BitSet} {n : Nat} (ha : wfBitSet a n)
    (hb : wfBitSet b n) (h : a.words = b.words) : a = b := by
  rcases a with ⟨aw, an⟩
  rcases b with ⟨bw, bn⟩
  have h1 := ha.1
  have h2 := hb.1
  simp only at h1 h2 h
  rw [h, h1, h2]

theorem lpE_concepts {st : LindigState} (cur : Nat) {nb : BitSet × BitSet}
    {eidx : Nat} (h : st.mapping.lookup nb.1.words = some eidx) :
    (lindigProcess st cur nb).concepts =
      pushLower (pushUpper st.concepts cur eidx) eidx cur := by
  unfold lindigProcess
  rw [h]

theorem lpE_mapping {st : LindigState} (cur : Nat) {nb : BitSet × BitSet}
    {eidx : Nat} (h : st.mapping.lookup nb.1.words = some eidx) :
    (lindigProcess st cur nb).mapping = st.mapping := by
  unfold lindigProcess
  rw [h]

theorem lpE_heap {st : LindigState} (cur : Nat) {nb : BitSet × BitSet}
    {eidx : Nat} (h : st.mapping.lookup nb.1.words = some eidx) :
    (lindigProcess st cur nb).heap = st.heap := by
  unfold lindigProcess
  rw [h]

theorem lpN_concepts {st : LindigState} (cur : Nat) {nb : BitSet × BitSet}
    (h : st.mapping.lookup nb.1.words = none) :
    (lindigProcess st cur nb).concepts =
      pushUpper st.concepts cur st.concepts.length ++
        [(nb.1, nb.2, [], [cur])] := by
  unfold lindigProcess
  rw [h]

theorem lpN_mapping {st : LindigState} (cur : Nat) {nb : BitSet × BitSet}
    (h : st.mapping.lookup nb.1.words = none) :
    (lindigProcess st cur nb).mapping =
      (nb.1.words, st.concepts.length) :: st.mapping := by
  unfold lindigProcess
  rw [h]

theorem lpN_heap {st : LindigState} (cur : Nat) {nb : BitSet × BitSet}
    (h : st.mapping.lookup nb.1.words = none) :
    (lindigProcess st cur nb).heap =
      { shortlex_key := nb.1.shortlex, extent := nb.1, intent := nb.2,
        index := st.concepts.length } :: st.heap := by
  unfold lindigProcess
  rw [h]

/-- Processing one neighbor preserves the invariant; the concept list only
grows and existing extents/intents are unchanged. -/
theorem lindigProcess_preserves {ctx : FcaContext} {E0 I0 : BitSet}
    {st : LindigState} {cur : Nat} {nb : BitSet × BitSet}
    (hok : StateOK ctx E0 I0 st) (hcur : cur < st.concepts.length)
    (hwE : wfBitSet nb.1 ctx.n_objects) (hwI : wfBitSet nb.2 ctx.n_properties)
    (hpair : IsConceptPair ctx nb.1 nb.2)
    (hsub : bsubset (st.concepts.getD cur dC).1 nb.1)
    (hne : (st.concepts.getD cur dC).1 ≠ nb.1) :
    StateOK ctx E0 I0 (lindigProcess st cur nb) ∧
    st.concepts.length ≤ (lindigProcess st cur nb).concepts.length ∧
    (∀ k, k < st.concepts.length →
      ((lindigProcess st cur nb).concepts.getD k dC).1 =
        (st.concepts.getD k dC).1 ∧
      ((lindigProcess st cur nb).concepts.getD k dC).2.1 =
        (st.concepts.getD k dC).2.1) := by
  rcases hlk : st.mapping.lookup nb.1.words with _ | eidx
  · -- new concept appended at index `len`
    have hC := lpN_concepts cur hlk
    have hM := lpN_mapping cur hlk
    have hH := lpN_heap cur hlk
    have hlen : (pushUpper st.concepts cur st.concepts.length ++
        [(nb.1, nb.2, [], [cur])]).length = st.concepts.length + 1 := by
      simp [pushUpper_length]
    have hgetlast :
        (pushUpper st.concepts cur st.concepts.length ++
          [(nb.1, nb.2, [], [cur])]).getD st.concepts.length dC =
        (nb.1, nb.2, [], [cur]) := by
      have := getD_append_right_self
        (pushUpper st.concepts cur st.concepts.length) (nb.1, nb.2, [], [cur])
      rw [pushUpper_length] at this
      exact this
    have hstable : ∀ k, k < st.concepts.length →
        ((pushUpper st.concepts cur st.concepts.length ++
          [(nb.1, nb.2, [], [cur])]).getD k dC).1 = (st.concepts.getD k dC).1 ∧
        ((pushUpper st.concepts cur st.concepts.length ++
          [(nb.1, nb.2, [], [cur])]).getD k dC).2.1 =
            (st.concepts.getD k dC).2.1 ∧
        ((pushUpper st.concepts cur st.concepts.length ++
          [(nb.1, nb.2, [], [cur])]).getD k dC).2.2.2 =
            (st.concepts.getD k dC).2.2.2 ∧
        ((pushUpper st.concepts cur st.concepts.length ++
          [(nb.1, nb.2, [], [cur])]).getD k dC).2.2.1 =
          (if cur = k then (st.concepts.getD k dC).2.2.1 ++
            [st.concepts.length] else (st.concepts.getD k dC).2.2.1) := by
      intro k hk
      rw [getD_append_left _ _ _ (by rw [pushUpper_length]; omega)]
      rcases pushUpper_getD_parts st.concepts cur st.concepts.length k with
        ⟨h1, h2, h3, h4⟩
      refine ⟨h1, h2, h3, ?_⟩
      rw [h4]
      by_cases hck : cur = k
      · rw [if_pos ⟨hck, by omega⟩, if_pos hck]
      · rw [if_neg (fun hcc : _ ∧ _ => hck hcc.1), if_neg hck]
    refine ⟨?_, by rw [hC, hlen]; omega, ?_⟩
    swap
    · intro k hk
      rw [hC]
      exact ⟨(hstable k hk).1, (hstable k hk).2.1⟩
    refine ⟨by rw [hC, hlen]; omega, ?_, ?_, ?_, ?_, ?_, ?_, ?_, ?_, ?_⟩
    · rw [hC, (hstable 0 hok.len_pos).1]
      exact hok.head_extent
    · rw [hC, (hstable 0 hok.len_pos).2.1]
      exact hok.head_intent
    · intro k hk
      rw [hC, hlen] at hk
      rw [hC]
      by_cases hklt : k < st.concepts.length
      · rw [(hstable k hklt).1, (hstable k hklt).2.1]
        exact hok.cwf k hklt
      · have hkeq : k = st.concepts.length := by omega
        subst hkeq
        rw [hgetlast]
        exact ⟨hwE, hwI⟩
    · intro k hk
      rw [hC, hlen] at hk
      rw [hC]
      by_cases hklt : k < st.concepts.length
      · rw [(hstable k hklt).1, (hstable k hklt).2.1]
        exact hok.cpair k hklt
      · have hkeq : k = st.concepts.length := by omega
        subst hkeq
        rw [hgetlast]
        exact hpair
    · intro u v hu hv
      rw [hC, hlen] at hu
      rw [hC] at hv
      rw [hC, hlen]
      by_cases hult : u < st.concepts.length
      · rw [(hstable u hult).2.2.2] at hv
        by_cases hcu : cur = u
        · rw [if_pos hcu] at hv
          rcases List.mem_append.mp hv with hold | hnew
          · rcases hok.upper_ok u v hult hold with ⟨hvl, hsb, hnee⟩
            rw [(hstable u hult).1, (hstable v hvl).1]
            exact ⟨by omega, hsb, hnee⟩
          · rcases List.mem_singleton.mp hnew with rfl
            rw [(hstable u hult).1, hgetlast]
            subst hcu
            exact ⟨by omega, hsub, hne⟩
        · rw [if_neg hcu] at hv
          rcases hok.upper_ok u v hult hv with ⟨hvl, hsb, hnee⟩
          rw [(hstable u hult).1, (hstable v hvl).1]
          exact ⟨by omega, hsb, hnee⟩
      · have hueq : u = st.concepts.length := by omega
        subst hueq
        rw [hgetlast] at hv
        exact absurd hv (List.not_mem_nil _)
    · intro v u hv hu
      rw [hC, hlen] at hv
      rw [hC] at hu
      rw [hC, hlen]
      by_cases hvlt : v < st.concepts.length
      · rw [(hstable v hvlt).2.2.1] at hu
        rcases hok.lower_ok v u hvlt hu with ⟨hul, hsb, hnee⟩
        rw [(hstable v hvlt).1, (hstable u hul).1]
        exact ⟨by omega, hsb, hnee⟩
      · have hveq : v = st.concepts.length := by omega
        subst hveq
        rw [hgetlast] at hu
        rcases List.mem_singleton.mp hu with rfl
        rw [hgetlast, (hstable u hcur).1]
        exact ⟨by omega, hsub, hne⟩
    · intro p hp
      rw [hM] at hp
      rw [hC, hlen]
      rcases List.mem_cons.mp hp with rfl | hp2
      · rw [hgetlast]
        exact ⟨by omega, rfl⟩
      · rcases hok.map_fwd p hp2 with ⟨hpl, hpw⟩
        rw [(hstable p.2 hpl).1]
        exact ⟨by omega, hpw⟩
    · intro idx hidx
      rw [hC, hlen] at hidx
      rw [hC, hM]
      by_cases hidlt : idx < st.concepts.length
      · rw [(hstable idx hidlt).1]
        have hnekey : ((st.concepts.getD idx dC).1.words == nb.1.words) = false := by
          rcases hbeq : (st.concepts.getD idx dC).1.words == nb.1.words with _ | _
          · rfl
          · exfalso
            have heq : (st.concepts.getD idx dC).1.words = nb.1.words :=
              eq_of_beq hbeq
            have := hok.map_bwd idx hidlt
            rw [heq, hlk] at this
            cases this
        rw [List.lookup, hnekey]
        exact hok.map_bwd idx hidlt
      · have hideq : idx = st.concepts.length := by omega
        subst hideq
        rw [hgetlast]
        rw [List.lookup]
        simp
    · intro e he
      rw [hH] at he
      rw [hC, hlen]
      rcases List.mem_cons.mp he with rfl | he2
      · simp only []
        rw [hgetlast]
        exact ⟨by omega, rfl⟩
      · rcases hok.heap_ok e he2 with ⟨hel, hee⟩
        rw [(hstable e.index hel).1]
        exact ⟨by omega, hee⟩
  · -- existing concept: record the edge on both sides
    have hC := lpE_concepts cur hlk
    have hM := lpE_mapping cur hlk
    have hH := lpE_heap cur hlk
    rcases hok.map_fwd (nb.1.words, eidx) (lookup_mem hlk) with ⟨heidx, hwords⟩
    have hext : (st.concepts.getD eidx dC).1 = nb.1 :=
      bitset_eq_of_words (hok.cwf eidx heidx).1 hwE hwords
    have hlen2 : (pushLower (pushUpper st.concepts cur eidx) eidx cur).length =
        st.concepts.length := by
      rw [pushLower_length, pushUpper_length]
    have hstable : ∀ k,
        ((pushLower (pushUpper st.concepts cur eidx) eidx cur).getD k dC).1 =
          (st.concepts.getD k dC).1 ∧
        ((pushLower (pushUpper st.concepts cur eidx) eidx cur).getD k dC).2.1 =
          (st.concepts.getD k dC).2.1 ∧
        ((pushLower (pushUpper st.concepts cur eidx) eidx cur).getD k dC).2.2.1 =
          (if cur = k ∧ cur < st.concepts.length then
            (st.concepts.getD k dC).2.2.1 ++ [eidx]
          else (st.concepts.getD k dC).2.2.1) ∧
        ((pushLower (pushUpper st.concepts cur eidx) eidx cur).getD k dC).2.2.2 =
          (if eidx = k ∧ eidx < st.concepts.length then
            (st.concepts.getD k dC).2.2.2 ++ [cur]
          else (st.concepts.getD k dC).2.2.2) := by
      intro k
      rcases pushLower_getD_parts (pushUpper st.concepts cur eidx) eidx cur k
        with ⟨g1, g2, g3, g4⟩
      rcases pushUpper_getD_parts st.concepts cur eidx k with ⟨f1, f2, f3, f4⟩
      refine ⟨g1.trans f1, g2.trans f2, g3.trans f4, ?_⟩
      rw [g4, pushUpper_length, f3]
    refine ⟨?_, by rw [hC, hlen2], ?_⟩
    swap
    · intro k hk
      rw [hC]
      exact ⟨(hstable k).1, (hstable k).2.1⟩
    refine ⟨by rw [hC, hlen2]; exact hok.len_pos, ?_, ?_, ?_, ?_, ?_, ?_, ?_,
      ?_, ?_⟩
    · rw [hC, (hstable 0).1]
      exact hok.head_extent
    · rw [hC, (hstable 0).2.1]
      exact hok.head_intent
    · intro k hk
      rw [hC, hlen2] at hk
      rw [hC, (hstable k).1, (hstable k).2.1]
      exact hok.cwf k hk
    · intro k hk
      rw [hC, hlen2] at hk
      rw [hC, (hstable k).1, (hstable k).2.1]
      exact hok.cpair k hk
    · intro u v hu hv
      rw [hC, hlen2] at hu
      rw [hC] at hv
      rw [hC, hlen2]
      rw [(hstable u).2.2.1] at hv
      rw [(hstable u).1]
      by_cases hcu : cur = u ∧ cur < st.concepts.length
      · rw [if_pos hcu] at hv
        rcases List.mem_append.mp hv with hold | hnew
        · rcases hok.upper_ok u v hu hold with ⟨hvl, hsb, hnee⟩
          rw [(hstable v).1]
          exact ⟨hvl, hsb, hnee⟩
        · rcases List.mem_singleton.mp hnew with rfl
          rw [(hstable v).1, hext]
          rcases hcu with ⟨rfl, _⟩
          exact ⟨heidx, hsub, hne⟩
      · rw [if_neg hcu] at hv
        rcases hok.upper_ok u v hu hv with ⟨hvl, hsb, hnee⟩
        rw [(hstable v).1]
        exact ⟨hvl, hsb, hnee⟩
    · intro v u hv hu
      rw [hC, hlen2] at hv
      rw [hC] at hu
      rw [hC, hlen2]
      rw [(hstable v).2.2.2] at hu
      rw [(hstable v).1]
      by_cases hev : eidx = v ∧ eidx < st.concepts.length
      · rw [if_pos hev] at hu
        rcases List.mem_append.mp hu with hold | hnew
        · rcases hok.lower_ok v u hv hold with ⟨hul, hsb, hnee⟩
          rw [(hstable u).1]
          exact ⟨hul, hsb, hnee⟩
        · rcases List.mem_singleton.mp hnew with rfl
          rw [(hstable u).1]
          rcases hev with ⟨rfl, _⟩
          rw [hext]
          exact ⟨hcur, hsub, hne⟩
      · rw [if_neg hev] at hu
        rcases hok.lower_ok v u hv hu with ⟨hul, hsb, hnee⟩
        rw [(hstable u).1]
        exact ⟨hul, hsb, hnee⟩
    · intro p hp
      rw [hM] at hp
      rcases hok.map_fwd p hp with ⟨hpl, hpw⟩
      rw [hC, hlen2, (hstable p.2).1]
      exact ⟨hpl, hpw⟩
    · intro idx hidx
      rw [hC, hlen2] at hidx
      rw [hC, hM, (hstable idx).1]
      exact hok.map_bwd idx hidx
    · intro e he
      rw [hH] at he
      rcases hok.heap_ok e he with ⟨hel, hee⟩
      rw [hC, hlen2, (hstable e.index).1]
      exact ⟨hel, hee⟩


/-- Folding `lindigProcess` over neighbors of the concept at `cur` preserves
the invariant. -/
theorem lindigFold_preserves {ctx : FcaContext} {E0 I0 : BitSet}
    (hc : wfCtx ctx) (A : BitSet) (hA : wfBitSet A ctx.n_objects)
    (cur : Nat) :
    ∀ (nbrs : List (BitSet × BitSet)) (st : LindigState),
      (∀ nb ∈ nbrs, nb ∈ neighbors A ctx) →
      StateOK ctx E0 I0 st → cur < st.concepts.length →
      (st.concepts.getD cur dC).1 = A →
      StateOK ctx E0 I0
        (nbrs.foldl (fun s nb => lindigProcess s cur nb) st) := by
  intro nbrs
  induction nbrs with
  | nil =>
    intro st _ hok _ _
    exact hok
  | cons nb nbrs ih =>
    intro st hmem hok hcur hAeq
    rw [List.foldl_cons]
    rcases neighbor_props hc hA (hmem nb (List.mem_cons_self _ _)) with
      ⟨hwE, hwI, hpair, hsubA, hneA⟩
    have hsub : bsubset (st.concepts.getD cur dC).1 nb.1 := by
      rw [hAeq]
      exact hsubA
    have hne : (st.concepts.getD cur dC).1 ≠ nb.1 := by
      rw [hAeq]
      exact hneA
    rcases lindigProcess_preserves hok hcur hwE hwI hpair hsub hne with
      ⟨hok2, hlen2, hstab2⟩
    exact ih _ (fun x hx => hmem x (List.mem_cons_of_mem _ hx)) hok2
      (by omega) (((hstab2 cur hcur).1).trans hAeq)

theorem lindigLoop_none (ctx : FcaContext) (fuel : Nat) (st : LindigState)
    (h : popMin st.heap = none) : lindigLoop ctx (fuel + 1) st = st := by
  unfold lindigLoop
  rw [h]

theorem lindigLoop_some (ctx : FcaContext) (fuel : Nat) (st : LindigState)
    (entry : HeapEntry) (rest : List HeapEntry)
    (h : popMin st.heap = some (entry, rest)) :
    lindigLoop ctx (fuel + 1) st =
      lindigLoop ctx fuel
        ((neighbors (st.concepts.getD entry.index default).1 ctx).foldl
          (fun s nb => lindigProcess s entry.index nb)
          { st with heap := rest }) := by
  conv_lhs => unfold lindigLoop
  rw [h]

/-- The Lindig main loop preserves the invariant for every fuel value. -/
theorem lindigLoop_ok {ctx : FcaContext} {E0 I0 : BitSet} (hc : wfCtx ctx)
    (fuel : Nat) :
    ∀ st : LindigState, StateOK ctx E0 I0 st →
      StateOK ctx E0 I0 (lindigLoop ctx fuel st) := by
  induction fuel with
  | zero =>
    intro st h
    exact h
  | succ fuel ih =>
    intro st h
    rcases hpop : popMin st.heap with _ | ⟨entry, rest⟩
    · rw [lindigLoop_none ctx fuel st hpop]
      exact h
    · rw [lindigLoop_some ctx fuel st entry rest hpop]
      rcases popMin_mem hpop with ⟨hentry, hrest⟩
      rcases h.heap_ok entry hentry with ⟨hidx, hext⟩
      have hok2 : StateOK ctx E0 I0 { st with heap := rest } :=
        ⟨h.len_pos, h.head_extent, h.head_intent, h.cwf, h.cpair, h.upper_ok,
         h.lower_ok, h.map_fwd, h.map_bwd,
         fun e he => h.heap_ok e (hrest e he)⟩
      exact ih _ (lindigFold_preserves hc _
        (h.cwf entry.index hidx).1 entry.index _ _ (fun nb hnb => hnb)
        hok2 hidx rfl)


/-- The driver's Lindig run with `infimum = 0` (the composition used by
`lindig_lattice_py`): final state of the fuelled loop. -/
def lindigRun (nO nP : Nat) (er ir : List Nat) (fuel : Nat) : LindigState :=
  lindigLoop (FcaContext.new nO nP er ir) fuel
    (lindigInit (FcaContext.new nO nP er ir) (BitSet.from_u128 0 nO))

theorem lindig_lattice_eq_run (nO nP : Nat) (er ir : List Nat) (fuel : Nat) :
    lindig_lattice (FcaContext.new nO nP er ir) (BitSet.from_u128 0 nO) fuel =
      (lindigRun nO nP er ir fuel).concepts.map
        (fun c => (c.1.to_u128, c.2.1.to_u128, c.2.2.1, c.2.2.2)) := rfl

theorem prime_objects_zero (ctx : FcaContext) (n : Nat) :
    ctx.prime_objects (BitSet.from_u128 0 n) =
      BitSet.supremum ctx.n_properties := by
  unfold FcaContext.prime_objects
  have hiter : (BitSet.from_u128 0 n).iter_bits = [] := by
    rw [List.eq_nil_iff_forall_not_mem]
    intro i hi
    have hg := mem_iter_bits.mp hi
    rw [get_from_u128 (zero_lt_two_pow 128) n i] at hg
    simp at hg
  rw [hiter, List.foldl_nil]

theorem bsubset_count_le {a b : BitSet} {n : Nat} (ha : wfBitSet a n)
    (hb : wfBitSet b n) (hsub : bsubset a b) : a.count ≤ b.count := by
  rw [count_eq_countP ha, count_eq_countP hb]
  exact List.countP_mono_left (fun x _ hx => hsub x hx)

/-- The closure of the empty extent is contained in `B′` for every
well-formed property set `B`. -/
theorem bottom_min {ctx : FcaContext} (hc : wfCtx ctx) {I : BitSet}
    (hI : wfBitSet I ctx.n_properties) :
    bsubset (ctx.prime_properties (BitSet.supremum ctx.n_properties))
      (ctx.prime_properties I) := by
  apply prime_properties_antitone hc hI (wf_supremum _)
  intro j hj
  rw [get_supremum]
  have h1 := get_true_lt hj
  have h2 := hI.1
  simp only [decide_eq_true_eq]
  omega

theorem stateOK_run (nO nP : Nat) (er ir : List Nat)
    (hraw : wellFormedRaw nO nP er ir) (fuel : Nat) :
    StateOK (FcaContext.new nO nP er ir)
      ((FcaContext.new nO nP er ir).doubleprime_objects
        (BitSet.from_u128 0 nO)).fst
      ((FcaContext.new nO nP er ir).doubleprime_objects
        (BitSet.from_u128 0 nO)).snd
      (lindigRun nO nP er ir fuel) :=
  lindigLoop_ok (wfCtx_new nO nP er ir hraw) fuel _
    (lindigInit_ok (wfCtx_new nO nP er ir hraw)
      (wf_from_u128 (zero_lt_two_pow nO)))

theorem run_bottom_subset (nO nP : Nat) (er ir : List Nat)
    (hraw : wellFormedRaw nO nP er ir) (fuel : Nat) (k : Nat)
    (hk : k < (lindigRun nO nP er ir fuel).concepts.length) :
    bsubset ((lindigRun nO nP er ir fuel).concepts.getD 0 dC).1
      ((lindigRun nO nP er ir fuel).concepts.getD k dC).1 := by
  have hc := wfCtx_new nO nP er ir hraw
  have hok := stateOK_run nO nP er ir hraw fuel
  have hE0 : ((lindigRun nO nP er ir fuel).concepts.getD 0 dC).1 =
      (FcaContext.new nO nP er ir).prime_properties
        (BitSet.supremum (FcaContext.new nO nP er ir).n_properties) := by
    rw [hok.head_extent, doubleprime_objects_fst, prime_objects_zero]
  rw [hE0, (hok.cpair k hk).2]
  exact bottom_min hc (hok.cwf k hk).2

/-- C3 [amended]: with infimum 0, the concept at index 0 is the closure of
the empty extent and has the subset-smallest extent of all emitted concepts;
and for every emitted cover edge `u → v`, `extent(u)` is a strict subset of
`extent(v)` (so its popcount is strictly smaller).  The index comparison
`index(u) < index(v)` of the original claim does not hold in general. -/
theorem c3_lindig_edges (nO nP : Nat) (er ir : List Nat)
    (hraw : wellFormedRaw nO nP er ir) (fuel : Nat) :
    (((lindigRun nO nP er ir fuel).concepts.getD 0 dC).1 =
      ((FcaContext.new nO nP er ir).doubleprime_objects
        (BitSet.from_u128 0 nO)).fst) ∧
    (∀ k, k < (lindigRun nO nP er ir fuel).concepts.length →
      bsubset ((lindigRun nO nP er ir fuel).concepts.getD 0 dC).1
        ((lindigRun nO nP er ir fuel).concepts.getD k dC).1) ∧
    (∀ u v, u < (lindigRun nO nP er ir fuel).concepts.length →
      v ∈ ((lindigRun nO nP er ir fuel).concepts.getD u dC).2.2.1 →
      bsubset ((lindigRun nO nP er ir fuel).concepts.getD u dC).1
        ((lindigRun nO nP er ir fuel).concepts.getD v dC).1 ∧
      ((lindigRun nO nP er ir fuel).concepts.getD u dC).1 ≠
        ((lindigRun nO nP er ir fuel).concepts.getD v dC).1 ∧
      ((lindigRun nO nP er ir fuel).concepts.getD u dC).1.count <
        ((lindigRun nO nP er ir fuel).concepts.getD v dC).1.count) := by
  have hok := stateOK_run nO nP er ir hraw fuel
  refine ⟨hok.head_extent, run_bottom_subset nO nP er ir hraw fuel, ?_⟩
  intro u v hu hv
  rcases hok.upper_ok u v hu hv with ⟨hvl, hsb, hnee⟩
  exact ⟨hsb, hnee,
    bsubset_strict_count (hok.cwf u hu).1 (hok.cwf v hvl).1 hsb hnee⟩

theorem wellFormedRaw_367 : wellFormedRaw 3 3 [1, 2, 6] [1, 6, 4] := by
  refine ⟨rfl, rfl, ?_, ?_, ?_⟩
  · intro v hv
    have hv3 : v = 1 ∨ v = 2 ∨ v = 6 := by simpa using hv
    rcases hv3 with rfl | rfl | rfl <;> exact ⟨by norm_num, by norm_num⟩
  · intro v hv
    have hv3 : v = 1 ∨ v = 6 ∨ v = 4 := by simpa using hv
    rcases hv3 with rfl | rfl | rfl <;> exact ⟨by norm_num, by norm_num⟩
  · intro i j hi hj
    have hi3 : i = 0 ∨ i = 1 ∨ i = 2 := by omega
    have hj3 : j = 0 ∨ j = 1 ∨ j = 2 := by omega
    rcases hi3 with rfl | rfl | rfl <;> rcases hj3 with rfl | rfl | rfl <;>
      decide

theorem c3_lindig_edges_witness :
    wellFormedRaw 3 3 [1, 2, 6] [1, 6, 4] ∧
    ((((lindigRun 3 3 [1, 2, 6] [1, 6, 4] 20).concepts.getD 0 dC).1 =
      ((FcaContext.new 3 3 [1, 2, 6] [1, 6, 4]).doubleprime_objects
        (BitSet.from_u128 0 3)).fst) ∧
    (∀ k, k < (lindigRun 3 3 [1, 2, 6] [1, 6, 4] 20).concepts.length →
      bsubset ((lindigRun 3 3 [1, 2, 6] [1, 6, 4] 20).concepts.getD 0 dC).1
        ((lindigRun 3 3 [1, 2, 6] [1, 6, 4] 20).concepts.getD k dC).1) ∧
    (∀ u v, u < (lindigRun 3 3 [1, 2, 6] [1, 6, 4] 20).concepts.length →
      v ∈ ((lindigRun 3 3 [1, 2, 6] [1, 6, 4] 20).concepts.getD u dC).2.2.1 →
      bsubset ((lindigRun 3 3 [1, 2, 6] [1, 6, 4] 20).concepts.getD u dC).1
        ((lindigRun 3 3 [1, 2, 6] [1, 6, 4] 20).concepts.getD v dC).1 ∧
      ((lindigRun 3 3 [1, 2, 6] [1, 6, 4] 20).concepts.getD u dC).1 ≠
        ((lindigRun 3 3 [1, 2, 6] [1, 6, 4] 20).concepts.getD v dC).1 ∧
      ((lindigRun 3 3 [1, 2, 6] [1, 6, 4] 20).concepts.getD u dC).1.count <
        ((lindigRun 3 3 [1, 2, 6] [1, 6, 4] 20).concepts.getD v dC).1.count)) :=
  ⟨wellFormedRaw_367, c3_lindig_edges 3 3 [1, 2, 6] [1, 6, 4]
    wellFormedRaw_367 20⟩


theorem getD_map_at {α β : Type} [Inhabited α] (f : α → β) (l : List α)
    (k : Nat) (d : β) (hk : k < l.length) :
    (l.map f).getD k d = f (l.getD k default) := by
  rw [List.getD_eq_getElem?_getD, List.getElem?_map,
    List.getElem?_eq_getElem hk, getD_eq_getElem _ _ _ hk]
  rfl

/-- C7 [amended]: with infimum 0, the first element of the returned list is
the bottom concept — its extent is the closure of the empty extent and is a
subset of (and no larger than) every other emitted extent.  The top concept
need not be the last element. -/
theorem c7_bottom_first (nO nP : Nat) (er ir : List Nat)
    (hraw : wellFormedRaw nO nP er ir) (fuel : Nat) :
    0 < (lindig_lattice (FcaContext.new nO nP er ir)
      (BitSet.from_u128 0 nO) fuel).length ∧
    ((lindig_lattice (FcaContext.new nO nP er ir)
      (BitSet.from_u128 0 nO) fuel).getD 0 (0, 0, [], [])).1 =
      (((lindigRun nO nP er ir fuel).concepts.getD 0 dC).1).to_u128 ∧
    (((lindigRun nO nP er ir fuel).concepts.getD 0 dC).1 =
      ((FcaContext.new nO nP er ir).doubleprime_objects
        (BitSet.from_u128 0 nO)).fst) ∧
    (∀ k, k < (lindigRun nO nP er ir fuel).concepts.length →
      bsubset ((lindigRun nO nP er ir fuel).concepts.getD 0 dC).1
        ((lindigRun nO nP er ir fuel).concepts.getD k dC).1 ∧
      ((lindigRun nO nP er ir fuel).concepts.getD 0 dC).1.count ≤
        ((lindigRun nO nP er ir fuel).concepts.getD k dC).1.count) := by
  have hok := stateOK_run nO nP er ir hraw fuel
  have hlp := hok.len_pos
  refine ⟨?_, ?_, hok.head_extent, ?_⟩
  · rw [lindig_lattice_eq_run]
    simpa using hlp
  · rw [lindig_lattice_eq_run, getD_map_at _ _ _ _ hlp]
  · intro k hk
    have hsb := run_bottom_subset nO nP er ir hraw fuel k hk
    exact ⟨hsb, bsubset_count_le (hok.cwf 0 hlp).1 (hok.cwf k hk).1 hsb⟩

theorem c7_bottom_first_witness :
    wellFormedRaw 3 3 [1, 2, 6] [1, 6, 4] ∧
    (0 < (lindig_lattice (FcaContext.new 3 3 [1, 2, 6] [1, 6, 4])
      (BitSet.from_u128 0 3) 20).length ∧
    ((lindig_lattice (FcaContext.new 3 3 [1, 2, 6] [1, 6, 4])
      (BitSet.from_u128 0 3) 20).getD 0 (0, 0, [], [])).1 =
      (((lindigRun 3 3 [1, 2, 6] [1, 6, 4] 20).concepts.getD 0 dC).1).to_u128 ∧
    (((lindigRun 3 3 [1, 2, 6] [1, 6, 4] 20).concepts.getD 0 dC).1 =
      ((FcaContext.new 3 3 [1, 2, 6] [1, 6, 4]).doubleprime_objects
        (BitSet.from_u128 0 3)).fst) ∧
    (∀ k, k < (lindigRun 3 3 [1, 2, 6] [1, 6, 4] 20).concepts.length →
      bsubset ((lindigRun 3 3 [1, 2, 6] [1, 6, 4] 20).concepts.getD 0 dC).1
        ((lindigRun 3 3 [1, 2, 6] [1, 6, 4] 20).concepts.getD k dC).1 ∧
      ((lindigRun 3 3 [1, 2, 6] [1, 6, 4] 20).concepts.getD 0 dC).1.count ≤
        ((lindigRun 3 3 [1, 2, 6] [1, 6, 4] 20).concepts.getD k dC).1.count)) :=
  ⟨wellFormedRaw_367, c7_bottom_first 3 3 [1, 2, 6] [1, 6, 4]
    wellFormedRaw_367 20⟩

/-- C8 [amended]: with infimum 0, the intent of the concept at index 0 is
always the full property set `⊤_P` (it is the prime of the empty object set,
an empty intersection), regardless of whether any object has all
properties. -/
theorem c8_intent_always_top (nO nP : Nat) (er ir : List Nat)
    (hraw : wellFormedRaw nO nP er ir) (fuel : Nat) :
    ((lindigRun nO nP er ir fuel).concepts.getD 0 dC).2.1 =
      BitSet.supremum nP ∧
    ((lindig_lattice (FcaContext.new nO nP er ir)
      (BitSet.from_u128 0 nO) fuel).getD 0 (0, 0, [], [])).2.1 =
      (BitSet.supremum nP).to_u128 := by
  have hok := stateOK_run nO nP er ir hraw fuel
  have h1 : ((lindigRun nO nP er ir fuel).concepts.getD 0 dC).2.1 =
      BitSet.supremum nP := by
    rw [hok.head_intent, doubleprime_objects_snd, prime_objects_zero]
    rfl
  refine ⟨h1, ?_⟩
  rw [lindig_lattice_eq_run, getD_map_at _ _ _ _ hok.len_pos]
  simp only
  rw [h1]

theorem wellFormedRaw_11 : wellFormedRaw 1 1 [0] [0] := by
  refine ⟨rfl, rfl, ?_, ?_, ?_⟩
  · intro v hv
    have hv1 : v = 0 := by simpa using hv
    subst hv1
    exact ⟨by norm_num, by norm_num⟩
  · intro v hv
    have hv1 : v = 0 := by simpa using hv
    subst hv1
    exact ⟨by norm_num, by norm_num⟩
  · intro i j hi hj
    have hi1 : i = 0 := by omega
    have hj1 : j = 0 := by omega
    subst hi1
    subst hj1
    decide

theorem c8_intent_always_top_witness :
    wellFormedRaw 1 1 [0] [0] ∧
    (((lindigRun 1 1 [0] [0] 10).concepts.getD 0 dC).2.1 =
      BitSet.supremum 1 ∧
    ((lindig_lattice (FcaContext.new 1 1 [0] [0])
      (BitSet.from_u128 0 1) 10).getD 0 (0, 0, [], [])).2.1 =
      (BitSet.supremum 1).to_u128) :=
  ⟨wellFormedRaw_11, c8_intent_always_top 1 1 [0] [0] wellFormedRaw_11 10⟩

/-! ### Neighbor minimality (Lindig's covering theorem) -/

/-- A closed object set: a fixed point of the double-prime closure. -/
def Closed (ctx : FcaContext) (W : BitSet) : Prop :=
  ctx.prime_properties (ctx.prime_objects W) = W

theorem closed_of_pair {ctx : FcaContext} {E I : BitSet}
    (h : IsConceptPair ctx E I) : Closed ctx E := by
  rcases h with ⟨hI, hE⟩
  rw [Closed, ← hI, ← hE]

/-- The double-prime closure of a subset of a closed set stays inside it. -/
theorem closure_le_closed {ctx : FcaContext} (hc : wfCtx ctx) {S W : BitSet}
    (hS : wfBitSet S ctx.n_objects) (hW : wfBitSet W ctx.n_objects)
    (hWc : Closed ctx W) (hsub : bsubset S W) :
    bsubset (ctx.prime_properties (ctx.prime_objects S)) W := by
  have h1 := prime_objects_antitone hc hS hW hsub
  have h2 := prime_properties_antitone hc (wf_prime_objects hc W)
    (wf_prime_objects hc S) h1
  rw [hWc] at h2
  exact h2

theorem get_ge_false {b : BitSet} {n : Nat} (h : wfBitSet b n) {t : Nat}
    (ht : n ≤ t) : b.get t = false := by
  rw [get_def, h.1, if_pos ht]

/-- State of the `neighbors` scan after the first `k` object indices. -/
def nstate (ctx : FcaContext) (A : BitSet) (k : Nat) :
    List (BitSet × BitSet) × BitSet :=
  (List.range k).foldl (neighborsStep ctx A) ([], A.complement)

theorem neighbors_eq_nstate (ctx : FcaContext) (A : BitSet) :
    neighbors A ctx = (nstate ctx A ctx.n_objects).fst := rfl

theorem nstate_zero (ctx : FcaContext) (A : BitSet) :
    nstate ctx A 0 = ([], A.complement) := by
  unfold nstate
  rw [List.range_zero, List.foldl_nil]

theorem nstate_succ (ctx : FcaContext) (A : BitSet) (k : Nat) :
    nstate ctx A (k + 1) = neighborsStep ctx A (nstate ctx A k) k := by
  unfold nstate
  rw [List.range_succ, List.foldl_append, List.foldl_cons, List.foldl_nil]

/-- The witness set tested at step `i` of the `neighbors` scan. -/
def ncheck (ctx : FcaContext) (A : BitSet) (i : Nat) : BitSet :=
  ((ctx.doubleprime_objects
    (A.or ((BitSet.new ctx.n_objects).setBit i))).fst.and
      ((A.or ((BitSet.new ctx.n_objects).setBit i)).complement)).and
        (nstate ctx A i).snd

theorem ncheck_eq (ctx : FcaContext) (A : BitSet) (k : Nat)
    (res : List (BitSet × BitSet)) (minimal : BitSet)
    (h : nstate ctx A k = (res, minimal)) :
    ncheck ctx A k =
      ((ctx.doubleprime_objects
        (A.or ((BitSet.new ctx.n_objects).setBit k))).fst.and
          ((A.or ((BitSet.new ctx.n_objects).setBit k)).complement)).and
            minimal := by
  unfold ncheck
  rw [h]

theorem nstate_succ_eq (ctx : FcaContext) (A : BitSet) (k : Nat)
    (res : List (BitSet × BitSet)) (minimal : BitSet)
    (h : nstate ctx A k = (res, minimal)) :
    nstate ctx A (k + 1) =
      if minimal.get k = false then (res, minimal)
      else if (ncheck ctx A k).is_empty = false then
        (res, minimal.and (((BitSet.new ctx.n_objects).setBit k).complement))
      else
        (res ++ [ctx.doubleprime_objects
          (A.or ((BitSet.new ctx.n_objects).setBit k))], minimal) := by
  rw [nstate_succ, h, neighborsStep_eq, ncheck_eq ctx A k res minimal h]

theorem nstate_wf {ctx : FcaContext} {A : BitSet}
    (hA : wfBitSet A ctx.n_objects) (k : Nat) :
    wfBitSet (nstate ctx A k).snd ctx.n_objects := by
  induction k with
  | zero =>
    rw [nstate_zero]
    exact wf_complement hA
  | succ k ih =>
    rcases hst : nstate ctx A k with ⟨res, minimal⟩
    rw [hst] at ih
    rw [nstate_succ_eq ctx A k res minimal hst]
    by_cases h1 : minimal.get k = false
    · rw [if_pos h1]
      exact ih
    · rw [if_neg h1]
      by_cases h2 : (ncheck ctx A k).is_empty = false
      · rw [if_pos h2]
        exact wf_and ih (wf_complement (wf_setBit (wf_new _) k))
      · rw [if_neg h2]
        exact ih

theorem nstate_snd_ge {ctx : FcaContext} {A : BitSet}
    (hA : wfBitSet A ctx.n_objects) (t : Nat) :
    ∀ k, k ≤ t → (nstate ctx A k).snd.get t = A.complement.get t := by
  intro k
  induction k with
  | zero =>
    intro _
    rw [nstate_zero]
  | succ k ih =>
    intro hkt
    rcases hst : nstate ctx A k with ⟨res, minimal⟩
    have ih2 := ih (by omega)
    rw [hst] at ih2
    have ih3 : minimal.get t = A.complement.get t := ih2
    have hwm : wfBitSet minimal ctx.n_objects := by
      have := nstate_wf hA k
      rw [hst] at this
      exact this
    rw [nstate_succ_eq ctx A k res minimal hst]
    by_cases h1 : minimal.get k = false
    · rw [if_pos h1]
      exact ih3
    · rw [if_neg h1]
      by_cases h2 : (ncheck ctx A k).is_empty = false
      · rw [if_pos h2]
        show (minimal.and
          (((BitSet.new ctx.n_objects).setBit k).complement)).get t = _
        rw [get_and hwm (wf_complement (wf_setBit (wf_new _) k)) t,
          get_complement (wf_setBit (wf_new _) k) t,
          get_setBit (wf_new _) k t,
          if_neg (show ¬(t = k ∧ k < ctx.n_objects) from fun hcc => by omega),
          get_new, ih3, get_complement hA t]
        by_cases htn : t < ctx.n_objects <;> simp [htn]
      · rw [if_neg h2]
        exact ih3

theorem nstate_snd_stable_step {ctx : FcaContext} {A : BitSet}
    (hA : wfBitSet A ctx.n_objects) (t k : Nat) (htk : t < k) :
    (nstate ctx A (k + 1)).snd.get t = (nstate ctx A k).snd.get t := by
  rcases hst : nstate ctx A k with ⟨res, minimal⟩
  have hwm : wfBitSet minimal ctx.n_objects := by
    have := nstate_wf hA k
    rw [hst] at this
    exact this
  rw [nstate_succ_eq ctx A k res minimal hst]
  by_cases h1 : minimal.get k = false
  · rw [if_pos h1]
  · rw [if_neg h1]
    by_cases h2 : (ncheck ctx A k).is_empty = false
    · rw [if_pos h2]
      show (minimal.and
        (((BitSet.new ctx.n_objects).setBit k).complement)).get t =
          minimal.get t
      rw [get_and hwm (wf_complement (wf_setBit (wf_new _) k)) t,
        get_complement (wf_setBit (wf_new _) k) t,
        get_setBit (wf_new _) k t,
        if_neg (show ¬(t = k ∧ k < ctx.n_objects) from fun hcc => by omega),
        get_new]
      by_cases htn : t < ctx.n_objects
      · simp [htn]
      · rw [get_ge_false hwm (by omega)]
        simp
    · rw [if_neg h2]

theorem nstate_snd_stable_le {ctx : FcaContext} {A : BitSet}
    (hA : wfBitSet A ctx.n_objects) (t k k2 : Nat) (htk : t < k)
    (hkk : k ≤ k2) :
    (nstate ctx A k2).snd.get t = (nstate ctx A k).snd.get t := by
  have hd : ∀ d, (nstate ctx A (k + d)).snd.get t =
      (nstate ctx A k).snd.get t := by
    intro d
    induction d with
    | zero => rfl
    | succ d ih =>
      have he : k + (d + 1) = (k + d) + 1 := by omega
      rw [he, nstate_snd_stable_step hA t (k + d) (by omega), ih]
  have he2 : k2 = k + (k2 - k) := by omega
  conv_lhs => rw [he2]
  exact hd (k2 - k)

theorem nstate_fst_mem {ctx : FcaContext} {A : BitSet}
    (hA : wfBitSet A ctx.n_objects) (k : Nat) :
    ∀ EI ∈ (nstate ctx A k).fst, ∃ t, t < k ∧ A.get t = false ∧
      (nstate ctx A k).snd.get t = true ∧
      EI = ctx.doubleprime_objects
        (A.or ((BitSet.new ctx.n_objects).setBit t)) := by
  induction k with
  | zero =>
    intro EI hEI
    rw [nstate_zero] at hEI
    exact absurd hEI (List.not_mem_nil _)
  | succ k ih =>
    intro EI hEI
    rcases hst : nstate ctx A k with ⟨res, minimal⟩
    rw [hst] at ih
    rw [nstate_succ_eq ctx A k res minimal hst] at hEI
    rw [nstate_succ_eq ctx A k res minimal hst]
    have hwm : wfBitSet minimal ctx.n_objects := by
      have := nstate_wf hA k
      rw [hst] at this
      exact this
    by_cases h1 : minimal.get k = false
    · rw [if_pos h1] at hEI ⊢
      rcases ih EI hEI with ⟨t, ht, hAt, hmt, hEIe⟩
      exact ⟨t, by omega, hAt, hmt, hEIe⟩
    · rw [if_neg h1] at hEI ⊢
      by_cases h2 : (ncheck ctx A k).is_empty = false
      · rw [if_pos h2] at hEI ⊢
        rcases ih EI hEI with ⟨t, ht, hAt, hmt, hEIe⟩
        have hmt2 : minimal.get t = true := hmt
        have htn : t < ctx.n_objects := by
          have := get_true_lt hmt2
          have := hwm.1
          omega
        refine ⟨t, by omega, hAt, ?_, hEIe⟩
        show (minimal.and
          (((BitSet.new ctx.n_objects).setBit k).complement)).get t = true
        rw [get_and hwm (wf_complement (wf_setBit (wf_new _) k)) t,
          get_complement (wf_setBit (wf_new _) k) t,
          get_setBit (wf_new _) k t,
          if_neg (show ¬(t = k ∧ k < ctx.n_objects) from fun hcc => by omega),
          get_new]
        simp [hmt2, htn]
      · rw [if_neg h2] at hEI ⊢
        rcases List.mem_append.mp hEI with hold | hnew
        · rcases ih EI hold with ⟨t, ht, hAt, hmt, hEIe⟩
          exact ⟨t, by omega, hAt, hmt, hEIe⟩
        · rcases List.mem_singleton.mp hnew with rfl
          have hmk : minimal.get k = true := by
            revert h1
            cases minimal.get k <;> simp
          have hge := nstate_snd_ge hA k k le_rfl
          rw [hst] at hge
          have hge2 : minimal.get k = A.complement.get k := hge
          rw [hmk, get_complement hA k] at hge2
          have hAk : A.get k = false := by
            cases hv : A.get k
            · rfl
            · rw [hv] at hge2
              simp at hge2
          exact ⟨k, by omega, hAk, hmk, rfl⟩

theorem is_empty_all_false {b : BitSet} (h : b.is_empty = true) (i : Nat) :
    b.get i = false := by
  rw [BitSet.is_empty] at h
  rw [get_def]
  by_cases hni : b.n_bits ≤ i
  · rw [if_pos hni]
  · rw [if_neg hni]
    have hall := List.all_eq_true.mp h
    by_cases hlen : i / 64 < b.words.length
    · rw [getD_eq_getElem _ _ _ hlen]
      have hw := hall _ (b.words.getElem_mem hlen)
      have hw0 : b.words[i / 64] = 0 := by simpa using hw
      rw [hw0, Nat.zero_testBit]
    · rw [getD_ge _ _ _ (by omega)]
      exact Nat.zero_testBit _

theorem is_empty_false_exists {b : BitSet} {n : Nat} (h : wfBitSet b n)
    (he : b.is_empty = false) : ∃ i, b.get i = true := by
  rw [BitSet.is_empty] at he
  rcases List.all_eq_false.mp he with ⟨w, hwmem, hw⟩
  have hw0 : w ≠ 0 := by simpa using hw
  rcases List.getElem_of_mem hwmem with ⟨j, hj, hwj⟩
  have hp : ∃ p, w.testBit p = true := by
    by_contra hcon
    push_neg at hcon
    apply hw0
    apply Nat.eq_of_testBit_eq
    intro p
    rw [Nat.zero_testBit]
    cases hv : w.testBit p
    · rfl
    · exact absurd hv (hcon p)
  rcases hp with ⟨p, hp⟩
  have hgd : b.words.getD j 0 = w := by
    rw [getD_eq_getElem _ _ _ hj, hwj]
  have hbits := h.2.2 j p (by rw [hgd]; exact hp)
  refine ⟨64 * j + p, ?_⟩
  rw [get_def, h.1, if_neg (by omega)]
  have hdiv : (64 * j + p) / 64 = j := by omega
  have hmod : (64 * j + p) % 64 = p := by omega
  rw [hdiv, hmod, hgd]
  exact hp

/-- If object `i` survives the whole `neighbors` scan, its witness check at
step `i` was empty (so its closure was emitted). -/
theorem nstate_survive_check {ctx : FcaContext} {A : BitSet}
    (hA : wfBitSet A ctx.n_objects) {i : Nat} (hi : i < ctx.n_objects)
    (hAi : A.get i = false)
    (hsurv : (nstate ctx A ctx.n_objects).snd.get i = true) :
    (ncheck ctx A i).is_empty = true := by
  rcases hst : nstate ctx A i with ⟨res, minimal⟩
  have hwm : wfBitSet minimal ctx.n_objects := by
    have := nstate_wf hA i
    rw [hst] at this
    exact this
  have hguard : minimal.get i = true := by
    have h1 := nstate_snd_ge hA i i le_rfl
    rw [hst] at h1
    have h2 : minimal.get i = A.complement.get i := h1
    rw [h2, get_complement hA i, hAi]
    simp [hi]
  have hstab : (nstate ctx A ctx.n_objects).snd.get i =
      (nstate ctx A (i + 1)).snd.get i :=
    nstate_snd_stable_le hA i (i + 1) ctx.n_objects (by omega) (by omega)
  by_cases h2 : (ncheck ctx A i).is_empty = false
  · exfalso
    rw [hstab, nstate_succ_eq ctx A i res minimal hst,
      if_neg (show ¬(minimal.get i = false) by rw [hguard]; simp),
      if_pos h2] at hsurv
    have hsurv2 : (minimal.and
        (((BitSet.new ctx.n_objects).setBit i).complement)).get i = true :=
      hsurv
    rw [get_and hwm (wf_complement (wf_setBit (wf_new _) i)) i,
      get_complement (wf_setBit (wf_new _) i) i,
      get_setBit (wf_new _) i i, if_pos ⟨rfl, hi⟩] at hsurv2
    simp at hsurv2
  · cases hv : (ncheck ctx A i).is_empty
    · exact absurd hv h2
    · rfl

/-- If object `i` is removed during the `neighbors` scan, its witness check
at step `i` was nonempty. -/
theorem nstate_fail_check {ctx : FcaContext} {A : BitSet}
    (hA : wfBitSet A ctx.n_objects) {i : Nat} (hi : i < ctx.n_objects)
    (hAi : A.get i = false)
    (hfail : (nstate ctx A ctx.n_objects).snd.get i = false) :
    (ncheck ctx A i).is_empty = false := by
  rcases hst : nstate ctx A i with ⟨res, minimal⟩
  have hguard : minimal.get i = true := by
    have h1 := nstate_snd_ge hA i i le_rfl
    rw [hst] at h1
    have h2 : minimal.get i = A.complement.get i := h1
    rw [h2, get_complement hA i, hAi]
    simp [hi]
  have hstab : (nstate ctx A ctx.n_objects).snd.get i =
      (nstate ctx A (i + 1)).snd.get i :=
    nstate_snd_stable_le hA i (i + 1) ctx.n_objects (by omega) (by omega)
  cases hv : (ncheck ctx A i).is_empty
  · rfl
  · exfalso
    rw [hstab, nstate_succ_eq ctx A i res minimal hst,
      if_neg (show ¬(minimal.get i = false) by rw [hguard]; simp),
      if_neg (show ¬((ncheck ctx A i).is_empty = false) by rw [hv]; simp)]
      at hfail
    have hfail2 : minimal.get i = false := hfail
    rw [hguard] at hfail2
    cases hfail2

/-- Lindig's covering theorem, soundness half: no closed object set lies
strictly between `A` and an extent emitted by `neighbors A ctx`. -/
theorem neighbors_tight {ctx : FcaContext} (hc : wfCtx ctx) {A : BitSet}
    (hA : wfBitSet A ctx.n_objects) {EI : BitSet × BitSet}
    (hEI : EI ∈ neighbors A ctx) {W : BitSet}
    (hW : wfBitSet W ctx.n_objects) (hWc : Closed ctx W)
    (hAW : bsubset A W) (hAWne : A ≠ W)
    (hWE : bsubset W EI.1) (hWEne : W ≠ EI.1) : False := by
  rw [neighbors_eq_nstate] at hEI
  rcases nstate_fst_mem hA ctx.n_objects EI hEI with ⟨t, htn, hAt, hsurv, hEIe⟩
  have hwatom : ∀ j : Nat,
      wfBitSet ((BitSet.new ctx.n_objects).setBit j) ctx.n_objects :=
    fun j => wf_setBit (wf_new _) j
  have hwor : ∀ j : Nat,
      wfBitSet (A.or ((BitSet.new ctx.n_objects).setBit j)) ctx.n_objects :=
    fun j => wf_or hA (hwatom j)
  have hwcl : ∀ j : Nat, wfBitSet (ctx.doubleprime_objects
      (A.or ((BitSet.new ctx.n_objects).setBit j))).fst ctx.n_objects := by
    intro j
    rw [doubleprime_objects_fst]
    exact wf_prime_properties hc _
  have hE1 : EI.1 = (ctx.doubleprime_objects
      (A.or ((BitSet.new ctx.n_objects).setBit t))).fst := by
    rw [hEIe]
  have hcheckt := nstate_survive_check hA htn hAt hsurv
  have hSfact : ∀ y, (ctx.doubleprime_objects
        (A.or ((BitSet.new ctx.n_objects).setBit t))).fst.get y = true →
      A.get y = false → y ≠ t →
      y < t ∧ (nstate ctx A ctx.n_objects).snd.get y = false := by
    intro y hy hAy hyt
    have hcf := is_empty_all_false hcheckt y
    rcases hst : nstate ctx A t with ⟨res, minimal⟩
    have hwm : wfBitSet minimal ctx.n_objects := by
      have := nstate_wf hA t
      rw [hst] at this
      exact this
    rw [ncheck_eq ctx A t res minimal hst] at hcf
    rw [get_and (wf_and (hwcl t) (wf_complement (hwor t))) hwm y,
      get_and (hwcl t) (wf_complement (hwor t)) y,
      get_complement (hwor t) y,
      get_or hA (hwatom t) y,
      get_setBit (wf_new _) t y,
      if_neg (show ¬(y = t ∧ t < ctx.n_objects) from fun hcc => hyt hcc.1),
      get_new, hy, hAy] at hcf
    have hyn : y < ctx.n_objects := by
      have := get_true_lt hy
      have := (hwcl t).1
      omega
    have hminy : minimal.get y = false := by
      simpa [hyn] using hcf
    by_cases hyt2 : y < t
    · refine ⟨hyt2, ?_⟩
      have hstab := nstate_snd_stable_le hA y t ctx.n_objects hyt2 (by omega)
      rw [hstab, hst]
      exact hminy
    · exfalso
      have hge := nstate_snd_ge hA y t (by omega)
      rw [hst] at hge
      have hge2 : minimal.get y = A.complement.get y := hge
      rw [hge2, get_complement hA y, hAy] at hminy
      simp [hyn] at hminy
  have htW : W.get t = false := by
    cases hv : W.get t
    · rfl
    · exfalso
      have hsubW : bsubset (A.or ((BitSet.new ctx.n_objects).setBit t)) W := by
        intro z hz
        rw [get_or hA (hwatom t) z, get_setBit (wf_new _) t z, get_new] at hz
        by_cases hzt : z = t ∧ t < ctx.n_objects
        · rcases hzt with ⟨rfl, _⟩
          exact hv
        · rw [if_neg hzt] at hz
          have hz2 : A.get z = true := by simpa using hz
          exact hAW z hz2
      have hclW := closure_le_closed hc (hwor t) hW hWc hsubW
      have hEW : bsubset EI.1 W := by
        rw [hE1, doubleprime_objects_fst]
        exact hclW
      apply hWEne
      apply wf_ext hW (by rw [hE1]; exact hwcl t)
      exact bsubset_antisymm_get hWE hEW
  have hWfact : ∀ s, W.get s = true → A.get s = false →
      s < t ∧ (nstate ctx A ctx.n_objects).snd.get s = false := by
    intro s hsW hsA
    have hst2 : s ≠ t := by
      intro h
      rw [h, htW] at hsW
      cases hsW
    have hscl : (ctx.doubleprime_objects
        (A.or ((BitSet.new ctx.n_objects).setBit t))).fst.get s = true := by
      have := hWE s hsW
      rw [hE1] at this
      exact this
    exact hSfact s hscl hsA hst2
  have hs0 : ∃ s, W.get s = true ∧ A.get s = false := by
    by_contra hcon
    push_neg at hcon
    apply hAWne
    apply wf_ext hA hW
    apply bsubset_antisymm_get hAW
    intro i hi
    have hne := hcon i hi
    cases hv : A.get i
    · exact absurd hv hne
    · rfl
  rcases hs0 with ⟨s0, hs0W, hs0A⟩
  have hs0n : s0 ≤ ctx.n_objects := by
    have := get_true_lt hs0W
    have := hW.1
    omega
  have hmax : ∃ smax, (W.get smax = true ∧ A.get smax = false) ∧
      ∀ y, smax < y → W.get y = true → A.get y = false → False := by
    refine ⟨Nat.findGreatest
      (fun s => W.get s = true ∧ A.get s = false) ctx.n_objects,
      @Nat.findGreatest_spec s0 (fun s => W.get s = true ∧ A.get s = false) _
        ctx.n_objects hs0n ⟨hs0W, hs0A⟩, ?_⟩
    intro y hy hyW hyA
    by_cases hyn : y ≤ ctx.n_objects
    · exact @Nat.findGreatest_is_greatest y
        (fun s => W.get s = true ∧ A.get s = false) _ ctx.n_objects
        hy hyn ⟨hyW, hyA⟩
    · have := get_true_lt hyW
      have := hW.1
      omega
  rcases hmax with ⟨smax, ⟨hsmW, hsmA⟩, hsmmax⟩
  rcases hWfact smax hsmW hsmA with ⟨hsmt, hsmfail⟩
  have hsmn : smax < ctx.n_objects := by
    have := get_true_lt hsmW
    have := hW.1
    omega
  have hcheckf := nstate_fail_check hA hsmn hsmA hsmfail
  rcases hstm : nstate ctx A smax with ⟨resm, minm⟩
  have hwmm : wfBitSet minm ctx.n_objects := by
    have := nstate_wf hA smax
    rw [hstm] at this
    exact this
  have hwchk : wfBitSet (ncheck ctx A smax) ctx.n_objects := by
    rw [ncheck_eq ctx A smax resm minm hstm]
    exact wf_and (wf_and (hwcl smax) (wf_complement (hwor smax))) hwmm
  rcases is_empty_false_exists hwchk hcheckf with ⟨y, hy⟩
  rw [ncheck_eq ctx A smax resm minm hstm,
    get_and (wf_and (hwcl smax) (wf_complement (hwor smax))) hwmm y,
    get_and (hwcl smax) (wf_complement (hwor smax)) y,
    get_complement (hwor smax) y, get_or hA (hwatom smax) y,
    get_setBit (wf_new _) smax y] at hy
  rcases Bool.and_eq_true_iff.mp hy with ⟨hy1, hyminm⟩
  rcases Bool.and_eq_true_iff.mp hy1 with ⟨hycl, hy2⟩
  rcases Bool.and_eq_true_iff.mp hy2 with ⟨hyn2, hynot⟩
  have hyA : A.get y = false ∧ ¬(y = smax) := by
    by_cases hysm : y = smax ∧ smax < ctx.n_objects
    · rw [if_pos hysm] at hynot
      simp at hynot
    · rw [if_neg hysm, get_new] at hynot
      constructor
      · revert hynot
        cases hv : A.get y <;> simp
      · intro hyy
        exact hysm ⟨hyy, hsmn⟩
  rcases hyA with ⟨hyAf, hysmne⟩
  have hsubW : bsubset (A.or ((BitSet.new ctx.n_objects).setBit smax)) W := by
    intro z hz
    rw [get_or hA (hwatom smax) z, get_setBit (wf_new _) smax z, get_new] at hz
    by_cases hzs : z = smax ∧ smax < ctx.n_objects
    · rcases hzs with ⟨rfl, _⟩
      exact hsmW
    · rw [if_neg hzs] at hz
      have hz2 : A.get z = true := by simpa using hz
      exact hAW z hz2
  have hclsubW := closure_le_closed hc (hwor smax) hW hWc hsubW
  have hyW : W.get y = true := by
    apply hclsubW y
    rw [← doubleprime_objects_fst]
    exact hycl
  have hymax : y < smax := by
    rcases Nat.lt_or_ge smax y with hlt | hge
    · exact (hsmmax y hlt hyW hyAf).elim
    · omega
  rcases hWfact y hyW hyAf with ⟨_, hyfail⟩
  have hstab := nstate_snd_stable_le hA y smax ctx.n_objects hymax (by omega)
  rw [hstm] at hstab
  have hsf : (nstate ctx A ctx.n_objects).snd.get y = minm.get y := hstab
  rw [hyfail, hyminm] at hsf
  cases hsf

/-- Minimality of the recorded cover edges: for every stored edge `u → v`
(on either cover list), no well-formed closed object set lies strictly
between `extent(u)` and `extent(v)`. -/
structure EdgesMin (ctx : FcaContext) (st : LindigState) : Prop where
  upper_min : ∀ u v, u < st.concepts.length →
    v ∈ (st.concepts.getD u dC).2.2.1 →
    ∀ W, wfBitSet W ctx.n_objects → Closed ctx W →
      bsubset (st.concepts.getD u dC).1 W →
      (st.concepts.getD u dC).1 ≠ W →
      bsubset W (st.concepts.getD v dC).1 →
      W ≠ (st.concepts.getD v dC).1 → False
  lower_min : ∀ v u, v < st.concepts.length →
    u ∈ (st.concepts.getD v dC).2.2.2 →
    ∀ W, wfBitSet W ctx.n_objects → Closed ctx W →
      bsubset (st.concepts.getD u dC).1 W →
      (st.concepts.getD u dC).1 ≠ W →
      bsubset W (st.concepts.getD v dC).1 →
      W ≠ (st.concepts.getD v dC).1 → False

theorem lindigInit_edges (ctx : FcaContext) (inf : BitSet) :
    EdgesMin ctx (lindigInit ctx inf) := by
  constructor
  · intro u v hu hv
    have hu0 : u = 0 := by
      simp [lindigInit] at hu
      omega
    subst hu0
    exact absurd hv (List.not_mem_nil _)
  · intro v u hv hu
    have hv0 : v = 0 := by
      simp [lindigInit] at hv
      omega
    subst hv0
    exact absurd hu (List.not_mem_nil _)

/-- Processing one neighbor preserves edge minimality, given that the
neighbor is cover-minimal over the current concept's extent. -/
theorem lindigProcess_edges {ctx : FcaContext} {E0 I0 : BitSet}
    {st : LindigState} {cur : Nat} {nb : BitSet × BitSet}
    (hok : StateOK ctx E0 I0 st) (hcur : cur < st.concepts.length)
    (hwE : wfBitSet nb.1 ctx.n_objects)
    (hmin : ∀ W, wfBitSet W ctx.n_objects → Closed ctx W →
      bsubset (st.concepts.getD cur dC).1 W →
      (st.concepts.getD cur dC).1 ≠ W →
      bsubset W nb.1 → W ≠ nb.1 → False)
    (hedg : EdgesMin ctx st) :
    EdgesMin ctx (lindigProcess st cur nb) := by
  rcases hlk : st.mapping.lookup nb.1.words with _ | eidx
  · have hC := lpN_concepts cur hlk
    have hlen : (pushUpper st.concepts cur st.concepts.length ++
        [(nb.1, nb.2, [], [cur])]).length = st.concepts.length + 1 := by
      simp [pushUpper_length]
    have hgetlast :
        (pushUpper st.concepts cur st.concepts.length ++
          [(nb.1, nb.2, [], [cur])]).getD st.concepts.length dC =
        (nb.1, nb.2, [], [cur]) := by
      have := getD_append_right_self
        (pushUpper st.concepts cur st.concepts.length) (nb.1, nb.2, [], [cur])
      rw [pushUpper_length] at this
      exact this
    have hstable : ∀ k, k < st.concepts.length →
        ((pushUpper st.concepts cur st.concepts.length ++
          [(nb.1, nb.2, [], [cur])]).getD k dC).1 = (st.concepts.getD k dC).1 ∧
        ((pushUpper st.concepts cur st.concepts.length ++
          [(nb.1, nb.2, [], [cur])]).getD k dC).2.1 =
            (st.concepts.getD k dC).2.1 ∧
        ((pushUpper st.concepts cur st.concepts.length ++
          [(nb.1, nb.2, [], [cur])]).getD k dC).2.2.2 =
            (st.concepts.getD k dC).2.2.2 ∧
        ((pushUpper st.concepts cur st.concepts.length ++
          [(nb.1, nb.2, [], [cur])]).getD k dC).2.2.1 =
          (if cur = k then (st.concepts.getD k dC).2.2.1 ++
            [st.concepts.length] else (st.concepts.getD k dC).2.2.1) := by
      intro k hk
      rw [getD_append_left _ _ _ (by rw [pushUpper_length]; omega)]
      rcases pushUpper_getD_parts st.concepts cur st.concepts.length k with
        ⟨h1, h2, h3, h4⟩
      refine ⟨h1, h2, h3, ?_⟩
      rw [h4]
      by_cases hck : cur = k
      · rw [if_pos ⟨hck, by omega⟩, if_pos hck]
      · rw [if_neg (fun hcc : _ ∧ _ => hck hcc.1), if_neg hck]
    constructor
    · intro u v hu hv W hWwf hWc h1 h2 h3 h4
      rw [hC, hlen] at hu
      rw [hC] at hv h1 h2 h3 h4
      by_cases hult : u < st.concepts.length
      · rw [(hstable u hult).2.2.2] at hv
        rw [(hstable u hult).1] at h1 h2
        by_cases hcu : cur = u
        · rw [if_pos hcu] at hv
          rcases List.mem_append.mp hv with hold | hnew
          · rcases hok.upper_ok u v hult hold with ⟨hvl, _, _⟩
            rw [(hstable v hvl).1] at h3 h4
            exact hedg.upper_min u v hult hold W hWwf hWc h1 h2 h3 h4
          · rcases List.mem_singleton.mp hnew with rfl
            rw [hgetlast] at h3 h4
            subst hcu
            exact hmin W hWwf hWc h1 h2 h3 h4
        · rw [if_neg hcu] at hv
          rcases hok.upper_ok u v hult hv with ⟨hvl, _, _⟩
          rw [(hstable v hvl).1] at h3 h4
          exact hedg.upper_min u v hult hv W hWwf hWc h1 h2 h3 h4
      · have hueq : u = st.concepts.length := by omega
        subst hueq
        rw [hgetlast] at hv
        exact absurd hv (List.not_mem_nil _)
    · intro v u hv hu W hWwf hWc h1 h2 h3 h4
      rw [hC, hlen] at hv
      rw [hC] at hu h1 h2 h3 h4
      by_cases hvlt : v < st.concepts.length
      · rw [(hstable v hvlt).2.2.1] at hu
        rcases hok.lower_ok v u hvlt hu with ⟨hul, _, _⟩
        rw [(hstable v hvlt).1] at h3 h4
        rw [(hstable u hul).1] at h1 h2
        exact hedg.lower_min v u hvlt hu W hWwf hWc h1 h2 h3 h4
      · have hveq : v = st.concepts.length := by omega
        subst hveq
        rw [hgetlast] at hu h3 h4
        rcases List.mem_singleton.mp hu with rfl
        rw [(hstable u hcur).1] at h1 h2
        exact hmin W hWwf hWc h1 h2 h3 h4
  · have hC := lpE_concepts cur hlk
    rcases hok.map_fwd (nb.1.words, eidx) (lookup_mem hlk) with ⟨heidx, hwords⟩
    have hext : (st.concepts.getD eidx dC).1 = nb.1 :=
      bitset_eq_of_words (hok.cwf eidx heidx).1 hwE hwords
    have hlen2 : (pushLower (pushUpper st.concepts cur eidx) eidx cur).length =
        st.concepts.length := by
      rw [pushLower_length, pushUpper_length]
    have hstable : ∀ k,
        ((pushLower (pushUpper st.concepts cur eidx) eidx cur).getD k dC).1 =
          (st.concepts.getD k dC).1 ∧
        ((pushLower (pushUpper st.concepts cur eidx) eidx cur).getD k dC).2.1 =
          (st.concepts.getD k dC).2.1 ∧
        ((pushLower (pushUpper st.concepts cur eidx) eidx cur).getD k dC).2.2.1 =
          (if cur = k ∧ cur < st.concepts.length then
            (st.concepts.getD k dC).2.2.1 ++ [eidx]
          else (st.concepts.getD k dC).2.2.1) ∧
        ((pushLower (pushUpper st.concepts cur eidx) eidx cur).getD k dC).2.2.2 =
          (if eidx = k ∧ eidx < st.concepts.length then
            (st.concepts.getD k dC).2.2.2 ++ [cur]
          else (st.concepts.getD k dC).2.2.2) := by
      intro k
      rcases pushLower_getD_parts (pushUpper st.concepts cur eidx) eidx cur k
        with ⟨g1, g2, g3, g4⟩
      rcases pushUpper_getD_parts st.concepts cur eidx k with ⟨f1, f2, f3, f4⟩
      refine ⟨g1.trans f1, g2.trans f2, g3.trans f4, ?_⟩
      rw [g4, pushUpper_length, f3]
    constructor
    · intro u v hu hv W hWwf hWc h1 h2 h3 h4
      rw [hC, hlen2] at hu
      rw [hC] at hv h1 h2 h3 h4
      rw [(hstable u).2.2.1] at hv
      rw [(hstable u).1] at h1 h2
      rw [(hstable v).1] at h3 h4
      by_cases hcu : cur = u ∧ cur < st.concepts.length
      · rw [if_pos hcu] at hv
        rcases List.mem_append.mp hv with hold | hnew
        · exact hedg.upper_min u v hu hold W hWwf hWc h1 h2 h3 h4
        · rcases List.mem_singleton.mp hnew with rfl
          rw [hext] at h3 h4
          rcases hcu with ⟨rfl, _⟩
          exact hmin W hWwf hWc h1 h2 h3 h4
      · rw [if_neg hcu] at hv
        exact hedg.upper_min u v hu hv W hWwf hWc h1 h2 h3 h4
    · intro v u hv hu W hWwf hWc h1 h2 h3 h4
      rw [hC, hlen2] at hv
      rw [hC] at hu h1 h2 h3 h4
      rw [(hstable v).2.2.2] at hu
      rw [(hstable v).1] at h3 h4
      rw [(hstable u).1] at h1 h2
      by_cases hev : eidx = v ∧ eidx < st.concepts.length
      · rw [if_pos hev] at hu
        rcases List.mem_append.mp hu with hold | hnew
        · exact hedg.lower_min v u hv hold W hWwf hWc h1 h2 h3 h4
        · rcases List.mem_singleton.mp hnew with rfl
          rcases hev with ⟨rfl, _⟩
          rw [hext] at h3 h4
          exact hmin W hWwf hWc h1 h2 h3 h4
      · rw [if_neg hev] at hu
        exact hedg.lower_min v u hv hu W hWwf hWc h1 h2 h3 h4

/-- Folding the neighbors of the concept at `cur` preserves edge
minimality. -/
theorem lindigFold_edges {ctx : FcaContext} {E0 I0 : BitSet}
    (hc : wfCtx ctx) (A : BitSet) (hA : wfBitSet A ctx.n_objects)
    (cur : Nat) :
    ∀ (nbrs : List (BitSet × BitSet)) (st : LindigState),
      (∀ nb ∈ nbrs, nb ∈ neighbors A ctx) →
      StateOK ctx E0 I0 st → EdgesMin ctx st → cur < st.concepts.length →
      (st.concepts.getD cur dC).1 = A →
      EdgesMin ctx (nbrs.foldl (fun s nb => lindigProcess s cur nb) st) := by
  intro nbrs
  induction nbrs with
  | nil =>
    intro st _ _ hedg _ _
    exact hedg
  | cons nb nbrs ih =>
    intro st hmem hok hedg hcur hAeq
    rw [List.foldl_cons]
    rcases neighbor_props hc hA (hmem nb (List.mem_cons_self _ _)) with
      ⟨hwE, hwI, hpair, hsubA, hneA⟩
    have hsub : bsubset (st.concepts.getD cur dC).1 nb.1 := by
      rw [hAeq]
      exact hsubA
    have hne : (st.concepts.getD cur dC).1 ≠ nb.1 := by
      rw [hAeq]
      exact hneA
    have hmin : ∀ W, wfBitSet W ctx.n_objects → Closed ctx W →
        bsubset (st.concepts.getD cur dC).1 W →
        (st.concepts.getD cur dC).1 ≠ W →
        bsubset W nb.1 → W ≠ nb.1 → False := by
      intro W hWwf hWc h1 h2 h3 h4
      rw [hAeq] at h1 h2
      exact neighbors_tight hc hA (hmem nb (List.mem_cons_self _ _))
        hWwf hWc h1 h2 h3 h4
    have hedg2 := lindigProcess_edges hok hcur hwE hmin hedg
    rcases lindigProcess_preserves hok hcur hwE hwI hpair hsub hne with
      ⟨hok2, hlen2, hstab2⟩
    exact ih _ (fun x hx => hmem x (List.mem_cons_of_mem _ hx)) hok2 hedg2
      (by omega) (((hstab2 cur hcur).1).trans hAeq)

/-- The Lindig main loop preserves edge minimality. -/
theorem lindigLoop_edges {ctx : FcaContext} {E0 I0 : BitSet} (hc : wfCtx ctx)
    (fuel : Nat) :
    ∀ st : LindigState, StateOK ctx E0 I0 st → EdgesMin ctx st →
      EdgesMin ctx (lindigLoop ctx fuel st) := by
  induction fuel with
  | zero =>
    intro st _ h
    exact h
  | succ fuel ih =>
    intro st hok hedg
    rcases hpop : popMin st.heap with _ | ⟨entry, rest⟩
    · rw [lindigLoop_none ctx fuel st hpop]
      exact hedg
    · rw [lindigLoop_some ctx fuel st entry rest hpop]
      rcases popMin_mem hpop with ⟨hentry, hrest⟩
      rcases hok.heap_ok entry hentry with ⟨hidx, hext⟩
      have hok2 : StateOK ctx E0 I0 { st with heap := rest } :=
        ⟨hok.len_pos, hok.head_extent, hok.head_intent, hok.cwf, hok.cpair,
         hok.upper_ok, hok.lower_ok, hok.map_fwd, hok.map_bwd,
         fun e he => hok.heap_ok e (hrest e he)⟩
      have hedg2 : EdgesMin ctx { st with heap := rest } :=
        ⟨hedg.upper_min, hedg.lower_min⟩
      exact ih _ (lindigFold_preserves hc _
          (hok.cwf entry.index hidx).1 entry.index _ _ (fun nb hnb => hnb)
          hok2 hidx rfl)
        (lindigFold_edges hc _ (hok.cwf entry.index hidx).1 entry.index _ _
          (fun nb hnb => hnb) hok2 hedg2 hidx rfl)

theorem edgesMin_run (nO nP : Nat) (er ir : List Nat)
    (hraw : wellFormedRaw nO nP er ir) (fuel : Nat) :
    EdgesMin (FcaContext.new nO nP er ir) (lindigRun nO nP er ir fuel) :=
  lindigLoop_edges (wfCtx_new nO nP er ir hraw) fuel _
    (lindigInit_ok (wfCtx_new nO nP er ir hraw)
      (wf_from_u128 (zero_lt_two_pow nO)))
    (lindigInit_edges _ _)

/-- C2: for every well-formed context, with infimum 0, every cover edge
`u → v` recorded by `lindig_lattice` (`v` on the upper list of `u`, or `u` on
the lower list of `v`) has `extent(u)` a strict subset of `extent(v)`, and no
emitted concept `w` satisfies `extent(u) ⊊ extent(w) ⊊ extent(v)`. -/
theorem c2_cover_minimal (nO nP : Nat) (er ir : List Nat)
    (hraw : wellFormedRaw nO nP er ir) (fuel : Nat) :
    ∀ u v, u < (lindigRun nO nP er ir fuel).concepts.length →
      v < (lindigRun nO nP er ir fuel).concepts.length →
      (v ∈ ((lindigRun nO nP er ir fuel).concepts.getD u dC).2.2.1 ∨
        u ∈ ((lindigRun nO nP er ir fuel).concepts.getD v dC).2.2.2) →
      (bsubset ((lindigRun nO nP er ir fuel).concepts.getD u dC).1
          ((lindigRun nO nP er ir fuel).concepts.getD v dC).1 ∧
        ((lindigRun nO nP er ir fuel).concepts.getD u dC).1 ≠
          ((lindigRun nO nP er ir fuel).concepts.getD v dC).1) ∧
      ∀ w, w < (lindigRun nO nP er ir fuel).concepts.length →
        ¬(bsubset ((lindigRun nO nP er ir fuel).concepts.getD u dC).1
            ((lindigRun nO nP er ir fuel).concepts.getD w dC).1 ∧
          ((lindigRun nO nP er ir fuel).concepts.getD u dC).1 ≠
            ((lindigRun nO nP er ir fuel).concepts.getD w dC).1 ∧
          bsubset ((lindigRun nO nP er ir fuel).concepts.getD w dC).1
            ((lindigRun nO nP er ir fuel).concepts.getD v dC).1 ∧
          ((lindigRun nO nP er ir fuel).concepts.getD w dC).1 ≠
            ((lindigRun nO nP er ir fuel).concepts.getD v dC).1) := by
  intro u v hu hv hedge
  have hok := stateOK_run nO nP er ir hraw fuel
  have hedg := edgesMin_run nO nP er ir hraw fuel
  have hstrict : bsubset ((lindigRun nO nP er ir fuel).concepts.getD u dC).1
      ((lindigRun nO nP er ir fuel).concepts.getD v dC).1 ∧
      ((lindigRun nO nP er ir fuel).concepts.getD u dC).1 ≠
        ((lindigRun nO nP er ir fuel).concepts.getD v dC).1 := by
    rcases hedge with he | he
    · rcases hok.upper_ok u v hu he with ⟨_, hsb, hne⟩
      exact ⟨hsb, hne⟩
    · rcases hok.lower_ok v u hv he with ⟨_, hsb, hne⟩
      exact ⟨hsb, hne⟩
  refine ⟨hstrict, ?_⟩
  intro w hw hcon
  rcases hcon with ⟨h1, h2, h3, h4⟩
  have hWwf := (hok.cwf w hw).1
  have hWc := closed_of_pair (hok.cpair w hw)
  rcases hedge with he | he
  · exact hedg.upper_min u v hu he _ hWwf hWc h1 h2 h3 h4
  · exact hedg.lower_min v u hv he _ hWwf hWc h1 h2 h3 h4

theorem c2_cover_minimal_witness :
    wellFormedRaw 3 3 [1, 2, 6] [1, 6, 4] ∧
    (∀ u v, u < (lindigRun 3 3 [1, 2, 6] [1, 6, 4] 20).concepts.length →
      v < (lindigRun 3 3 [1, 2, 6] [1, 6, 4] 20).concepts.length →
      (v ∈ ((lindigRun 3 3 [1, 2, 6] [1, 6, 4] 20).concepts.getD u dC).2.2.1 ∨
        u ∈ ((lindigRun 3 3 [1, 2, 6] [1, 6, 4] 20).concepts.getD v dC).2.2.2) →
      (bsubset ((lindigRun 3 3 [1, 2, 6] [1, 6, 4] 20).concepts.getD u dC).1
          ((lindigRun 3 3 [1, 2, 6] [1, 6, 4] 20).concepts.getD v dC).1 ∧
        ((lindigRun 3 3 [1, 2, 6] [1, 6, 4] 20).concepts.getD u dC).1 ≠
          ((lindigRun 3 3 [1, 2, 6] [1, 6, 4] 20).concepts.getD v dC).1) ∧
      ∀ w, w < (lindigRun 3 3 [1, 2, 6] [1, 6, 4] 20).concepts.length →
        ¬(bsubset ((lindigRun 3 3 [1, 2, 6] [1, 6, 4] 20).concepts.getD u dC).1
            ((lindigRun 3 3 [1, 2, 6] [1, 6, 4] 20).concepts.getD w dC).1 ∧
          ((lindigRun 3 3 [1, 2, 6] [1, 6, 4] 20).concepts.getD u dC).1 ≠
            ((lindigRun 3 3 [1, 2, 6] [1, 6, 4] 20).concepts.getD w dC).1 ∧
          bsubset ((lindigRun 3 3 [1, 2, 6] [1, 6, 4] 20).concepts.getD w dC).1
            ((lindigRun 3 3 [1, 2, 6] [1, 6, 4] 20).concepts.getD v dC).1 ∧
          ((lindigRun 3 3 [1, 2, 6] [1, 6, 4] 20).concepts.getD w dC).1 ≠
            ((lindigRun 3 3 [1, 2, 6] [1, 6, 4] 20).concepts.getD v dC).1)) :=
  ⟨wellFormedRaw_367, c2_cover_minimal 3 3 [1, 2, 6] [1, 6, 4]
    wellFormedRaw_367 20⟩

/-! ### Structure of `iter_bits` and of the FCBO pivot list -/

theorem filterMap_if {α β : Type} (p : α → Bool) (f : α → β) (l : List α) :
    l.filterMap (fun x => if p x then some (f x) else none) =
      (l.filter p).map f := by
  induction l with
  | nil => rfl
  | cons a l ih =>
    rw [List.filterMap_cons, List.filter_cons]
    by_cases hp : p a
    · rw [if_pos hp, if_pos hp, List.map_cons, ih]
    · rw [if_neg hp, if_neg hp, ih]

theorem iter_chunk (w k n : Nat) :
    (List.range 64).filterMap (fun bit =>
      if (w.testBit bit && decide (k * 64 + bit < n)) then some (k * 64 + bit)
      else none) =
    (List.range' (k * 64) 64).filter
      (fun i => w.testBit (i % 64) && decide (i < n)) := by
  rw [filterMap_if, List.range'_eq_map_range, List.filter_map]
  have hc : ∀ bit ∈ List.range 64,
      ((fun i => w.testBit (i % 64) && decide (i < n)) ∘ (k * 64 + ·)) bit =
        (fun bit => w.testBit bit && decide (k * 64 + bit < n)) bit := by
    intro bit hbit
    have hb : bit < 64 := List.mem_range.mp hbit
    have hmod : (k * 64 + bit) % 64 = bit := by omega
    simp only [Function.comp]
    rw [hmod]
  rw [List.filter_congr hc]

theorem iter_words (n : Nat) : ∀ (ws : List Nat) (b : Nat),
    (ws.enumFrom b).flatMap (fun p =>
      (List.range 64).filterMap (fun bit =>
        if (p.snd.testBit bit && decide (p.fst * 64 + bit < n)) then
          some (p.fst * 64 + bit)
        else none)) =
    (List.range' (b * 64) (ws.length * 64)).filter
      (fun i => (ws.getD (i / 64 - b) 0).testBit (i % 64) && decide (i < n)) := by
  intro ws
  induction ws with
  | nil =>
    intro b
    rfl
  | cons w ws ih =>
    intro b
    rw [List.enumFrom_cons, List.flatMap_cons, iter_chunk, ih (b + 1)]
    have hsplit : List.range' (b * 64) ((w :: ws).length * 64) =
        List.range' (b * 64) 64 ++ List.range' ((b + 1) * 64) (ws.length * 64) := by
      have happ := List.range'_append (b * 64) 64 (ws.length * 64) 1
      have h1 : b * 64 + 1 * 64 = (b + 1) * 64 := by ring
      have h2 : ws.length * 64 + 64 = (w :: ws).length * 64 := by
        rw [List.length_cons]
        ring
      rw [h1, h2] at happ
      exact happ.symm
    rw [hsplit, List.filter_append]
    have h1 : (List.range' (b * 64) 64).filter
        (fun i => ((w :: ws).getD (i / 64 - b) 0).testBit (i % 64) &&
          decide (i < n)) =
        (List.range' (b * 64) 64).filter
          (fun i => w.testBit (i % 64) && decide (i < n)) := by
      apply List.filter_congr
      intro i hi
      rcases List.mem_range'.mp hi with ⟨t, ht, rfl⟩
      have hdiv : (b * 64 + 1 * t) / 64 - b = 0 := by omega
      rw [hdiv, List.getD_cons_zero]
    have h2 : (List.range' ((b + 1) * 64) (ws.length * 64)).filter
        (fun i => (ws.getD (i / 64 - (b + 1)) 0).testBit (i % 64) &&
          decide (i < n)) =
        (List.range' ((b + 1) * 64) (ws.length * 64)).filter
          (fun i => ((w :: ws).getD (i / 64 - b) 0).testBit (i % 64) &&
            decide (i < n)) := by
      apply List.filter_congr
      intro i hi
      rcases List.mem_range'.mp hi with ⟨t, ht, rfl⟩
      have hd1 : ((b + 1) * 64 + 1 * t) / 64 - b =
          (((b + 1) * 64 + 1 * t) / 64 - (b + 1)) + 1 := by omega
      rw [hd1, List.getD_cons_succ]
    rw [h1, h2]

/-- `iter_bits` as a filtered range (for well-formed lengths it covers all
words). -/
theorem iter_bits_eq_filter (b : BitSet) :
    b.iter_bits =
      (List.range (b.words.length * 64)).filter
        (fun i => (b.words.getD (i / 64) 0).testBit (i % 64) &&
          decide (i < b.n_bits)) := by
  have h := iter_words b.n_bits b.words 0
  have h0 : (0 : Nat) * 64 = 0 := by omega
  rw [h0] at h
  rw [← List.range_eq_range'] at h
  have hc : (List.range (b.words.length * 64)).filter
      (fun i => (b.words.getD (i / 64 - 0) 0).testBit (i % 64) &&
        decide (i < b.n_bits)) =
      (List.range (b.words.length * 64)).filter
        (fun i => (b.words.getD (i / 64) 0).testBit (i % 64) &&
          decide (i < b.n_bits)) := by
    apply List.filter_congr
    intro i _
    rw [Nat.sub_zero]
  rw [← hc, ← h]
  rfl

theorem range_filter_lt (m n : Nat) (h : n ≤ m) :
    (List.range m).filter (fun i => decide (i < n)) = List.range n := by
  have hsplit : List.range m = List.range n ++ List.range' n (m - n) := by
    rw [List.range_eq_range', List.range_eq_range']
    have happ := List.range'_append 0 n (m - n) 1
    have h1 : 0 + 1 * n = n := by ring
    have h2 : m - n + n = m := by omega
    rw [h1, h2] at happ
    exact happ.symm
  rw [hsplit, List.filter_append]
  have h1 : (List.range n).filter (fun i => decide (i < n)) = List.range n := by
    rw [List.filter_eq_self]
    intro a ha
    simpa using List.mem_range.mp ha
  have h2 : (List.range' n (m - n)).filter (fun i => decide (i < n)) = [] := by
    rw [List.filter_eq_nil_iff]
    intro a ha
    rcases List.mem_range'.mp ha with ⟨t, ht, rfl⟩
    simp
  rw [h1, h2, List.append_nil]

theorem iter_bits_supremum (n : Nat) :
    (BitSet.supremum n).iter_bits = List.range n := by
  rw [iter_bits_eq_filter, words_length_supremum, nbits_supremum]
  have hc : ∀ i ∈ List.range ((n + 63) / 64 * 64),
      (((BitSet.supremum n).words.getD (i / 64) 0).testBit (i % 64) &&
        decide (i < n)) = decide (i < n) := by
    intro i hi
    by_cases hin : i < n
    · have hg : (BitSet.supremum n).get i = true := by
        rw [get_supremum]
        simpa using hin
      rw [get_def, nbits_supremum, if_neg (by omega)] at hg
      rw [hg, Bool.true_and]
    · have hf : decide (i < n) = false := by simpa using hin
      rw [hf, Bool.and_false]
  rw [List.filter_congr hc, range_filter_lt _ _ (by omega)]

theorem atoms_supremum (n : Nat) :
    (BitSet.supremum n).atoms =
      (List.range n).map (fun i => (BitSet.new n).setBit i) := by
  rw [BitSet.atoms, iter_bits_supremum, nbits_supremum]

/-- The FCBO pivot list: index `j` paired with the atom at `j`. -/
theorem j_atom_eq (n : Nat) :
    (BitSet.supremum n).atoms.enum =
      (List.range n).map (fun j => (j, (BitSet.new n).setBit j)) := by
  rw [atoms_supremum]
  apply List.ext_getElem?
  intro k
  rw [List.enum_eq_enumFrom, List.getElem?_enumFrom, List.getElem?_map,
    List.getElem?_map]
  by_cases hk : k < n
  · rw [List.getElem?_range hk]
    simp
  · rw [List.getElem?_eq_none (by simpa using hk)]
    rfl

/-! ### Closure operators on intents and extents -/

/-- Closure on property sets: `B ↦ (B′)′`. -/
def pclose (ctx : FcaContext) (B : BitSet) : BitSet :=
  ctx.prime_objects (ctx.prime_properties B)

/-- Closure on object sets: `A ↦ (A′)′`. -/
def oclose (ctx : FcaContext) (A : BitSet) : BitSet :=
  ctx.prime_properties (ctx.prime_objects A)

theorem wf_pclose {ctx : FcaContext} (hc : wfCtx ctx) (B : BitSet) :
    wfBitSet (pclose ctx B) ctx.n_properties :=
  wf_prime_objects hc _

theorem wf_oclose {ctx : FcaContext} (hc : wfCtx ctx) (A : BitSet) :
    wfBitSet (oclose ctx A) ctx.n_objects :=
  wf_prime_properties hc _

theorem pclose_extensive {ctx : FcaContext} (hc : wfCtx ctx) {B : BitSet}
    (hB : wfBitSet B ctx.n_properties) : bsubset B (pclose ctx B) :=
  doubleprime_prop_extensive hc hB

theorem oclose_extensive {ctx : FcaContext} (hc : wfCtx ctx) {A : BitSet}
    (hA : wfBitSet A ctx.n_objects) : bsubset A (oclose ctx A) :=
  doubleprime_obj_extensive hc hA

theorem pclose_mono {ctx : FcaContext} (hc : wfCtx ctx) {B C : BitSet}
    (hB : wfBitSet B ctx.n_properties) (hC : wfBitSet C ctx.n_properties)
    (h : bsubset B C) : bsubset (pclose ctx B) (pclose ctx C) :=
  prime_objects_antitone hc (wf_prime_properties hc C)
    (wf_prime_properties hc B) (prime_properties_antitone hc hB hC h)

theorem oclose_mono {ctx : FcaContext} (hc : wfCtx ctx) {A C : BitSet}
    (hA : wfBitSet A ctx.n_objects) (hC : wfBitSet C ctx.n_objects)
    (h : bsubset A C) : bsubset (oclose ctx A) (oclose ctx C) :=
  prime_properties_antitone hc (wf_prime_objects hc C)
    (wf_prime_objects hc A) (prime_objects_antitone hc hA hC h)

theorem pclose_idem {ctx : FcaContext} (hc : wfCtx ctx) {B : BitSet}
    (hB : wfBitSet B ctx.n_properties) :
    pclose ctx (pclose ctx B) = pclose ctx B := by
  unfold pclose
  rw [prime_triple_properties hc hB]

theorem oclose_idem {ctx : FcaContext} (hc : wfCtx ctx) {A : BitSet}
    (hA : wfBitSet A ctx.n_objects) :
    oclose ctx (oclose ctx A) = oclose ctx A := by
  unfold oclose
  rw [prime_triple_objects hc hA]

theorem wf_getD_extents {ctx : FcaContext} (hc : wfCtx ctx) {j : Nat}
    (hj : j < ctx.n_properties) :
    wfBitSet (ctx.extents.getD j default) ctx.n_objects := by
  have hjl : j < ctx.extents.length := by
    rw [hc.1]
    exact hj
  rw [getD_eq_getElem _ _ _ hjl]
  exact hc.2.2.1 _ (ctx.extents.getElem_mem hjl)

theorem wf_getD_intents {ctx : FcaContext} (hc : wfCtx ctx) {j : Nat}
    (hj : j < ctx.n_objects) :
    wfBitSet (ctx.intents.getD j default) ctx.n_properties := by
  have hjl : j < ctx.intents.length := by
    rw [hc.2.1]
    exact hj
  rw [getD_eq_getElem _ _ _ hjl]
  exact hc.2.2.2.1 _ (ctx.intents.getElem_mem hjl)

/-- `(B ∪ \x7bj\x7d)′ = B′ ∩ extents[j]`: adding one property to a property
set intersects its extent with that property's column. -/
theorem prime_properties_or_atom {ctx : FcaContext} (hc : wfCtx ctx)
    {B : BitSet} (hB : wfBitSet B ctx.n_properties) {j : Nat}
    (hj : j < ctx.n_properties) :
    ctx.prime_properties (B.or ((BitSet.new ctx.n_properties).setBit j)) =
      (ctx.prime_properties B).and (ctx.extents.getD j default) := by
  have hwa : wfBitSet ((BitSet.new ctx.n_properties).setBit j)
      ctx.n_properties := wf_setBit (wf_new _) j
  have hwor : wfBitSet (B.or ((BitSet.new ctx.n_properties).setBit j))
      ctx.n_properties := wf_or hB hwa
  have hwe := wf_getD_extents hc hj
  apply wf_ext (wf_prime_properties hc _)
    (wf_and (wf_prime_properties hc B) hwe)
  apply bsubset_antisymm_get
  · intro i hi
    rw [mem_prime_properties hc hwor] at hi
    rcases hi with ⟨hin, hall⟩
    rw [get_and (wf_prime_properties hc B) hwe]
    have h1 : (ctx.prime_properties B).get i = true := by
      rw [mem_prime_properties hc hB]
      refine ⟨hin, fun j2 hj2 => hall j2 ?_⟩
      rw [get_or hB hwa, hj2]
      rfl
    have h2 : (ctx.extents.getD j default).get i = true := by
      apply hall j
      rw [get_or hB hwa, get_setBit (wf_new _) j j, if_pos ⟨rfl, hj⟩]
      rw [Bool.or_true]
    rw [h1, h2]
    rfl
  · intro i hi
    rw [get_and (wf_prime_properties hc B) hwe] at hi
    rcases Bool.and_eq_true_iff.mp hi with ⟨h1, h2⟩
    rw [mem_prime_properties hc hB] at h1
    rw [mem_prime_properties hc hwor]
    refine ⟨h1.1, fun j2 hj2 => ?_⟩
    rw [get_or hB hwa, get_setBit (wf_new _) j j2, get_new] at hj2
    by_cases hjj : j2 = j ∧ j < ctx.n_properties
    · rcases hjj with ⟨rfl, _⟩
      exact h2
    · rw [if_neg hjj, Bool.or_false] at hj2
      exact h1.2 j2 hj2

/-- `(A ∪ \x7bj\x7d)′ = A′ ∩ intents[j]`: the dual distribution law. -/
theorem prime_objects_or_atom {ctx : FcaContext} (hc : wfCtx ctx)
    {A : BitSet} (hA : wfBitSet A ctx.n_objects) {j : Nat}
    (hj : j < ctx.n_objects) :
    ctx.prime_objects (A.or ((BitSet.new ctx.n_objects).setBit j)) =
      (ctx.prime_objects A).and (ctx.intents.getD j default) := by
  have hwa : wfBitSet ((BitSet.new ctx.n_objects).setBit j)
      ctx.n_objects := wf_setBit (wf_new _) j
  have hwor : wfBitSet (A.or ((BitSet.new ctx.n_objects).setBit j))
      ctx.n_objects := wf_or hA hwa
  have hwe := wf_getD_intents hc hj
  apply wf_ext (wf_prime_objects hc _)
    (wf_and (wf_prime_objects hc A) hwe)
  apply bsubset_antisymm_get
  · intro i hi
    rw [mem_prime_objects hc hwor] at hi
    rcases hi with ⟨hin, hall⟩
    rw [get_and (wf_prime_objects hc A) hwe]
    have h1 : (ctx.prime_objects A).get i = true := by
      rw [mem_prime_objects hc hA]
      refine ⟨hin, fun j2 hj2 => hall j2 ?_⟩
      rw [get_or hA hwa, hj2]
      rfl
    have h2 : (ctx.intents.getD j default).get i = true := by
      apply hall j
      rw [get_or hA hwa, get_setBit (wf_new _) j j, if_pos ⟨rfl, hj⟩]
      rw [Bool.or_true]
    rw [h1, h2]
    rfl
  · intro i hi
    rw [get_and (wf_prime_objects hc A) hwe] at hi
    rcases Bool.and_eq_true_iff.mp hi with ⟨h1, h2⟩
    rw [mem_prime_objects hc hA] at h1
    rw [mem_prime_objects hc hwor]
    refine ⟨h1.1, fun j2 hj2 => ?_⟩
    rw [get_or hA hwa, get_setBit (wf_new _) j j2, get_new] at hj2
    by_cases hjj : j2 = j ∧ j < ctx.n_objects
    · rcases hjj with ⟨rfl, _⟩
      exact h2
    · rw [if_neg hjj, Bool.or_false] at hj2
      exact h1.2 j2 hj2

/-! ### The canonical Close-by-One search tree -/

/-- `CanonDesc cl n B y D`: starting from the node with closed set `B` and
first admissible pivot `y`, the set `D` is reachable by a chain of canonical
Close-by-One expansion steps for the closure operator `cl` on width `n`. -/
inductive CanonDesc (cl : BitSet → BitSet) (n : Nat) :
    BitSet → Nat → BitSet → Prop where
  | refl (B : BitSet) (y : Nat) : CanonDesc cl n B y B
  | step {B : BitSet} {y j : Nat} {C D : BitSet} :
      y ≤ j → j < n → B.get j = false →
      C = cl (B.or ((BitSet.new n).setBit j)) →
      bsubset B (B.or ((BitSet.new n).setBit j)) →
      bsubset (B.or ((BitSet.new n).setBit j)) C →
      (∀ i, i < j → C.get i = B.get i) →
      CanonDesc cl n C (j + 1) D →
      CanonDesc cl n B y D

theorem canonDesc_subset {cl : BitSet → BitSet} {n : Nat} :
    ∀ {B : BitSet} {y : Nat} {D : BitSet}, CanonDesc cl n B y D →
      bsubset B D := by
  intro B y D h
  induction h with
  | refl => exact fun i hi => hi
  | step hyj hjn hBj hC hBor hext hlow hD ih =>
    intro i hi
    exact ih i (hext i (hBor i hi))

theorem canonDesc_low {cl : BitSet → BitSet} {n : Nat} :
    ∀ {B : BitSet} {y : Nat} {D : BitSet}, CanonDesc cl n B y D →
      ∀ i, i < y → D.get i = B.get i := by
  intro B y D h
  induction h with
  | refl => intro i _; rfl
  | step hyj hjn hBj hC hBor hext hlow hD ih =>
    intro i hi
    rw [ih i (by omega), hlow i (by omega)]

/-! ### Characterization of the FCBO inner loop -/

theorem fcboInner_eq (ctx : FcaContext) (extent intent : BitSet)
    (Ns : List BitSet) (stack : List FcboFrame) (j : Nat) (a : BitSet) :
    fcboInner ctx extent intent (Ns, stack) (j, a) =
      (if (a.and intent).is_empty = false then (Ns, stack)
      else if ((Ns.getD j default).and a.sub_one).and intent =
          (Ns.getD j default).and a.sub_one then
        (if ((ctx.prime_objects (extent.and (ctx.extents.getD j default))).and
              a.sub_one).and intent =
            (ctx.prime_objects (extent.and (ctx.extents.getD j default))).and
              a.sub_one then
          (Ns, ((extent.and (ctx.extents.getD j default),
            ctx.prime_objects (extent.and (ctx.extents.getD j default))),
            j + 1, Ns) :: stack)
        else (Ns.set j (ctx.prime_objects
          (extent.and (ctx.extents.getD j default))), stack))
      else (Ns, stack)) := rfl

theorem range_drop (n y : Nat) :
    (List.range n).drop y = List.range' y (n - y) := by
  by_cases h : y ≤ n
  · have happ := List.range'_append 0 y (n - y) 1
    have h1 : 0 + 1 * y = y := by ring
    have h2 : n - y + y = n := by omega
    rw [h1, h2] at happ
    rw [List.range_eq_range', ← happ]
    exact List.drop_left' (by rw [List.length_range'])
  · rw [List.drop_eq_nil_of_le (by rw [List.length_range]; omega)]
    have h0 : n - y = 0 := by omega
    rw [h0]
    rfl

/-- Soundness of one expansion pass of `fcbo_fast_generate_from`: the final
stack extends the given one by frames pushed at pairwise distinct pivots,
each of which passed the exclusion and canonicity tests. -/
theorem fcboFold_sound (ctx : FcaContext) (A B : BitSet) :
    ∀ (l : List (Nat × BitSet)), (l.map Prod.fst).Nodup →
    ∀ (Ns0 : List BitSet) (stack0 : List FcboFrame), ∃ F Ns1,
      (l.foldl (fcboInner ctx A B) (Ns0, stack0)) = (Ns1, F ++ stack0) ∧
      (∀ f ∈ F, ∃ j a, (j, a) ∈ l ∧
        (a.and B).is_empty = true ∧
        ((((ctx.prime_objects (A.and (ctx.extents.getD j default))).and
            a.sub_one).and B =
          (ctx.prime_objects (A.and (ctx.extents.getD j default))).and
            a.sub_one)) ∧
        ∃ Ns2, f = ((A.and (ctx.extents.getD j default),
          ctx.prime_objects (A.and (ctx.extents.getD j default))),
          j + 1, Ns2)) ∧
      List.Pairwise (fun f g => f.2.1 ≠ g.2.1) F := by
  intro l
  induction l with
  | nil =>
    intro _ Ns0 stack0
    exact ⟨[], Ns0, rfl, fun f hf => absurd hf (List.not_mem_nil _),
      List.Pairwise.nil⟩
  | cons ja l ih =>
    intro hnd Ns0 stack0
    rcases ja with ⟨j, a⟩
    have hnd2 : (l.map Prod.fst).Nodup := (List.nodup_cons.mp hnd).2
    have hjnot : j ∉ l.map Prod.fst := (List.nodup_cons.mp hnd).1
    rw [List.foldl_cons, fcboInner_eq]
    by_cases hskip : (a.and B).is_empty = false
    · rw [if_pos hskip]
      rcases ih hnd2 Ns0 stack0 with ⟨F, Ns1, heq, hmem, hpw⟩
      exact ⟨F, Ns1, heq,
        fun f hf => by
          rcases hmem f hf with ⟨j2, a2, hja, hrest⟩
          exact ⟨j2, a2, List.mem_cons_of_mem _ hja, hrest⟩,
        hpw⟩
    · rw [if_neg hskip]
      by_cases hx : ((Ns0.getD j default).and a.sub_one).and B =
          (Ns0.getD j default).and a.sub_one
      · rw [if_pos hx]
        by_cases hcanon : ((ctx.prime_objects
            (A.and (ctx.extents.getD j default))).and a.sub_one).and B =
            (ctx.prime_objects (A.and (ctx.extents.getD j default))).and
              a.sub_one
        · rw [if_pos hcanon]
          rcases ih hnd2 Ns0 (((A.and (ctx.extents.getD j default),
              ctx.prime_objects (A.and (ctx.extents.getD j default))),
              j + 1, Ns0) :: stack0) with ⟨F, Ns1, heq, hmem, hpw⟩
          have hskipT : (a.and B).is_empty = true := by
            cases hv : (a.and B).is_empty
            · exact absurd hv hskip
            · rfl
          refine ⟨F ++ [((A.and (ctx.extents.getD j default),
            ctx.prime_objects (A.and (ctx.extents.getD j default))),
            j + 1, Ns0)], Ns1, ?_, ?_, ?_⟩
          · rw [heq, List.append_assoc]
            rfl
          · intro f hf
            rcases List.mem_append.mp hf with hf2 | hf2
            · rcases hmem f hf2 with ⟨j2, a2, hja, hrest⟩
              exact ⟨j2, a2, List.mem_cons_of_mem _ hja, hrest⟩
            · rcases List.mem_singleton.mp hf2 with rfl
              exact ⟨j, a, List.mem_cons_self _ _, hskipT, hcanon, Ns0, rfl⟩
          · rw [List.pairwise_append]
            refine ⟨hpw, List.pairwise_singleton _ _, ?_⟩
            intro f hf g hg
            rcases List.mem_singleton.mp hg with rfl
            rcases hmem f hf with ⟨j2, a2, hja, _, _, Ns3, hfe⟩
            rw [hfe]
            intro hcon
            apply hjnot
            have hj2 : j2 = j := by
              have : j2 + 1 = j + 1 := hcon
              omega
            subst hj2
            exact List.mem_map.mpr ⟨(j2, a2), hja, rfl⟩
        · rw [if_neg hcanon]
          rcases ih hnd2 (Ns0.set j (ctx.prime_objects
              (A.and (ctx.extents.getD j default)))) stack0 with
            ⟨F, Ns1, heq, hmem, hpw⟩
          exact ⟨F, Ns1, heq,
            fun f hf => by
              rcases hmem f hf with ⟨j2, a2, hja, hrest⟩
              exact ⟨j2, a2, List.mem_cons_of_mem _ hja, hrest⟩,
            hpw⟩
      · rw [if_neg hx]
        rcases ih hnd2 Ns0 stack0 with ⟨F, Ns1, heq, hmem, hpw⟩
        exact ⟨F, Ns1, heq,
          fun f hf => by
            rcases hmem f hf with ⟨j2, a2, hja, hrest⟩
            exact ⟨j2, a2, List.mem_cons_of_mem _ hja, hrest⟩,
          hpw⟩

theorem fcboLoop_zero (ctx : FcaContext) (jl : List (Nat × BitSet))
    (stack : List FcboFrame) (result : List (Nat × Nat)) :
    fcboLoop ctx jl 0 stack result = (result, stack) := rfl

theorem fcboLoop_nil (ctx : FcaContext) (jl : List (Nat × BitSet))
    (fuel : Nat) (result : List (Nat × Nat)) :
    fcboLoop ctx jl (fuel + 1) [] result = (result, []) := rfl

theorem fcboLoop_cons (ctx : FcaContext) (jl : List (Nat × BitSet))
    (fuel : Nat) (concept : BitSet × BitSet) (y : Nat) (Ns : List BitSet)
    (stack : List FcboFrame) (result : List (Nat × Nat)) :
    fcboLoop ctx jl (fuel + 1) ((concept, y, Ns) :: stack) result =
      (if y = ctx.n_properties ∨ concept.fst.is_empty = true then
        fcboLoop ctx jl fuel stack
          (result ++ [(concept.fst.to_u128, concept.snd.to_u128)])
      else
        fcboLoop ctx jl fuel
          (((jl.drop y).reverse).foldl
            (fcboInner ctx concept.fst concept.snd) (Ns, stack)).snd
          (result ++ [(concept.fst.to_u128, concept.snd.to_u128)])) := rfl

theorem jl_drop_nodup (nP y : Nat) :
    (((((List.range nP).map
        (fun j => (j, (BitSet.new nP).setBit j))).drop y).reverse.map
          Prod.fst).Nodup) := by
  rw [List.map_reverse, List.nodup_reverse, ← List.map_drop, range_drop,
    List.map_map]
  have hid : (List.range' y (nP - y)).map
      (Prod.fst ∘ (fun j => (j, (BitSet.new nP).setBit j))) =
      List.range' y (nP - y) := by
    have hcong : ∀ x ∈ List.range' y (nP - y),
        (Prod.fst ∘ (fun j => (j, (BitSet.new nP).setBit j))) x = id x :=
      fun x _ => rfl
    rw [List.map_congr_left hcong, List.map_id]
  rw [hid]
  exact List.nodup_range' _ _

theorem jl_drop_mem (nP y : Nat) {p : Nat × BitSet}
    (hp : p ∈ ((((List.range nP).map
      (fun j => (j, (BitSet.new nP).setBit j))).drop y).reverse)) :
    p.2 = (BitSet.new nP).setBit p.1 ∧ y ≤ p.1 ∧ p.1 < nP := by
  rw [List.mem_reverse, ← List.map_drop, range_drop] at hp
  rcases List.mem_map.mp hp with ⟨x, hx, hpe⟩
  rcases List.mem_range'.mp hx with ⟨t, ht, rfl⟩
  rw [← hpe]
  exact ⟨rfl, by omega, by omega⟩

/-- A concept pair: mutually prime well-formed extent and intent. -/
def ConceptOK (ctx : FcaContext) (A B : BitSet) : Prop :=
  wfBitSet A ctx.n_objects ∧ wfBitSet B ctx.n_properties ∧
  A = ctx.prime_properties B ∧ B = ctx.prime_objects A

/-- What the FCBO tests guarantee about a pushed frame: its intent is the
canonical closure of `B ∪ \x7bj\x7d` and agrees with `B` below the pivot. -/
theorem fcbo_push_step {ctx : FcaContext} (hc : wfCtx ctx) {A B : BitSet}
    (hA : wfBitSet A ctx.n_objects) (hB : wfBitSet B ctx.n_properties)
    (hAB : A = ctx.prime_properties B) {j : Nat} (hj : j < ctx.n_properties)
    (hskip : (((BitSet.new ctx.n_properties).setBit j).and B).is_empty
      = true)
    (hcanon : ((ctx.prime_objects (A.and (ctx.extents.getD j default))).and
        (((BitSet.new ctx.n_properties).setBit j).sub_one)).and B =
      (ctx.prime_objects (A.and (ctx.extents.getD j default))).and
        (((BitSet.new ctx.n_properties).setBit j).sub_one)) :
    B.get j = false ∧
    A.and (ctx.extents.getD j default) =
      ctx.prime_properties (B.or ((BitSet.new ctx.n_properties).setBit j)) ∧
    ctx.prime_objects (A.and (ctx.extents.getD j default)) =
      pclose ctx (B.or ((BitSet.new ctx.n_properties).setBit j)) ∧
    (∀ i, i < j →
      (ctx.prime_objects (A.and (ctx.extents.getD j default))).get i =
        B.get i) ∧
    bsubset B (ctx.prime_objects (A.and (ctx.extents.getD j default))) := by
  have hwa : wfBitSet ((BitSet.new ctx.n_properties).setBit j)
      ctx.n_properties := wf_setBit (wf_new _) j
  have hwor : wfBitSet (B.or ((BitSet.new ctx.n_properties).setBit j))
      ctx.n_properties := wf_or hB hwa
  have hBj : B.get j = false := by
    have h1 := is_empty_all_false hskip j
    rw [get_and hwa hB, get_setBit (wf_new _) j j, if_pos ⟨rfl, hj⟩] at h1
    simpa using h1
  have hD : A.and (ctx.extents.getD j default) =
      ctx.prime_properties (B.or ((BitSet.new ctx.n_properties).setBit j)) := by
    rw [hAB]
    exact (prime_properties_or_atom hc hB hj).symm
  have hI : ctx.prime_objects (A.and (ctx.extents.getD j default)) =
      pclose ctx (B.or ((BitSet.new ctx.n_properties).setBit j)) := by
    rw [hD]
    rfl
  have hwI : wfBitSet (ctx.prime_objects (A.and (ctx.extents.getD j default)))
      ctx.n_properties := wf_prime_objects hc _
  have hBsubI : bsubset B
      (ctx.prime_objects (A.and (ctx.extents.getD j default))) := by
    rw [hI]
    intro i hi
    apply pclose_extensive hc hwor i
    rw [get_or hB hwa, hi]
    rfl
  refine ⟨hBj, hD, hI, ?_, hBsubI⟩
  intro i hij
  cases hIi : (ctx.prime_objects (A.and (ctx.extents.getD j default))).get i
  · cases hBi : B.get i
    · rfl
    · have := hBsubI i hBi
      rw [hIi] at this
      cases this
  · have h1 := congrArg (fun X => X.get i) hcanon
    simp only [] at h1
    rw [get_and (wf_and hwI (wf_sub_one hwa)) hB,
      get_and hwI (wf_sub_one hwa), get_sub_one_atom hj i, hIi] at h1
    have hmask : decide (i < j) = true := by simpa using hij
    rw [hmask] at h1
    simpa using h1

/-- Invariant of the FCBO main loop: emitted concepts (`L`) and stack frames
are concept pairs, emitted intents are pairwise distinct, no canonical
descendant of a stack frame has been emitted, and the canonical subtrees of
distinct stack frames are disjoint. -/
structure FcboInv (ctx : FcaContext) (L : List (BitSet × BitSet))
    (stack : List FcboFrame) : Prop where
  lok : ∀ c ∈ L, ConceptOK ctx c.1 c.2
  sok : ∀ f ∈ stack, ConceptOK ctx f.1.1 f.1.2
  ldist : List.Pairwise (fun c d : BitSet × BitSet => c.2 ≠ d.2) L
  lsdist : ∀ f ∈ stack, ∀ D,
    CanonDesc (pclose ctx) ctx.n_properties f.1.2 f.2.1 D →
    ∀ c ∈ L, c.2 ≠ D
  ssdist : List.Pairwise (fun f g : FcboFrame => ∀ D,
    CanonDesc (pclose ctx) ctx.n_properties f.1.2 f.2.1 D →
    CanonDesc (pclose ctx) ctx.n_properties g.1.2 g.2.1 D → False) stack

/-- The FCBO main loop only emits pairwise distinct concept pairs. -/
theorem fcboLoop_inv {ctx : FcaContext} (hc : wfCtx ctx) :
    ∀ (fuel : Nat) (stack : List FcboFrame) (L : List (BitSet × BitSet)),
      FcboInv ctx L stack →
      ∃ L2 : List (BitSet × BitSet),
        (fcboLoop ctx ((List.range ctx.n_properties).map
            (fun j => (j, (BitSet.new ctx.n_properties).setBit j))) fuel stack
          (L.map (fun c => (c.1.to_u128, c.2.to_u128)))).fst =
          L2.map (fun c => (c.1.to_u128, c.2.to_u128)) ∧
        (∀ c ∈ L2, ConceptOK ctx c.1 c.2) ∧
        List.Pairwise (fun c d : BitSet × BitSet => c.2 ≠ d.2) L2 := by
  intro fuel
  induction fuel with
  | zero =>
    intro stack L hinv
    exact ⟨L, rfl, hinv.lok, hinv.ldist⟩
  | succ fuel ih =>
    intro stack L hinv
    rcases stack with _ | ⟨⟨⟨A, B⟩, y, Ns⟩, rest⟩
    · exact ⟨L, rfl, hinv.lok, hinv.ldist⟩
    · rw [fcboLoop_cons]
      have hsokh : ConceptOK ctx A B :=
        hinv.sok _ (List.mem_cons_self _ _)
      rcases hsokh with ⟨hwA, hwB, hAB, hBA⟩
      have hBnotL : ∀ c ∈ L, c.2 ≠ B := fun c hcL =>
        hinv.lsdist _ (List.mem_cons_self _ _) B (CanonDesc.refl _ _) c hcL
      have hmap : (L ++ [(A, B)]).map
          (fun c : BitSet × BitSet => (c.1.to_u128, c.2.to_u128)) =
          L.map (fun c : BitSet × BitSet => (c.1.to_u128, c.2.to_u128)) ++
            [(A.to_u128, B.to_u128)] := by
        rw [List.map_append]
        rfl
      have hlok2 : ∀ c ∈ L ++ [(A, B)], ConceptOK ctx c.1 c.2 := by
        intro c hcm
        rcases List.mem_append.mp hcm with hcm | hcm
        · exact hinv.lok c hcm
        · rcases List.mem_singleton.mp hcm with rfl
          exact ⟨hwA, hwB, hAB, hBA⟩
      have hldist2 : List.Pairwise
          (fun c d : BitSet × BitSet => c.2 ≠ d.2) (L ++ [(A, B)]) := by
        rw [List.pairwise_append]
        refine ⟨hinv.ldist, List.pairwise_singleton _ _, ?_⟩
        intro c hcm d hdm
        rcases List.mem_singleton.mp hdm with rfl
        exact hBnotL c hcm
      have hheadg : ∀ g ∈ rest, ∀ D,
          CanonDesc (pclose ctx) ctx.n_properties B y D →
          CanonDesc (pclose ctx) ctx.n_properties g.1.2 g.2.1 D → False :=
        (List.pairwise_cons.mp hinv.ssdist).1
      have hrestpw := (List.pairwise_cons.mp hinv.ssdist).2
      by_cases hstop : y = ctx.n_properties ∨ A.is_empty = true
      · rw [if_pos hstop]
        have hinv2 : FcboInv ctx (L ++ [(A, B)]) rest := by
          refine ⟨hlok2, fun f hf => hinv.sok f (List.mem_cons_of_mem _ hf),
            hldist2, ?_, hrestpw⟩
          intro f hf D hD c hcm
          rcases List.mem_append.mp hcm with hcm | hcm
          · exact hinv.lsdist f (List.mem_cons_of_mem _ hf) D hD c hcm
          · rcases List.mem_singleton.mp hcm with rfl
            intro heq
            exact hheadg f hf D (heq ▸ CanonDesc.refl B y) hD
        rcases ih rest (L ++ [(A, B)]) hinv2 with ⟨L2, heq2, hok2, hpw2⟩
        rw [← hmap]
        exact ⟨L2, heq2, hok2, hpw2⟩
      · rw [if_neg hstop]
        rcases fcboFold_sound ctx A B
            (((((List.range ctx.n_properties).map
              (fun j => (j, (BitSet.new ctx.n_properties).setBit j))).drop
                y).reverse))
            (jl_drop_nodup ctx.n_properties y) Ns rest with
          ⟨F, Ns1, heqfold, hmem, hpwF⟩
        have hFfact : ∀ f ∈ F, ∃ j, y ≤ j ∧ j < ctx.n_properties ∧
            B.get j = false ∧ f.2.1 = j + 1 ∧
            ConceptOK ctx f.1.1 f.1.2 ∧
            f.1.2.get j = true ∧
            (∀ i, i < j → f.1.2.get i = B.get i) ∧
            (∀ D, CanonDesc (pclose ctx) ctx.n_properties f.1.2 f.2.1 D →
              CanonDesc (pclose ctx) ctx.n_properties B y D) := by
          intro f hf
          rcases hmem f hf with ⟨j, a, hja, hskip, hcanon, Ns2, hfe⟩
          rcases jl_drop_mem ctx.n_properties y hja with ⟨hae0, hyj0, hjn0⟩
          have hae : a = (BitSet.new ctx.n_properties).setBit j := hae0
          have hyj : y ≤ j := hyj0
          have hjn : j < ctx.n_properties := hjn0
          rw [hae] at hskip hcanon
          rcases fcbo_push_step hc hwA hwB hAB hjn hskip hcanon with
            ⟨hBj, hD, hI, hlow, hBsubI⟩
          have hwa : wfBitSet ((BitSet.new ctx.n_properties).setBit j)
              ctx.n_properties := wf_setBit (wf_new _) j
          have hwor : wfBitSet
              (B.or ((BitSet.new ctx.n_properties).setBit j))
              ctx.n_properties := wf_or hwB hwa
          have hwD : wfBitSet (A.and (ctx.extents.getD j default))
              ctx.n_objects := wf_and hwA (wf_getD_extents hc hjn)
          have hwI : wfBitSet
              (ctx.prime_objects (A.and (ctx.extents.getD j default)))
              ctx.n_properties := wf_prime_objects hc _
          have hIj : (ctx.prime_objects
              (A.and (ctx.extents.getD j default))).get j = true := by
            rw [hI]
            apply pclose_extensive hc hwor j
            rw [get_or hwB hwa, get_setBit (wf_new _) j j, if_pos ⟨rfl, hjn⟩,
              Bool.or_true]
          have hBor : bsubset B
              (B.or ((BitSet.new ctx.n_properties).setBit j)) := by
            intro i hi
            rw [get_or hwB hwa, hi]
            rfl
          have hext : bsubset
              (B.or ((BitSet.new ctx.n_properties).setBit j))
              (ctx.prime_objects (A.and (ctx.extents.getD j default))) := by
            rw [hI]
            exact pclose_extensive hc hwor
          have hpp : ctx.prime_properties (ctx.prime_objects
              (A.and (ctx.extents.getD j default))) =
              A.and (ctx.extents.getD j default) := by
            rw [hD]
            exact prime_triple_properties hc hwor
          have hpair : ConceptOK ctx (A.and (ctx.extents.getD j default))
              (ctx.prime_objects (A.and (ctx.extents.getD j default))) :=
            ⟨hwD, hwI, hpp.symm, rfl⟩
          refine ⟨j, hyj, hjn, hBj, ?_, ?_, ?_, ?_, ?_⟩
          · rw [hfe]
          · rw [hfe]
            exact hpair
          · rw [hfe]
            exact hIj
          · rw [hfe]
            exact hlow
          · intro D hDdesc
            rw [hfe] at hDdesc
            exact CanonDesc.step hyj hjn hBj hI hBor hext hlow hDdesc
        have hsok2 : ∀ f ∈ F ++ rest, ConceptOK ctx f.1.1 f.1.2 := by
          intro f hf
          rcases List.mem_append.mp hf with hf | hf
          · rcases hFfact f hf with ⟨j, _, _, _, _, hcOK, _⟩
            exact hcOK
          · exact hinv.sok f (List.mem_cons_of_mem _ hf)
        have hlsdist2 : ∀ f ∈ F ++ rest, ∀ D,
            CanonDesc (pclose ctx) ctx.n_properties f.1.2 f.2.1 D →
            ∀ c ∈ L ++ [(A, B)], c.2 ≠ D := by
          intro f hf D hD c hcm
          rcases List.mem_append.mp hf with hf | hf
          · rcases hFfact f hf with
              ⟨j, hyj, hjn, hBj, hpiv, hcOK, hIj, hlow, hstep⟩
            have hDB : CanonDesc (pclose ctx) ctx.n_properties B y D :=
              hstep D hD
            rcases List.mem_append.mp hcm with hcm | hcm
            · exact hinv.lsdist _ (List.mem_cons_self _ _) D hDB c hcm
            · rcases List.mem_singleton.mp hcm with rfl
              intro heq
              have heq2 : B = D := heq
              have hDj : D.get j = true := by
                have h1 := canonDesc_low hD j (by omega)
                rw [h1, hIj]
              rw [heq2, hDj] at hBj
              cases hBj
          · rcases List.mem_append.mp hcm with hcm | hcm
            · exact hinv.lsdist f (List.mem_cons_of_mem _ hf) D hD c hcm
            · rcases List.mem_singleton.mp hcm with rfl
              intro heq
              exact hheadg f hf D (heq ▸ CanonDesc.refl B y) hD
        have hssdist2 : List.Pairwise (fun f g : FcboFrame => ∀ D,
            CanonDesc (pclose ctx) ctx.n_properties f.1.2 f.2.1 D →
            CanonDesc (pclose ctx) ctx.n_properties g.1.2 g.2.1 D → False)
            (F ++ rest) := by
          rw [List.pairwise_append]
          refine ⟨?_, hrestpw, ?_⟩
          · apply List.Pairwise.imp_of_mem ?_ hpwF
            intro f g hfm hgm hne D hDf hDg
            rcases hFfact f hfm with
              ⟨j1, hyj1, hjn1, hBj1, hpiv1, _, hIj1, hlow1, _⟩
            rcases hFfact g hgm with
              ⟨j2, hyj2, hjn2, hBj2, hpiv2, _, hIj2, hlow2, _⟩
            have hjne : j1 ≠ j2 := by
              intro hje
              apply hne
              rw [hpiv1, hpiv2, hje]
            rcases Nat.lt_or_ge j1 j2 with hlt | hge
            · have h1 : D.get j1 = true := by
                have h2 := canonDesc_low hDf j1 (by omega)
                rw [h2, hIj1]
              have h3 : D.get j1 = false := by
                have h4 := canonDesc_low hDg j1 (by rw [hpiv2]; omega)
                rw [h4, hlow2 j1 hlt, hBj1]
              rw [h1] at h3
              cases h3
            · have hlt2 : j2 < j1 := by omega
              have h1 : D.get j2 = true := by
                have h2 := canonDesc_low hDg j2 (by omega)
                rw [h2, hIj2]
              have h3 : D.get j2 = false := by
                have h4 := canonDesc_low hDf j2 (by rw [hpiv1]; omega)
                rw [h4, hlow1 j2 hlt2, hBj2]
              rw [h1] at h3
              cases h3
          · intro f hfm g hgm D hDf hDg
            rcases hFfact f hfm with ⟨j, _, _, _, _, _, _, _, hstep⟩
            exact hheadg g hgm D (hstep D hDf) hDg
        have hinv2 : FcboInv ctx (L ++ [(A, B)]) (F ++ rest) :=
          ⟨hlok2, hsok2, hldist2, hlsdist2, hssdist2⟩
        rcases ih (F ++ rest) (L ++ [(A, B)]) hinv2 with
          ⟨L2, heq2, hok2, hpw2⟩
        rw [heqfold, ← hmap]
        exact ⟨L2, heq2, hok2, hpw2⟩

/-! ### Faithfulness of the `u128` output encoding -/

theorem to_u128_eq (b : BitSet) :
    b.to_u128 =
      (if 2 ≤ b.words.length then
        (if 1 ≤ b.words.length then b.words.getD 0 0 else 0) |||
          ((b.words.getD 1 0) <<< 64)
      else (if 1 ≤ b.words.length then b.words.getD 0 0 else 0)) := rfl

/-- On the first 128 positions the `u128` encoding agrees with `get`. -/
theorem to_u128_testBit {b : BitSet} {n : Nat} (h : wfBitSet b n) (p : Nat)
    (hp : p < 128) : b.to_u128.testBit p = b.get p := by
  have hwf0 : ∀ k q, (b.words.getD k 0).testBit q = true →
      q < 64 ∧ 64 * k + q < n := h.2.2
  have hget : b.get p = (if b.n_bits ≤ p then false
      else (b.words.getD (p / 64) 0).testBit (p % 64)) := get_def b p
  rw [to_u128_eq]
  by_cases h2 : 2 ≤ b.words.length
  · rw [if_pos h2, if_pos (by omega), Nat.testBit_or, Nat.testBit_shiftLeft]
    by_cases hp64 : p < 64
    · have hs : decide (p ≥ 64) = false := by simpa using hp64
      rw [hs, Bool.false_and, Bool.or_false, hget]
      by_cases hnp : b.n_bits ≤ p
      · rw [if_pos hnp]
        cases hv : (b.words.getD 0 0).testBit p
        · rfl
        · rcases hwf0 0 p hv with ⟨_, hlt⟩
          have := h.1
          omega
      · rw [if_neg hnp]
        have hd : p / 64 = 0 := by omega
        have hm : p % 64 = p := by omega
        rw [hd, hm]
    · have hs : decide (p ≥ 64) = true := by
        simp only [decide_eq_true_eq]
        omega
      rw [hs, Bool.true_and]
      have h0 : (b.words.getD 0 0).testBit p = false := by
        cases hv : (b.words.getD 0 0).testBit p
        · rfl
        · rcases hwf0 0 p hv with ⟨hq, _⟩
          omega
      rw [h0, Bool.false_or, hget]
      by_cases hnp : b.n_bits ≤ p
      · rw [if_pos hnp]
        cases hv : (b.words.getD 1 0).testBit (p - 64)
        · rfl
        · rcases hwf0 1 (p - 64) hv with ⟨_, hlt⟩
          have := h.1
          omega
      · rw [if_neg hnp]
        have hd : p / 64 = 1 := by omega
        have hm : p % 64 = p - 64 := by omega
        rw [hd, hm]
  · rw [if_neg h2]
    by_cases h1 : 1 ≤ b.words.length
    · rw [if_pos h1, hget]
      by_cases hnp : b.n_bits ≤ p
      · rw [if_pos hnp]
        cases hv : (b.words.getD 0 0).testBit p
        · rfl
        · rcases hwf0 0 p hv with ⟨_, hlt⟩
          have := h.1
          omega
      · rw [if_neg hnp]
        by_cases hp64 : p < 64
        · have hd : p / 64 = 0 := by omega
          have hm : p % 64 = p := by omega
          rw [hd, hm]
        · have h0 : (b.words.getD 0 0).testBit p = false := by
            cases hv : (b.words.getD 0 0).testBit p
            · rfl
            · rcases hwf0 0 p hv with ⟨hq, _⟩
              omega
          have hgd : b.words.getD (p / 64) 0 = 0 := getD_ge _ _ _ (by omega)
          rw [h0, hgd, Nat.zero_testBit]
    · have hlen : b.words.length = 0 := by omega
      rw [if_neg h1, Nat.zero_testBit, hget]
      by_cases hnp : b.n_bits ≤ p
      · rw [if_pos hnp]
      · rw [if_neg hnp, getD_ge _ _ _ (by omega), Nat.zero_testBit]

theorem get_eq_of_to_u128 {a b : BitSet} {n : Nat} (ha : wfBitSet a n)
    (hb : wfBitSet b n) (h : a.to_u128 = b.to_u128) {p : Nat}
    (hp : p < 128) : a.get p = b.get p := by
  rw [← to_u128_testBit ha p hp, ← to_u128_testBit hb p hp, h]

/-- No stored bit at position 128 or beyond. -/
def NoHigh (b : BitSet) : Prop :=
  ∀ i, 128 ≤ i → b.get i = false

theorem extents_new_nohigh (nO nP : Nat) (er ir : List Nat)
    (hraw : wellFormedRaw nO nP er ir) :
    ∀ e ∈ (FcaContext.new nO nP er ir).extents, NoHigh e := by
  intro e he i hi
  rcases List.mem_map.mp he with ⟨v, hv, rfl⟩
  have hv128 : v < 2 ^ 128 := (hraw.2.2.1 v hv).2
  rw [get_from_u128 hv128]
  have hbit : v.testBit i = false := by
    apply Nat.testBit_lt_two_pow
    exact Nat.lt_of_lt_of_le hv128 (Nat.pow_le_pow_right (by omega) hi)
  rw [hbit, Bool.and_false]

theorem intents_new_nohigh (nO nP : Nat) (er ir : List Nat)
    (hraw : wellFormedRaw nO nP er ir) :
    ∀ e ∈ (FcaContext.new nO nP er ir).intents, NoHigh e := by
  intro e he i hi
  rcases List.mem_map.mp he with ⟨v, hv, rfl⟩
  have hv128 : v < 2 ^ 128 := (hraw.2.2.2.1 v hv).2
  rw [get_from_u128 hv128]
  have hbit : v.testBit i = false := by
    apply Nat.testBit_lt_two_pow
    exact Nat.lt_of_lt_of_le hv128 (Nat.pow_le_pow_right (by omega) hi)
  rw [hbit, Bool.and_false]

theorem prime_properties_of_empty (ctx : FcaContext) {B : BitSet}
    (hB : ∀ j, B.get j = false) :
    ctx.prime_properties B = BitSet.supremum ctx.n_objects := by
  unfold FcaContext.prime_properties
  have hiter : B.iter_bits = [] := by
    rw [List.eq_nil_iff_forall_not_mem]
    intro i hi
    have hg := mem_iter_bits.mp hi
    rw [hB i] at hg
    cases hg
  rw [hiter, List.foldl_nil]

theorem prime_objects_of_empty (ctx : FcaContext) {A : BitSet}
    (hA : ∀ j, A.get j = false) :
    ctx.prime_objects A = BitSet.supremum ctx.n_properties := by
  unfold FcaContext.prime_objects
  have hiter : A.iter_bits = [] := by
    rw [List.eq_nil_iff_forall_not_mem]
    intro i hi
    have hg := mem_iter_bits.mp hi
    rw [hA i] at hg
    cases hg
  rw [hiter, List.foldl_nil]

theorem prime_properties_nohigh {ctx : FcaContext} (hc : wfCtx ctx)
    {B : BitSet} (hB : wfBitSet B ctx.n_properties)
    (hne : ∃ j, B.get j = true)
    (hE : ∀ e ∈ ctx.extents, NoHigh e) :
    NoHigh (ctx.prime_properties B) := by
  intro i hi
  cases hv : (ctx.prime_properties B).get i
  · rfl
  · exfalso
    rw [mem_prime_properties hc hB] at hv
    rcases hne with ⟨j0, hj0⟩
    have hji := hv.2 j0 hj0
    have hj0l : j0 < ctx.extents.length := by
      have := get_true_lt hj0
      have := hB.1
      have := hc.1
      omega
    rw [getD_eq_getElem _ _ _ hj0l] at hji
    have := hE _ (ctx.extents.getElem_mem hj0l) i hi
    rw [this] at hji
    cases hji

theorem prime_objects_nohigh {ctx : FcaContext} (hc : wfCtx ctx)
    {A : BitSet} (hA : wfBitSet A ctx.n_objects)
    (hne : ∃ j, A.get j = true)
    (hI : ∀ e ∈ ctx.intents, NoHigh e) :
    NoHigh (ctx.prime_objects A) := by
  intro i hi
  cases hv : (ctx.prime_objects A).get i
  · rfl
  · exfalso
    rw [mem_prime_objects hc hA] at hv
    rcases hne with ⟨j0, hj0⟩
    have hji := hv.2 j0 hj0
    have hj0l : j0 < ctx.intents.length := by
      have := get_true_lt hj0
      have := hA.1
      have := hc.2.1
      omega
    rw [getD_eq_getElem _ _ _ hj0l] at hji
    have := hI _ (ctx.intents.getElem_mem hj0l) i hi
    rw [this] at hji
    cases hji

/-- Core of the injectivity argument: an all-objects extent and a
high-bit-free extent cannot encode to the same `u128` pair unless the
concepts coincide. -/
theorem concept_u128_core {ctx : FcaContext} (hc : wfCtx ctx)
    (hI : ∀ e ∈ ctx.intents, NoHigh e)
    {A1 B1 A2 B2 : BitSet} (h1 : ConceptOK ctx A1 B1)
    (h2 : ConceptOK ctx A2 B2)
    (hlowA : ∀ p, p < 128 → A1.get p = A2.get p)
    (hlowB : ∀ p, p < 128 → B1.get p = B2.get p)
    (hBne : B1 ≠ B2)
    (hA1s : A1 = BitSet.supremum ctx.n_objects)
    (hA2n : NoHigh A2) : False := by
  have hAne : A1 ≠ A2 := by
    intro hAe
    apply hBne
    rw [h1.2.2.2, h2.2.2.2, hAe]
  have hdiffA : ∃ i, 128 ≤ i ∧ A1.get i ≠ A2.get i := by
    by_contra hcon
    push_neg at hcon
    apply hAne
    apply wf_ext h1.1 h2.1
    intro i
    by_cases h128 : i < 128
    · exact hlowA i h128
    · exact hcon i (by omega)
  rcases hdiffA with ⟨i, hi128, hidiff⟩
  have hA2i : A2.get i = false := hA2n i hi128
  have hA1i : A1.get i = true := by
    cases hv : A1.get i
    · rw [hv, hA2i] at hidiff
      exact absurd rfl hidiff
    · rfl
  have hnO : 128 < ctx.n_objects := by
    have := get_true_lt hA1i
    have := h1.1.1
    omega
  have hsub : bsubset A2 A1 := by
    intro t ht
    have htn : t < ctx.n_objects := by
      have := get_true_lt ht
      have := h2.1.1
      omega
    rw [hA1s, get_supremum]
    simpa using htn
  have hB12 : bsubset B1 B2 := by
    rw [h1.2.2.2, h2.2.2.2]
    exact prime_objects_antitone hc h2.1 h1.1 hsub
  have hdiffB : ∃ q, 128 ≤ q ∧ B1.get q ≠ B2.get q := by
    by_contra hcon
    push_neg at hcon
    apply hBne
    apply wf_ext h1.2.1 h2.2.1
    intro q
    by_cases h128 : q < 128
    · exact hlowB q h128
    · exact hcon q (by omega)
  rcases hdiffB with ⟨q, hq128, hqdiff⟩
  have hB2q : B2.get q = true := by
    cases hv : B1.get q
    · cases hw : B2.get q
      · rw [hv, hw] at hqdiff
        exact absurd rfl hqdiff
      · rfl
    · exact hB12 q hv
  by_cases hA2e : ∀ t, A2.get t = false
  · have h0 : A2.get 0 = true := by
      rw [← hlowA 0 (by omega), hA1s, get_supremum]
      simpa using (by omega : 0 < ctx.n_objects)
    rw [hA2e 0] at h0
    cases h0
  · push_neg at hA2e
    rcases hA2e with ⟨t0, ht0⟩
    have ht0t : A2.get t0 = true := by
      cases hv : A2.get t0
      · exact absurd hv ht0
      · rfl
    have hnh : NoHigh (ctx.prime_objects A2) :=
      prime_objects_nohigh hc h2.1 ⟨t0, ht0t⟩ hI
    have : B2.get q = false := by
      rw [h2.2.2.2]
      exact hnh q hq128
    rw [this] at hB2q
    cases hB2q

/-- Distinct well-formed concept pairs of a well-formed raw context have
distinct `u128` encodings. -/
theorem concept_u128_inj {ctx : FcaContext} (hc : wfCtx ctx)
    (hE : ∀ e ∈ ctx.extents, NoHigh e)
    (hI : ∀ e ∈ ctx.intents, NoHigh e)
    {A1 B1 A2 B2 : BitSet} (h1 : ConceptOK ctx A1 B1)
    (h2 : ConceptOK ctx A2 B2)
    (hA : A1.to_u128 = A2.to_u128) (hB : B1.to_u128 = B2.to_u128) :
    A1 = A2 ∧ B1 = B2 := by
  suffices hBeq : B1 = B2 by
    refine ⟨?_, hBeq⟩
    rw [h1.2.2.1, h2.2.2.1, hBeq]
  by_contra hBne
  have hlowA : ∀ p, p < 128 → A1.get p = A2.get p :=
    fun p hp => get_eq_of_to_u128 h1.1 h2.1 hA hp
  have hlowB : ∀ p, p < 128 → B1.get p = B2.get p :=
    fun p hp => get_eq_of_to_u128 h1.2.1 h2.2.1 hB hp
  have hAne : A1 ≠ A2 := by
    intro hAe
    apply hBne
    rw [h1.2.2.2, h2.2.2.2, hAe]
  have hdA1 : A1 = BitSet.supremum ctx.n_objects ∨ NoHigh A1 := by
    by_cases hBe : ∀ j, B1.get j = false
    · left
      rw [h1.2.2.1]
      exact prime_properties_of_empty ctx hBe
    · right
      push_neg at hBe
      rcases hBe with ⟨j0, hj0⟩
      have hj0t : B1.get j0 = true := by
        cases hv : B1.get j0
        · exact absurd hv hj0
        · rfl
      have := prime_properties_nohigh hc h1.2.1 ⟨j0, hj0t⟩ hE
      rw [h1.2.2.1]
      exact this
  have hdA2 : A2 = BitSet.supremum ctx.n_objects ∨ NoHigh A2 := by
    by_cases hBe : ∀ j, B2.get j = false
    · left
      rw [h2.2.2.1]
      exact prime_properties_of_empty ctx hBe
    · right
      push_neg at hBe
      rcases hBe with ⟨j0, hj0⟩
      have hj0t : B2.get j0 = true := by
        cases hv : B2.get j0
        · exact absurd hv hj0
        · rfl
      have := prime_properties_nohigh hc h2.2.1 ⟨j0, hj0t⟩ hE
      rw [h2.2.2.1]
      exact this
  rcases hdA1 with hA1s | hA1n
  · rcases hdA2 with hA2s | hA2n
    · exact hAne (hA1s.trans hA2s.symm)
    · exact concept_u128_core hc hI h1 h2 hlowA hlowB hBne hA1s hA2n
  · rcases hdA2 with hA2s | hA2n
    · exact concept_u128_core hc hI h2 h1
        (fun p hp => (hlowA p hp).symm) (fun p hp => (hlowB p hp).symm)
        (fun he => hBne he.symm) hA2s hA1n
    · apply hAne
      apply wf_ext h1.1 h2.1
      intro p
      by_cases h128 : p < 128
      · exact hlowA p h128
      · rw [hA1n p (by omega), hA2n p (by omega)]

/-- A list of pairwise-intent-distinct concept pairs maps to a `Nodup`
`u128` output list. -/
theorem nodup_of_pairs {ctx : FcaContext} (hc : wfCtx ctx)
    (hE : ∀ e ∈ ctx.extents, NoHigh e)
    (hI : ∀ e ∈ ctx.intents, NoHigh e)
    {L : List (BitSet × BitSet)}
    (hok : ∀ c ∈ L, ConceptOK ctx c.1 c.2)
    (hpw : List.Pairwise (fun c d : BitSet × BitSet => c.2 ≠ d.2) L) :
    (L.map (fun c => (c.1.to_u128, c.2.to_u128))).Nodup := by
  show List.Pairwise _ _
  rw [List.pairwise_map]
  apply List.Pairwise.imp_of_mem ?_ hpw
  intro c d hcm hdm hne heq
  apply hne
  have hAeq : c.1.to_u128 = d.1.to_u128 := congrArg Prod.fst heq
  have hBeq : c.2.to_u128 = d.2.to_u128 := congrArg Prod.snd heq
  exact (concept_u128_inj hc hE hI (hok c hcm) (hok d hdm) hAeq hBeq).2

theorem fcbo_eq_loop (ctx : FcaContext) (fuel : Nat) :
    fcbo_fast_generate_from ctx fuel =
      fcboLoop ctx ((BitSet.supremum ctx.n_properties).atoms.enum) fuel
        [((ctx.doubleprime_objects (BitSet.supremum ctx.n_objects)), 0,
          List.replicate ctx.n_properties (BitSet.new ctx.n_properties))]
        [] := rfl

theorem initial_conceptOK {ctx : FcaContext} (hc : wfCtx ctx) :
    ConceptOK ctx
      (ctx.doubleprime_objects (BitSet.supremum ctx.n_objects)).fst
      (ctx.doubleprime_objects (BitSet.supremum ctx.n_objects)).snd := by
  rw [doubleprime_objects_fst, doubleprime_objects_snd]
  refine ⟨wf_prime_properties hc _, wf_prime_objects hc _, rfl, ?_⟩
  exact (prime_triple_objects hc (wf_supremum _)).symm

/-- The FCBO result list has no duplicate `(extent, intent)` entry. -/
theorem fcbo_result_nodup (nO nP : Nat) (er ir : List Nat)
    (hraw : wellFormedRaw nO nP er ir) (fuel : Nat) :
    (fcbo_fast_generate_from (FcaContext.new nO nP er ir) fuel).fst.Nodup := by
  have hc := wfCtx_new nO nP er ir hraw
  have hinv : FcboInv (FcaContext.new nO nP er ir) []
      [(((FcaContext.new nO nP er ir).doubleprime_objects
          (BitSet.supremum (FcaContext.new nO nP er ir).n_objects)), 0,
        List.replicate (FcaContext.new nO nP er ir).n_properties
          (BitSet.new (FcaContext.new nO nP er ir).n_properties))] := by
    refine ⟨fun c hcm => absurd hcm (List.not_mem_nil _), ?_,
      List.Pairwise.nil,
      fun f hf D hD c hcm => absurd hcm (List.not_mem_nil _),
      List.pairwise_singleton _ _⟩
    intro f hf
    rcases List.mem_singleton.mp hf with rfl
    exact initial_conceptOK hc
  rcases fcboLoop_inv hc fuel _ [] hinv with ⟨L2, heq, hok2, hpw2⟩
  have heq2 : (fcboLoop (FcaContext.new nO nP er ir)
      ((List.range (FcaContext.new nO nP er ir).n_properties).map
        (fun j => (j, (BitSet.new
          (FcaContext.new nO nP er ir).n_properties).setBit j))) fuel
      [(((FcaContext.new nO nP er ir).doubleprime_objects
          (BitSet.supremum (FcaContext.new nO nP er ir).n_objects)), 0,
        List.replicate (FcaContext.new nO nP er ir).n_properties
          (BitSet.new (FcaContext.new nO nP er ir).n_properties))]
      []).fst = L2.map (fun c => (c.1.to_u128, c.2.to_u128)) := heq
  rw [fcbo_eq_loop, j_atom_eq, heq2]
  exact nodup_of_pairs hc (extents_new_nohigh nO nP er ir hraw)
    (intents_new_nohigh nO nP er ir hraw) hok2 hpw2

/-! ### The dual FCBO loop -/

theorem fcboDualInner_eq (ctx : FcaContext) (extent intent : BitSet)
    (Ns : List BitSet) (stack : List FcboFrame) (j : Nat) (a : BitSet) :
    fcboDualInner ctx extent intent (Ns, stack) (j, a) =
      (if (extent.and a).is_empty = false then (Ns, stack)
      else if ((Ns.getD j default).and a.sub_one).and extent =
          (Ns.getD j default).and a.sub_one then
        (if ((ctx.prime_properties (intent.and (ctx.intents.getD j default))).and
              a.sub_one).and extent =
            (ctx.prime_properties (intent.and (ctx.intents.getD j default))).and
              a.sub_one then
          (Ns, ((ctx.prime_properties (intent.and (ctx.intents.getD j default)),
            intent.and (ctx.intents.getD j default)),
            j + 1, Ns) :: stack)
        else (Ns.set j (ctx.prime_properties
          (intent.and (ctx.intents.getD j default))), stack))
      else (Ns, stack)) := rfl

theorem fcboDualLoop_zero (ctx : FcaContext) (jl : List (Nat × BitSet))
    (stack : List FcboFrame) (result : List (Nat × Nat)) :
    fcboDualLoop ctx jl 0 stack result = (result, stack) := rfl

theorem fcboDualLoop_nil (ctx : FcaContext) (jl : List (Nat × BitSet))
    (fuel : Nat) (result : List (Nat × Nat)) :
    fcboDualLoop ctx jl (fuel + 1) [] result = (result, []) := rfl

theorem fcboDualLoop_cons (ctx : FcaContext) (jl : List (Nat × BitSet))
    (fuel : Nat) (concept : BitSet × BitSet) (y : Nat) (Ns : List BitSet)
    (stack : List FcboFrame) (result : List (Nat × Nat)) :
    fcboDualLoop ctx jl (fuel + 1) ((concept, y, Ns) :: stack) result =
      (if y = ctx.n_objects ∨ concept.snd.is_empty = true then
        fcboDualLoop ctx jl fuel stack
          (result ++ [(concept.fst.to_u128, concept.snd.to_u128)])
      else
        fcboDualLoop ctx jl fuel
          (((jl.drop y).reverse).foldl
            (fcboDualInner ctx concept.fst concept.snd) (Ns, stack)).snd
          (result ++ [(concept.fst.to_u128, concept.snd.to_u128)])) := rfl

/-- Soundness of one expansion pass of `fcbo_dual`. -/
theorem fcboDualFold_sound (ctx : FcaContext) (A B : BitSet) :
    ∀ (l : List (Nat × BitSet)), (l.map Prod.fst).Nodup →
    ∀ (Ns0 : List BitSet) (stack0 : List FcboFrame), ∃ F Ns1,
      (l.foldl (fcboDualInner ctx A B) (Ns0, stack0)) = (Ns1, F ++ stack0) ∧
      (∀ f ∈ F, ∃ j a, (j, a) ∈ l ∧
        (A.and a).is_empty = true ∧
        ((((ctx.prime_properties (B.and (ctx.intents.getD j default))).and
            a.sub_one).and A =
          (ctx.prime_properties (B.and (ctx.intents.getD j default))).and
            a.sub_one)) ∧
        ∃ Ns2, f = ((ctx.prime_properties (B.and (ctx.intents.getD j default)),
          B.and (ctx.intents.getD j default)),
          j + 1, Ns2)) ∧
      List.Pairwise (fun f g => f.2.1 ≠ g.2.1) F := by
  intro l
  induction l with
  | nil =>
    intro _ Ns0 stack0
    exact ⟨[], Ns0, rfl, fun f hf => absurd hf (List.not_mem_nil _),
      List.Pairwise.nil⟩
  | cons ja l ih =>
    intro hnd Ns0 stack0
    rcases ja with ⟨j, a⟩
    have hnd2 : (l.map Prod.fst).Nodup := (List.nodup_cons.mp hnd).2
    have hjnot : j ∉ l.map Prod.fst := (List.nodup_cons.mp hnd).1
    rw [List.foldl_cons, fcboDualInner_eq]
    by_cases hskip : (A.and a).is_empty = false
    · rw [if_pos hskip]
      rcases ih hnd2 Ns0 stack0 with ⟨F, Ns1, heq, hmem, hpw⟩
      exact ⟨F, Ns1, heq,
        fun f hf => by
          rcases hmem f hf with ⟨j2, a2, hja, hrest⟩
          exact ⟨j2, a2, List.mem_cons_of_mem _ hja, hrest⟩,
        hpw⟩
    · rw [if_neg hskip]
      by_cases hx : ((Ns0.getD j default).and a.sub_one).and A =
          (Ns0.getD j default).and a.sub_one
      · rw [if_pos hx]
        by_cases hcanon : ((ctx.prime_properties
            (B.and (ctx.intents.getD j default))).and a.sub_one).and A =
            (ctx.prime_properties (B.and (ctx.intents.getD j default))).and
              a.sub_one
        · rw [if_pos hcanon]
          rcases ih hnd2 Ns0 (((ctx.prime_properties
              (B.and (ctx.intents.getD j default)),
              B.and (ctx.intents.getD j default)),
              j + 1, Ns0) :: stack0) with ⟨F, Ns1, heq, hmem, hpw⟩
          have hskipT : (A.and a).is_empty = true := by
            cases hv : (A.and a).is_empty
            · exact absurd hv hskip
            · rfl
          refine ⟨F ++ [((ctx.prime_properties
            (B.and (ctx.intents.getD j default)),
            B.and (ctx.intents.getD j default)),
            j + 1, Ns0)], Ns1, ?_, ?_, ?_⟩
          · rw [heq, List.append_assoc]
            rfl
          · intro f hf
            rcases List.mem_append.mp hf with hf2 | hf2
            · rcases hmem f hf2 with ⟨j2, a2, hja, hrest⟩
              exact ⟨j2, a2, List.mem_cons_of_mem _ hja, hrest⟩
            · rcases List.mem_singleton.mp hf2 with rfl
              exact ⟨j, a, List.mem_cons_self _ _, hskipT, hcanon, Ns0, rfl⟩
          · rw [List.pairwise_append]
            refine ⟨hpw, List.pairwise_singleton _ _, ?_⟩
            intro f hf g hg
            rcases List.mem_singleton.mp hg with rfl
            rcases hmem f hf with ⟨j2, a2, hja, _, _, Ns3, hfe⟩
            rw [hfe]
            intro hcon
            apply hjnot
            have hj2 : j2 = j := by
              have : j2 + 1 = j + 1 := hcon
              omega
            subst hj2
            exact List.mem_map.mpr ⟨(j2, a2), hja, rfl⟩
        · rw [if_neg hcanon]
          rcases ih hnd2 (Ns0.set j (ctx.prime_properties
              (B.and (ctx.intents.getD j default)))) stack0 with
            ⟨F, Ns1, heq, hmem, hpw⟩
          exact ⟨F, Ns1, heq,
            fun f hf => by
              rcases hmem f hf with ⟨j2, a2, hja, hrest⟩
              exact ⟨j2, a2, List.mem_cons_of_mem _ hja, hrest⟩,
            hpw⟩
      · rw [if_neg hx]
        rcases ih hnd2 Ns0 stack0 with ⟨F, Ns1, heq, hmem, hpw⟩
        exact ⟨F, Ns1, heq,
          fun f hf => by
            rcases hmem f hf with ⟨j2, a2, hja, hrest⟩
            exact ⟨j2, a2, List.mem_cons_of_mem _ hja, hrest⟩,
          hpw⟩

/-- What the dual FCBO tests guarantee about a pushed frame. -/
theorem fcbo_dual_push_step {ctx : FcaContext} (hc : wfCtx ctx)
    {A B : BitSet} (hwA : wfBitSet A ctx.n_objects)
    (hwB : wfBitSet B ctx.n_properties)
    (hBA : B = ctx.prime_objects A) {j : Nat} (hj : j < ctx.n_objects)
    (hskip : (A.and ((BitSet.new ctx.n_objects).setBit j)).is_empty = true)
    (hcanon : ((ctx.prime_properties (B.and (ctx.intents.getD j default))).and
        (((BitSet.new ctx.n_objects).setBit j).sub_one)).and A =
      (ctx.prime_properties (B.and (ctx.intents.getD j default))).and
        (((BitSet.new ctx.n_objects).setBit j).sub_one)) :
    A.get j = false ∧
    B.and (ctx.intents.getD j default) =
      ctx.prime_objects (A.or ((BitSet.new ctx.n_objects).setBit j)) ∧
    ctx.prime_properties (B.and (ctx.intents.getD j default)) =
      oclose ctx (A.or ((BitSet.new ctx.n_objects).setBit j)) ∧
    (∀ i, i < j →
      (ctx.prime_properties (B.and (ctx.intents.getD j default))).get i =
        A.get i) ∧
    bsubset A (ctx.prime_properties (B.and (ctx.intents.getD j default))) := by
  have hwa : wfBitSet ((BitSet.new ctx.n_objects).setBit j)
      ctx.n_objects := wf_setBit (wf_new _) j
  have hwor : wfBitSet (A.or ((BitSet.new ctx.n_objects).setBit j))
      ctx.n_objects := wf_or hwA hwa
  have hAj : A.get j = false := by
    have h1 := is_empty_all_false hskip j
    rw [get_and hwA hwa, get_setBit (wf_new _) j j, if_pos ⟨rfl, hj⟩] at h1
    simpa using h1
  have hD : B.and (ctx.intents.getD j default) =
      ctx.prime_objects (A.or ((BitSet.new ctx.n_objects).setBit j)) := by
    rw [hBA]
    exact (prime_objects_or_atom hc hwA hj).symm
  have hI : ctx.prime_properties (B.and (ctx.intents.getD j default)) =
      oclose ctx (A.or ((BitSet.new ctx.n_objects).setBit j)) := by
    rw [hD]
    rfl
  have hwI : wfBitSet
      (ctx.prime_properties (B.and (ctx.intents.getD j default)))
      ctx.n_objects := wf_prime_properties hc _
  have hAsubI : bsubset A
      (ctx.prime_properties (B.and (ctx.intents.getD j default))) := by
    rw [hI]
    intro i hi
    apply oclose_extensive hc hwor i
    rw [get_or hwA hwa, hi]
    rfl
  refine ⟨hAj, hD, hI, ?_, hAsubI⟩
  intro i hij
  cases hIi : (ctx.prime_properties (B.and (ctx.intents.getD j default))).get i
  · cases hAi : A.get i
    · rfl
    · have := hAsubI i hAi
      rw [hIi] at this
      cases this
  · have h1 := congrArg (fun X => X.get i) hcanon
    simp only [] at h1
    rw [get_and (wf_and hwI (wf_sub_one hwa)) hwA,
      get_and hwI (wf_sub_one hwa), get_sub_one_atom hj i, hIi] at h1
    have hmask : decide (i < j) = true := by simpa using hij
    rw [hmask] at h1
    simpa using h1

/-- Invariant of the dual FCBO main loop. -/
structure FcboDualInv (ctx : FcaContext) (L : List (BitSet × BitSet))
    (stack : List FcboFrame) : Prop where
  lok : ∀ c ∈ L, ConceptOK ctx c.1 c.2
  sok : ∀ f ∈ stack, ConceptOK ctx f.1.1 f.1.2
  ldist : List.Pairwise (fun c d : BitSet × BitSet => c.1 ≠ d.1) L
  lsdist : ∀ f ∈ stack, ∀ D,
    CanonDesc (oclose ctx) ctx.n_objects f.1.1 f.2.1 D →
    ∀ c ∈ L, c.1 ≠ D
  ssdist : List.Pairwise (fun f g : FcboFrame => ∀ D,
    CanonDesc (oclose ctx) ctx.n_objects f.1.1 f.2.1 D →
    CanonDesc (oclose ctx) ctx.n_objects g.1.1 g.2.1 D → False) stack

/-- The dual FCBO main loop only emits pairwise distinct concept pairs. -/
theorem fcboDualLoop_inv {ctx : FcaContext} (hc : wfCtx ctx) :
    ∀ (fuel : Nat) (stack : List FcboFrame) (L : List (BitSet × BitSet)),
      FcboDualInv ctx L stack →
      ∃ L2 : List (BitSet × BitSet),
        (fcboDualLoop ctx ((List.range ctx.n_objects).map
            (fun j => (j, (BitSet.new ctx.n_objects).setBit j))) fuel stack
          (L.map (fun c => (c.1.to_u128, c.2.to_u128)))).fst =
          L2.map (fun c => (c.1.to_u128, c.2.to_u128)) ∧
        (∀ c ∈ L2, ConceptOK ctx c.1 c.2) ∧
        List.Pairwise (fun c d : BitSet × BitSet => c.1 ≠ d.1) L2 := by
  intro fuel
  induction fuel with
  | zero =>
    intro stack L hinv
    exact ⟨L, rfl, hinv.lok, hinv.ldist⟩
  | succ fuel ih =>
    intro stack L hinv
    rcases stack with _ | ⟨⟨⟨A, B⟩, y, Ns⟩, rest⟩
    · exact ⟨L, rfl, hinv.lok, hinv.ldist⟩
    · rw [fcboDualLoop_cons]
      have hsokh : ConceptOK ctx A B :=
        hinv.sok _ (List.mem_cons_self _ _)
      rcases hsokh with ⟨hwA, hwB, hAB, hBA⟩
      have hAnotL : ∀ c ∈ L, c.1 ≠ A := fun c hcL =>
        hinv.lsdist _ (List.mem_cons_self _ _) A (CanonDesc.refl _ _) c hcL
      have hmap : (L ++ [(A, B)]).map
          (fun c : BitSet × BitSet => (c.1.to_u128, c.2.to_u128)) =
          L.map (fun c : BitSet × BitSet => (c.1.to_u128, c.2.to_u128)) ++
            [(A.to_u128, B.to_u128)] := by
        rw [List.map_append]
        rfl
      have hlok2 : ∀ c ∈ L ++ [(A, B)], ConceptOK ctx c.1 c.2 := by
        intro c hcm
        rcases List.mem_append.mp hcm with hcm | hcm
        · exact hinv.lok c hcm
        · rcases List.mem_singleton.mp hcm with rfl
          exact ⟨hwA, hwB, hAB, hBA⟩
      have hldist2 : List.Pairwise
          (fun c d : BitSet × BitSet => c.1 ≠ d.1) (L ++ [(A, B)]) := by
        rw [List.pairwise_append]
        refine ⟨hinv.ldist, List.pairwise_singleton _ _, ?_⟩
        intro c hcm d hdm
        rcases List.mem_singleton.mp hdm with rfl
        exact hAnotL c hcm
      have hheadg : ∀ g ∈ rest, ∀ D,
          CanonDesc (oclose ctx) ctx.n_objects A y D →
          CanonDesc (oclose ctx) ctx.n_objects g.1.1 g.2.1 D → False :=
        (List.pairwise_cons.mp hinv.ssdist).1
      have hrestpw := (List.pairwise_cons.mp hinv.ssdist).2
      by_cases hstop : y = ctx.n_objects ∨ B.is_empty = true
      · rw [if_pos hstop]
        have hinv2 : FcboDualInv ctx (L ++ [(A, B)]) rest := by
          refine ⟨hlok2, fun f hf => hinv.sok f (List.mem_cons_of_mem _ hf),
            hldist2, ?_, hrestpw⟩
          intro f hf D hD c hcm
          rcases List.mem_append.mp hcm with hcm | hcm
          · exact hinv.lsdist f (List.mem_cons_of_mem _ hf) D hD c hcm
          · rcases List.mem_singleton.mp hcm with rfl
            intro heq
            exact hheadg f hf D (heq ▸ CanonDesc.refl A y) hD
        rcases ih rest (L ++ [(A, B)]) hinv2 with ⟨L2, heq2, hok2, hpw2⟩
        rw [← hmap]
        exact ⟨L2, heq2, hok2, hpw2⟩
      · rw [if_neg hstop]
        rcases fcboDualFold_sound ctx A B
            (((((List.range ctx.n_objects).map
              (fun j => (j, (BitSet.new ctx.n_objects).setBit j))).drop
                y).reverse))
            (jl_drop_nodup ctx.n_objects y) Ns rest with
          ⟨F, Ns1, heqfold, hmem, hpwF⟩
        have hFfact : ∀ f ∈ F, ∃ j, y ≤ j ∧ j < ctx.n_objects ∧
            A.get j = false ∧ f.2.1 = j + 1 ∧
            ConceptOK ctx f.1.1 f.1.2 ∧
            f.1.1.get j = true ∧
            (∀ i, i < j → f.1.1.get i = A.get i) ∧
            (∀ D, CanonDesc (oclose ctx) ctx.n_objects f.1.1 f.2.1 D →
              CanonDesc (oclose ctx) ctx.n_objects A y D) := by
          intro f hf
          rcases hmem f hf with ⟨j, a, hja, hskip, hcanon, Ns2, hfe⟩
          rcases jl_drop_mem ctx.n_objects y hja with ⟨hae0, hyj0, hjn0⟩
          have hae : a = (BitSet.new ctx.n_objects).setBit j := hae0
          have hyj : y ≤ j := hyj0
          have hjn : j < ctx.n_objects := hjn0
          rw [hae] at hskip hcanon
          rcases fcbo_dual_push_step hc hwA hwB hBA hjn hskip hcanon with
            ⟨hAj, hD, hI, hlow, hAsubI⟩
          have hwa : wfBitSet ((BitSet.new ctx.n_objects).setBit j)
              ctx.n_objects := wf_setBit (wf_new _) j
          have hwor : wfBitSet
              (A.or ((BitSet.new ctx.n_objects).setBit j))
              ctx.n_objects := wf_or hwA hwa
          have hwD : wfBitSet (B.and (ctx.intents.getD j default))
              ctx.n_properties := wf_and hwB (wf_getD_intents hc hjn)
          have hwI : wfBitSet
              (ctx.prime_properties (B.and (ctx.intents.getD j default)))
              ctx.n_objects := wf_prime_properties hc _
          have hIj : (ctx.prime_properties
              (B.and (ctx.intents.getD j default))).get j = true := by
            rw [hI]
            apply oclose_extensive hc hwor j
            rw [get_or hwA hwa, get_setBit (wf_new _) j j, if_pos ⟨rfl, hjn⟩,
              Bool.or_true]
          have hAor : bsubset A
              (A.or ((BitSet.new ctx.n_objects).setBit j)) := by
            intro i hi
            rw [get_or hwA hwa, hi]
            rfl
          have hext : bsubset
              (A.or ((BitSet.new ctx.n_objects).setBit j))
              (ctx.prime_properties (B.and (ctx.intents.getD j default))) := by
            rw [hI]
            exact oclose_extensive hc hwor
          have hpp : ctx.prime_objects (ctx.prime_properties
              (B.and (ctx.intents.getD j default))) =
              B.and (ctx.intents.getD j default) := by
            rw [hD]
            exact prime_triple_objects hc hwor
          have hpair : ConceptOK ctx
              (ctx.prime_properties (B.and (ctx.intents.getD j default)))
              (B.and (ctx.intents.getD j default)) :=
            ⟨hwI, hwD, rfl, hpp.symm⟩
          refine ⟨j, hyj, hjn, hAj, ?_, ?_, ?_, ?_, ?_⟩
          · rw [hfe]
          · rw [hfe]
            exact hpair
          · rw [hfe]
            exact hIj
          · rw [hfe]
            exact hlow
          · intro D hDdesc
            rw [hfe] at hDdesc
            exact CanonDesc.step hyj hjn hAj hI hAor hext hlow hDdesc
        have hsok2 : ∀ f ∈ F ++ rest, ConceptOK ctx f.1.1 f.1.2 := by
          intro f hf
          rcases List.mem_append.mp hf with hf | hf
          · rcases hFfact f hf with ⟨j, _, _, _, _, hcOK, _⟩
            exact hcOK
          · exact hinv.sok f (List.mem_cons_of_mem _ hf)
        have hlsdist2 : ∀ f ∈ F ++ rest, ∀ D,
            CanonDesc (oclose ctx) ctx.n_objects f.1.1 f.2.1 D →
            ∀ c ∈ L ++ [(A, B)], c.1 ≠ D := by
          intro f hf D hD c hcm
          rcases List.mem_append.mp hf with hf | hf
          · rcases hFfact f hf with
              ⟨j, hyj, hjn, hAj, hpiv, hcOK, hIj, hlow, hstep⟩
            have hDB : CanonDesc (oclose ctx) ctx.n_objects A y D :=
              hstep D hD
            rcases List.mem_append.mp hcm with hcm | hcm
            · exact hinv.lsdist _ (List.mem_cons_self _ _) D hDB c hcm
            · rcases List.mem_singleton.mp hcm with rfl
              intro heq
              have heq2 : A = D := heq
              have hDj : D.get j = true := by
                have h1 := canonDesc_low hD j (by omega)
                rw [h1, hIj]
              rw [heq2, hDj] at hAj
              cases hAj
          · rcases List.mem_append.mp hcm with hcm | hcm
            · exact hinv.lsdist f (List.mem_cons_of_mem _ hf) D hD c hcm
            · rcases List.mem_singleton.mp hcm with rfl
              intro heq
              exact hheadg f hf D (heq ▸ CanonDesc.refl A y) hD
        have hssdist2 : List.Pairwise (fun f g : FcboFrame => ∀ D,
            CanonDesc (oclose ctx) ctx.n_objects f.1.1 f.2.1 D →
            CanonDesc (oclose ctx) ctx.n_objects g.1.1 g.2.1 D → False)
            (F ++ rest) := by
          rw [List.pairwise_append]
          refine ⟨?_, hrestpw, ?_⟩
          · apply List.Pairwise.imp_of_mem ?_ hpwF
            intro f g hfm hgm hne D hDf hDg
            rcases hFfact f hfm with
              ⟨j1, hyj1, hjn1, hAj1, hpiv1, _, hIj1, hlow1, _⟩
            rcases hFfact g hgm with
              ⟨j2, hyj2, hjn2, hAj2, hpiv2, _, hIj2, hlow2, _⟩
            have hjne : j1 ≠ j2 := by
              intro hje
              apply hne
              rw [hpiv1, hpiv2, hje]
            rcases Nat.lt_or_ge j1 j2 with hlt | hge
            · have h1 : D.get j1 = true := by
                have h2 := canonDesc_low hDf j1 (by omega)
                rw [h2, hIj1]
              have h3 : D.get j1 = false := by
                have h4 := canonDesc_low hDg j1 (by rw [hpiv2]; omega)
                rw [h4, hlow2 j1 hlt, hAj1]
              rw [h1] at h3
              cases h3
            · have hlt2 : j2 < j1 := by omega
              have h1 : D.get j2 = true := by
                have h2 := canonDesc_low hDg j2 (by omega)
                rw [h2, hIj2]
              have h3 : D.get j2 = false := by
                have h4 := canonDesc_low hDf j2 (by rw [hpiv1]; omega)
                rw [h4, hlow1 j2 hlt2, hAj2]
              rw [h1] at h3
              cases h3
          · intro f hfm g hgm D hDf hDg
            rcases hFfact f hfm with ⟨j, _, _, _, _, _, _, _, hstep⟩
            exact hheadg g hgm D (hstep D hDf) hDg
        have hinv2 : FcboDualInv ctx (L ++ [(A, B)]) (F ++ rest) :=
          ⟨hlok2, hsok2, hldist2, hlsdist2, hssdist2⟩
        rcases ih (F ++ rest) (L ++ [(A, B)]) hinv2 with
          ⟨L2, heq2, hok2, hpw2⟩
        rw [heqfold, ← hmap]
        exact ⟨L2, heq2, hok2, hpw2⟩

theorem nodup_of_pairs_fst {ctx : FcaContext} (hc : wfCtx ctx)
    (hE : ∀ e ∈ ctx.extents, NoHigh e)
    (hI : ∀ e ∈ ctx.intents, NoHigh e)
    {L : List (BitSet × BitSet)}
    (hok : ∀ c ∈ L, ConceptOK ctx c.1 c.2)
    (hpw : List.Pairwise (fun c d : BitSet × BitSet => c.1 ≠ d.1) L) :
    (L.map (fun c => (c.1.to_u128, c.2.to_u128))).Nodup := by
  show List.Pairwise _ _
  rw [List.pairwise_map]
  apply List.Pairwise.imp_of_mem ?_ hpw
  intro c d hcm hdm hne heq
  apply hne
  have hAeq : c.1.to_u128 = d.1.to_u128 := congrArg Prod.fst heq
  have hBeq : c.2.to_u128 = d.2.to_u128 := congrArg Prod.snd heq
  exact (concept_u128_inj hc hE hI (hok c hcm) (hok d hdm) hAeq hBeq).1

theorem fcbo_dual_eq_loop (ctx : FcaContext) (fuel : Nat) :
    fcbo_dual ctx fuel =
      fcboDualLoop ctx ((BitSet.supremum ctx.n_objects).atoms.enum) fuel
        [((ctx.doubleprime_objects (BitSet.new ctx.n_objects)), 0,
          List.replicate ctx.n_objects (BitSet.new ctx.n_objects))]
        [] := rfl

theorem initial_dual_conceptOK {ctx : FcaContext} (hc : wfCtx ctx) :
    ConceptOK ctx
      (ctx.doubleprime_objects (BitSet.new ctx.n_objects)).fst
      (ctx.doubleprime_objects (BitSet.new ctx.n_objects)).snd := by
  rw [doubleprime_objects_fst, doubleprime_objects_snd]
  refine ⟨wf_prime_properties hc _, wf_prime_objects hc _, rfl, ?_⟩
  exact (prime_triple_objects hc (wf_new _)).symm

/-- The dual FCBO result list has no duplicate `(extent, intent)` entry. -/
theorem fcbo_dual_result_nodup (nO nP : Nat) (er ir : List Nat)
    (hraw : wellFormedRaw nO nP er ir) (fuel : Nat) :
    (fcbo_dual (FcaContext.new nO nP er ir) fuel).fst.Nodup := by
  have hc := wfCtx_new nO nP er ir hraw
  have hinv : FcboDualInv (FcaContext.new nO nP er ir) []
      [(((FcaContext.new nO nP er ir).doubleprime_objects
          (BitSet.new (FcaContext.new nO nP er ir).n_objects)), 0,
        List.replicate (FcaContext.new nO nP er ir).n_objects
          (BitSet.new (FcaContext.new nO nP er ir).n_objects))] := by
    refine ⟨fun c hcm => absurd hcm (List.not_mem_nil _), ?_,
      List.Pairwise.nil,
      fun f hf D hD c hcm => absurd hcm (List.not_mem_nil _),
      List.pairwise_singleton _ _⟩
    intro f hf
    rcases List.mem_singleton.mp hf with rfl
    exact initial_dual_conceptOK hc
  rcases fcboDualLoop_inv hc fuel _ [] hinv with ⟨L2, heq, hok2, hpw2⟩
  have heq2 : (fcboDualLoop (FcaContext.new nO nP er ir)
      ((List.range (FcaContext.new nO nP er ir).n_objects).map
        (fun j => (j, (BitSet.new
          (FcaContext.new nO nP er ir).n_objects).setBit j))) fuel
      [(((FcaContext.new nO nP er ir).doubleprime_objects
          (BitSet.new (FcaContext.new nO nP er ir).n_objects)), 0,
        List.replicate (FcaContext.new nO nP er ir).n_objects
          (BitSet.new (FcaContext.new nO nP er ir).n_objects))]
      []).fst = L2.map (fun c => (c.1.to_u128, c.2.to_u128)) := heq
  rw [fcbo_dual_eq_loop, j_atom_eq, heq2]
  exact nodup_of_pairs_fst hc (extents_new_nohigh nO nP er ir hraw)
    (intents_new_nohigh nO nP er ir hraw) hok2 hpw2

/-- C4: for every well-formed context, neither `fcbo_fast_generate_from` nor
`fcbo_dual` emits a duplicate `(extent, intent)` pair: the returned lists
have no duplicate entries (for any fuel, hence for the completed run). -/
theorem c4_fcbo_no_duplicates (nO nP : Nat) (er ir : List Nat)
    (hraw : wellFormedRaw nO nP er ir) (fuel : Nat) :
    (fcbo_fast_generate_from (FcaContext.new nO nP er ir) fuel).fst.Nodup ∧
    (fcbo_dual (FcaContext.new nO nP er ir) fuel).fst.Nodup :=
  ⟨fcbo_result_nodup nO nP er ir hraw fuel,
   fcbo_dual_result_nodup nO nP er ir hraw fuel⟩

theorem c4_fcbo_no_duplicates_witness :
    wellFormedRaw 3 3 [1, 2, 6] [1, 6, 4] ∧
    ((fcbo_fast_generate_from (FcaContext.new 3 3 [1, 2, 6] [1, 6, 4])
        20).fst.Nodup ∧
      (fcbo_dual (FcaContext.new 3 3 [1, 2, 6] [1, 6, 4]) 20).fst.Nodup) :=
  ⟨wellFormedRaw_367,
    c4_fcbo_no_duplicates 3 3 [1, 2, 6] [1, 6, 4] wellFormedRaw_367 20⟩

/-! ### Completeness of the canonical Close-by-One search -/

theorem is_empty_of_all_false {b : BitSet} {n : Nat} (h : wfBitSet b n)
    (hall : ∀ i, b.get i = false) : b.is_empty = true := by
  cases hv : b.is_empty
  · rcases is_empty_false_exists h hv with ⟨i, hi⟩
    rw [hall i] at hi
    cases hi
  · rfl

/-- Every closed set above a node of the canonical tree, compatible with the
node's fixed low bits, is reachable from that node. -/
theorem canonPath_complete {cl : BitSet → BitSet} {n : Nat}
    (hwf : ∀ X, wfBitSet X n → wfBitSet (cl X) n)
    (hext : ∀ X, wfBitSet X n → bsubset X (cl X))
    (hmono : ∀ X Y, wfBitSet X n → wfBitSet Y n → bsubset X Y →
      bsubset (cl X) (cl Y))
    (hidem : ∀ X, wfBitSet X n → cl (cl X) = cl X)
    {C : BitSet} (hC : wfBitSet C n) (hCc : cl C = C) :
    ∀ (k : Nat) (B : BitSet) (y : Nat), wfBitSet B n → cl B = B →
      bsubset B C → (∀ i, i < y → C.get i = B.get i) →
      C.count - B.count ≤ k →
      CanonDesc cl n B y C := by
  intro k
  induction k with
  | zero =>
    intro B y hB hBc hBC hcap hcount
    have hBeq : B = C := by
      by_contra hne
      have := bsubset_strict_count hB hC hBC hne
      omega
    rw [hBeq]
    exact CanonDesc.refl C y
  | succ k ih =>
    intro B y hB hBc hBC hcap hcount
    by_cases hBeq : B = C
    · rw [hBeq]
      exact CanonDesc.refl C y
    · have hexd : ∃ i, C.get i = true ∧ B.get i = false := by
        by_contra hcon
        push_neg at hcon
        apply hBeq
        apply wf_ext hB hC
        apply bsubset_antisymm_get hBC
        intro i hi
        cases hv : B.get i
        · exact absurd (hcon i hi) (fun h => by rw [hv] at h; exact h rfl)
        · rfl
      have hdec : DecidablePred (fun i => C.get i = true ∧ B.get i = false) :=
        fun i => instDecidableAnd
      have hj := @Nat.find_spec (fun i => C.get i = true ∧ B.get i = false)
        hdec hexd
      have hjmin := fun m hm =>
        @Nat.find_min (fun i => C.get i = true ∧ B.get i = false)
          hdec hexd m hm
      rcases hj with ⟨hCj, hBj⟩
      have hjy : y ≤ @Nat.find _ hdec hexd := by
        by_contra hcon
        have := hcap (@Nat.find _ hdec hexd) (by omega)
        rw [hCj] at this
        rw [hBj] at this
        cases this
      have hjn : @Nat.find _ hdec hexd < n := by
        have := get_true_lt hCj
        have := hC.1
        omega
      have hwa : wfBitSet ((BitSet.new n).setBit (@Nat.find _ hdec hexd)) n :=
        wf_setBit (wf_new _) _
      have hwor : wfBitSet
          (B.or ((BitSet.new n).setBit (@Nat.find _ hdec hexd))) n :=
        wf_or hB hwa
      have hBor : bsubset B
          (B.or ((BitSet.new n).setBit (@Nat.find _ hdec hexd))) := by
        intro i hi
        rw [get_or hB hwa, hi]
        rfl
      have horC : bsubset
          (B.or ((BitSet.new n).setBit (@Nat.find _ hdec hexd))) C := by
        intro i hi
        rw [get_or hB hwa, get_setBit (wf_new _) _ i, get_new] at hi
        by_cases hij : i = @Nat.find _ hdec hexd ∧ @Nat.find _ hdec hexd < n
        · rcases hij with ⟨rfl, _⟩
          exact hCj
        · rw [if_neg hij, Bool.or_false] at hi
          exact hBC i hi
      have hclC : bsubset
          (cl (B.or ((BitSet.new n).setBit (@Nat.find _ hdec hexd)))) C := by
        have h1 := hmono _ C hwor hC horC
        rw [hCc] at h1
        exact h1
      have horcl : bsubset
          (B.or ((BitSet.new n).setBit (@Nat.find _ hdec hexd)))
          (cl (B.or ((BitSet.new n).setBit (@Nat.find _ hdec hexd)))) :=
        hext _ hwor
      have hjcl : (cl (B.or ((BitSet.new n).setBit
          (@Nat.find _ hdec hexd)))).get (@Nat.find _ hdec hexd) = true := by
        apply horcl
        rw [get_or hB hwa, get_setBit (wf_new _) _ _, if_pos ⟨rfl, hjn⟩,
          Bool.or_true]
      have hlow : ∀ i, i < @Nat.find _ hdec hexd →
          (cl (B.or ((BitSet.new n).setBit (@Nat.find _ hdec hexd)))).get i =
            B.get i := by
        intro i hij
        cases hv : (cl (B.or ((BitSet.new n).setBit
            (@Nat.find _ hdec hexd)))).get i
        · cases hw : B.get i
          · rfl
          · have := horcl i (hBor i hw)
            rw [hv] at this
            cases this
        · have hiC : C.get i = true := hclC i hv
          have := hjmin i hij
          cases hw : B.get i
          · exact absurd ⟨hiC, hw⟩ this
          · rfl
      have hrec : CanonDesc cl n
          (cl (B.or ((BitSet.new n).setBit (@Nat.find _ hdec hexd))))
          (@Nat.find _ hdec hexd + 1) C := by
        apply ih
        · exact hwf _ hwor
        · exact hidem _ hwor
        · exact hclC
        · intro i hi
          by_cases hij : i < @Nat.find _ hdec hexd
          · rw [hlow i hij]
            cases hv : B.get i
            · cases hw : C.get i
              · rfl
              · have := hjmin i hij
                exact absurd ⟨hw, hv⟩ this
            · exact hBC i hv
          · have hie : i = @Nat.find _ hdec hexd := by omega
            rw [hie, hCj, hjcl]
        · have hc1 : B.count <
              (cl (B.or ((BitSet.new n).setBit
                (@Nat.find _ hdec hexd)))).count := by
            apply bsubset_strict_count hB (hwf _ hwor)
              (fun i hi => horcl i (hBor i hi))
            intro heq
            have := hjcl
            rw [← heq, hBj] at this
            cases this
          have hc2 : (cl (B.or ((BitSet.new n).setBit
              (@Nat.find _ hdec hexd)))).count ≤ C.count :=
            bsubset_count_le (hwf _ hwor) hC hclC
          omega
      exact CanonDesc.step hjy hjn hBj rfl hBor horcl hlow hrec

/-- Invariant of one `next_property_sets` entry: empty, or the closure
recorded at a failed canonicity test for the same pivot at a sub-context. -/
def NsEntryOK (ctx : FcaContext) (B : BitSet) (j : Nat) (N : BitSet) : Prop :=
  N = BitSet.new ctx.n_properties ∨
  ∃ B2, wfBitSet B2 ctx.n_properties ∧ bsubset B2 B ∧
    N = pclose ctx (B2.or ((BitSet.new ctx.n_properties).setBit j))

theorem nsEntryOK_mono {ctx : FcaContext} {B B3 : BitSet} {j : Nat}
    {N : BitSet} (h : NsEntryOK ctx B j N) (hsub : bsubset B B3) :
    NsEntryOK ctx B3 j N := by
  rcases h with h | ⟨B2, hw2, hs2, he2⟩
  · exact Or.inl h
  · exact Or.inr ⟨B2, hw2, fun i hi => hsub i (hs2 i hi), he2⟩

theorem wf_nsEntry {ctx : FcaContext} (hc : wfCtx ctx) {B : BitSet}
    {j : Nat} {N : BitSet} (h : NsEntryOK ctx B j N) :
    wfBitSet N ctx.n_properties := by
  rcases h with h | ⟨B2, hw2, hs2, he2⟩
  · rw [h]
    exact wf_new _
  · rw [he2]
    exact wf_pclose hc _

/-- A canonical pivot always passes the FCBO exclusion (`x`) test. -/
theorem ns_xtest {ctx : FcaContext} (hc : wfCtx ctx) {A B : BitSet}
    (hwA : wfBitSet A ctx.n_objects) (hwB : wfBitSet B ctx.n_properties)
    (hAB : A = ctx.prime_properties B) {j : Nat} (hj : j < ctx.n_properties)
    {N : BitSet} (hN : NsEntryOK ctx B j N)
    (hlow : ∀ i, i < j →
      (ctx.prime_objects (A.and (ctx.extents.getD j default))).get i =
        B.get i) :
    (N.and (((BitSet.new ctx.n_properties).setBit j).sub_one)).and B =
      N.and (((BitSet.new ctx.n_properties).setBit j).sub_one) := by
  have hwa : wfBitSet ((BitSet.new ctx.n_properties).setBit j)
      ctx.n_properties := wf_setBit (wf_new _) j
  have hwN : wfBitSet N ctx.n_properties := wf_nsEntry hc hN
  have hwX : wfBitSet (N.and (((BitSet.new ctx.n_properties).setBit j).sub_one))
      ctx.n_properties := wf_and hwN (wf_sub_one hwa)
  apply wf_ext (wf_and hwX hwB) hwX
  intro i
  rw [get_and hwX hwB, get_and hwN (wf_sub_one hwa), get_sub_one_atom hj i]
  by_cases hij : i < j
  · have hm : decide (i < j) = true := by simpa using hij
    rw [hm, Bool.and_true]
    cases hv : N.get i
    · rfl
    · have hBi : B.get i = true := by
        rcases hN with hN | ⟨B2, hw2, hs2, he2⟩
        · rw [hN, get_new] at hv
          cases hv
        · have hwa2 : wfBitSet
              (B2.or ((BitSet.new ctx.n_properties).setBit j))
              ctx.n_properties := wf_or hw2 hwa
          have hwb2 : wfBitSet
              (B.or ((BitSet.new ctx.n_properties).setBit j))
              ctx.n_properties := wf_or hwB hwa
          have hsub : bsubset (B2.or ((BitSet.new ctx.n_properties).setBit j))
              (B.or ((BitSet.new ctx.n_properties).setBit j)) := by
            intro t ht
            rw [get_or hw2 hwa] at ht
            rw [get_or hwB hwa]
            rcases Bool.or_eq_true_iff.mp ht with ht | ht
            · rw [hs2 t ht]
              rfl
            · rw [ht, Bool.or_true]
          have hmono := pclose_mono hc hwa2 hwb2 hsub
          rw [← he2] at hmono
          have hicl := hmono i hv
          have hIeq : ctx.prime_objects (A.and (ctx.extents.getD j default)) =
              pclose ctx (B.or ((BitSet.new ctx.n_properties).setBit j)) := by
            rw [hAB, (prime_properties_or_atom hc hwB hj).symm]
            rfl
          rw [← hIeq] at hicl
          rw [← hlow i hij]
          exact hicl
      rw [hBi, Bool.true_and]
  · have hm : decide (i < j) = false := by simpa using hij
    rw [hm, Bool.and_false, Bool.false_and]

theorem fcboFold_stack_mono (ctx : FcaContext) (A B : BitSet) :
    ∀ (l : List (Nat × BitSet)) (Ns0 : List BitSet)
      (stack0 : List FcboFrame) (f : FcboFrame), f ∈ stack0 →
      f ∈ (l.foldl (fcboInner ctx A B) (Ns0, stack0)).snd := by
  intro l
  induction l with
  | nil =>
    intro Ns0 stack0 f hf
    exact hf
  | cons ja l ih =>
    intro Ns0 stack0 f hf
    rcases ja with ⟨j, a⟩
    rw [List.foldl_cons, fcboInner_eq]
    by_cases h1 : (a.and B).is_empty = false
    · rw [if_pos h1]
      exact ih Ns0 stack0 f hf
    · rw [if_neg h1]
      by_cases h2 : ((Ns0.getD j default).and a.sub_one).and B =
          (Ns0.getD j default).and a.sub_one
      · rw [if_pos h2]
        by_cases h3 : ((ctx.prime_objects
            (A.and (ctx.extents.getD j default))).and a.sub_one).and B =
            (ctx.prime_objects (A.and (ctx.extents.getD j default))).and
              a.sub_one
        · rw [if_pos h3]
          exact ih Ns0 _ f (List.mem_cons_of_mem _ hf)
        · rw [if_neg h3]
          exact ih _ stack0 f hf
      · rw [if_neg h2]
        exact ih Ns0 stack0 f hf

/-- Completeness of one expansion pass: every canonical pivot of the popped
concept produces a pushed frame, and the failed-closure sets stay
well-formed. -/
theorem fcboFold_complete {ctx : FcaContext} (hc : wfCtx ctx)
    {A B : BitSet} (hwA : wfBitSet A ctx.n_objects)
    (hwB : wfBitSet B ctx.n_properties)
    (hAB : A = ctx.prime_properties B) :
    ∀ (l : List (Nat × BitSet)),
      (∀ p ∈ l, p.2 = (BitSet.new ctx.n_properties).setBit p.1 ∧
        p.1 < ctx.n_properties) →
    ∀ (Ns0 : List BitSet) (stack0 : List FcboFrame),
      (∀ idx, idx < ctx.n_properties →
        NsEntryOK ctx B idx (Ns0.getD idx default)) →
      (∀ f ∈ (l.foldl (fcboInner ctx A B) (Ns0, stack0)).snd,
        f ∈ stack0 ∨
        ∃ j Ns2, j < ctx.n_properties ∧
          f = ((A.and (ctx.extents.getD j default),
            ctx.prime_objects (A.and (ctx.extents.getD j default))),
            j + 1, Ns2) ∧
          (∀ idx, idx < ctx.n_properties →
            NsEntryOK ctx B idx (Ns2.getD idx default))) ∧
      (∀ j a, (j, a) ∈ l → B.get j = false →
        (∀ i, i < j →
          (ctx.prime_objects (A.and (ctx.extents.getD j default))).get i =
            B.get i) →
        ∃ Ns2, ((A.and (ctx.extents.getD j default),
          ctx.prime_objects (A.and (ctx.extents.getD j default))),
          j + 1, Ns2) ∈ (l.foldl (fcboInner ctx A B) (Ns0, stack0)).snd) := by
  intro l
  induction l with
  | nil =>
    intro _ Ns0 stack0 hNs
    refine ⟨fun f hf => Or.inl hf, ?_⟩
    intro j a hja
    exact absurd hja (List.not_mem_nil _)
  | cons ja l ih =>
    intro hl Ns0 stack0 hNs
    rcases ja with ⟨j, a⟩
    have hhead := hl (j, a) (List.mem_cons_self _ _)
    have hae : a = (BitSet.new ctx.n_properties).setBit j := hhead.1
    have hjn : j < ctx.n_properties := hhead.2
    subst hae
    have hltail : ∀ p ∈ l, p.2 = (BitSet.new ctx.n_properties).setBit p.1 ∧
        p.1 < ctx.n_properties := fun p hp => hl p (List.mem_cons_of_mem _ hp)
    have hwa : wfBitSet ((BitSet.new ctx.n_properties).setBit j)
        ctx.n_properties := wf_setBit (wf_new _) j
    rw [List.foldl_cons, fcboInner_eq]
    by_cases h1 : (((BitSet.new ctx.n_properties).setBit j).and B).is_empty
        = false
    · rw [if_pos h1]
      rcases ih hltail Ns0 stack0 hNs with ⟨hb, hcpl⟩
      refine ⟨hb, ?_⟩
      intro j2 a2 hja2 hBj2 hlow2
      rcases List.mem_cons.mp hja2 with hja2 | hja2
      · exfalso
        have hje : j2 = j := congrArg Prod.fst hja2
        subst hje
        rcases is_empty_false_exists (wf_and hwa hwB) h1 with ⟨i, hi⟩
        rw [get_and hwa hwB, get_setBit (wf_new _) j2 i, get_new] at hi
        by_cases hij : i = j2 ∧ j2 < ctx.n_properties
        · rcases hij with ⟨rfl, _⟩
          rw [if_pos ⟨rfl, hjn⟩, Bool.true_and] at hi
          rw [hBj2] at hi
          cases hi
        · rw [if_neg hij, Bool.false_and] at hi
          cases hi
      · exact hcpl j2 a2 hja2 hBj2 hlow2
    · rw [if_neg h1]
      by_cases h2 : ((Ns0.getD j default).and
          (((BitSet.new ctx.n_properties).setBit j).sub_one)).and B =
          (Ns0.getD j default).and
            (((BitSet.new ctx.n_properties).setBit j).sub_one)
      · rw [if_pos h2]
        by_cases h3 : ((ctx.prime_objects
            (A.and (ctx.extents.getD j default))).and
              (((BitSet.new ctx.n_properties).setBit j).sub_one)).and B =
            (ctx.prime_objects (A.and (ctx.extents.getD j default))).and
              (((BitSet.new ctx.n_properties).setBit j).sub_one)
        · rw [if_pos h3]
          rcases ih hltail Ns0 (((A.and (ctx.extents.getD j default),
              ctx.prime_objects (A.and (ctx.extents.getD j default))),
              j + 1, Ns0) :: stack0) hNs with ⟨hb, hcpl⟩
          refine ⟨?_, ?_⟩
          · intro f hf
            rcases hb f hf with hf2 | hf2
            · rcases List.mem_cons.mp hf2 with hf3 | hf3
              · exact Or.inr ⟨j, Ns0, hjn, hf3, hNs⟩
              · exact Or.inl hf3
            · exact Or.inr hf2
          · intro j2 a2 hja2 hBj2 hlow2
            rcases List.mem_cons.mp hja2 with hja2 | hja2
            · have hje : j2 = j := congrArg Prod.fst hja2
              subst hje
              exact ⟨Ns0, fcboFold_stack_mono ctx A B l Ns0 _ _
                (List.mem_cons_self _ _)⟩
            · exact hcpl j2 a2 hja2 hBj2 hlow2
        · rw [if_neg h3]
          have hNs2 : ∀ idx, idx < ctx.n_properties → NsEntryOK ctx B idx
              ((Ns0.set j (ctx.prime_objects
                (A.and (ctx.extents.getD j default)))).getD idx default) := by
            intro idx hidxn
            rw [getD_set]
            by_cases hidx : j = idx ∧ j < Ns0.length
            · rw [if_pos hidx]
              rcases hidx with ⟨rfl, _⟩
              right
              refine ⟨B, hwB, fun i hi => hi, ?_⟩
              rw [hAB, (prime_properties_or_atom hc hwB hjn).symm]
              rfl
            · rw [if_neg hidx]
              exact hNs idx hidxn
          rcases ih hltail _ stack0 hNs2 with ⟨hb, hcpl⟩
          refine ⟨hb, ?_⟩
          intro j2 a2 hja2 hBj2 hlow2
          rcases List.mem_cons.mp hja2 with hja2 | hja2
          · exfalso
            have hje : j2 = j := congrArg Prod.fst hja2
            subst hje
            apply h3
            have hwI : wfBitSet (ctx.prime_objects
                (A.and (ctx.extents.getD j2 default))) ctx.n_properties :=
              wf_prime_objects hc _
            have hwX : wfBitSet ((ctx.prime_objects
                (A.and (ctx.extents.getD j2 default))).and
                  (((BitSet.new ctx.n_properties).setBit j2).sub_one))
                ctx.n_properties := wf_and hwI (wf_sub_one hwa)
            apply wf_ext (wf_and hwX hwB) hwX
            intro i
            rw [get_and hwX hwB, get_and hwI (wf_sub_one hwa),
              get_sub_one_atom hjn i]
            by_cases hij : i < j2
            · have hm : decide (i < j2) = true := by simpa using hij
              rw [hm, Bool.and_true]
              cases hv : (ctx.prime_objects
                  (A.and (ctx.extents.getD j2 default))).get i
              · rfl
              · have hBi : B.get i = true := by
                  rw [← hlow2 i hij]
                  exact hv
                rw [hBi, Bool.true_and]
            · have hm : decide (i < j2) = false := by simpa using hij
              rw [hm, Bool.and_false, Bool.false_and]
          · exact hcpl j2 a2 hja2 hBj2 hlow2
      · rw [if_neg h2]
        rcases ih hltail Ns0 stack0 hNs with ⟨hb, hcpl⟩
        refine ⟨hb, ?_⟩
        intro j2 a2 hja2 hBj2 hlow2
        rcases List.mem_cons.mp hja2 with hja2 | hja2
        · exfalso
          have hje : j2 = j := congrArg Prod.fst hja2
          subst hje
          exact h2 (ns_xtest hc hwA hwB hAB hjn (hNs j2 hjn) hlow2)
        · exact hcpl j2 a2 hja2 hBj2 hlow2

theorem fcboLoop_result_mono (ctx : FcaContext) (jl : List (Nat × BitSet)) :
    ∀ (fuel : Nat) (stack : List FcboFrame) (result : List (Nat × Nat)),
      ∃ tail, (fcboLoop ctx jl fuel stack result).fst = result ++ tail := by
  intro fuel
  induction fuel with
  | zero =>
    intro stack result
    exact ⟨[], (List.append_nil result).symm⟩
  | succ fuel ih =>
    intro stack result
    rcases stack with _ | ⟨⟨c, y, Ns⟩, rest⟩
    · exact ⟨[], (List.append_nil result).symm⟩
    · rw [fcboLoop_cons]
      by_cases hstop : y = ctx.n_properties ∨ c.fst.is_empty = true
      · rw [if_pos hstop]
        rcases ih rest (result ++ [(c.fst.to_u128, c.snd.to_u128)]) with
          ⟨t, ht⟩
        exact ⟨(c.fst.to_u128, c.snd.to_u128) :: t, by
          rw [ht, List.append_assoc, List.singleton_append]⟩
      · rw [if_neg hstop]
        rcases ih (((jl.drop y).reverse).foldl
            (fcboInner ctx c.fst c.snd) (Ns, rest)).snd
            (result ++ [(c.fst.to_u128, c.snd.to_u128)]) with ⟨t, ht⟩
        exact ⟨(c.fst.to_u128, c.snd.to_u128) :: t, by
          rw [ht, List.append_assoc, List.singleton_append]⟩

/-- Completeness of the FCBO main loop: once the stack runs empty, every
canonical descendant of every stack frame has been emitted. -/
theorem fcboLoop_complete {ctx : FcaContext} (hc : wfCtx ctx) :
    ∀ (fuel : Nat) (stack : List FcboFrame) (result : List (Nat × Nat)),
      (∀ f ∈ stack, ConceptOK ctx f.1.1 f.1.2 ∧
        ∀ idx, idx < ctx.n_properties →
          NsEntryOK ctx f.1.2 idx (f.2.2.getD idx default)) →
      (fcboLoop ctx ((List.range ctx.n_properties).map
          (fun j => (j, (BitSet.new ctx.n_properties).setBit j)))
          fuel stack result).snd = [] →
      ∀ f ∈ stack, ∀ D,
        CanonDesc (pclose ctx) ctx.n_properties f.1.2 f.2.1 D →
        ((ctx.prime_properties D).to_u128, D.to_u128) ∈
          (fcboLoop ctx ((List.range ctx.n_properties).map
            (fun j => (j, (BitSet.new ctx.n_properties).setBit j)))
            fuel stack result).fst := by
  intro fuel
  induction fuel with
  | zero =>
    intro stack result hinv hdone f hf D hD
    have hstack : stack = [] := hdone
    rw [hstack] at hf
    exact absurd hf (List.not_mem_nil f)
  | succ fuel ih =>
    intro stack result hinv hdone f hf D hD
    rcases stack with _ | ⟨⟨⟨A, B⟩, y, Ns⟩, rest⟩
    · exact absurd hf (List.not_mem_nil f)
    have hokh := hinv (((A, B), y, Ns)) (List.mem_cons_self _ _)
    have hwA : wfBitSet A ctx.n_objects := hokh.1.1
    have hwB : wfBitSet B ctx.n_properties := hokh.1.2.1
    have hAB : A = ctx.prime_properties B := hokh.1.2.2.1
    have hBA : B = ctx.prime_objects A := hokh.1.2.2.2
    have hNs : ∀ idx, idx < ctx.n_properties →
        NsEntryOK ctx B idx (Ns.getD idx default) := hokh.2
    have hinvr : ∀ g ∈ rest, ConceptOK ctx g.1.1 g.1.2 ∧
        ∀ idx, idx < ctx.n_properties →
          NsEntryOK ctx g.1.2 idx (g.2.2.getD idx default) :=
      fun g hg => hinv g (List.mem_cons_of_mem _ hg)
    rw [fcboLoop_cons] at hdone ⊢
    by_cases hstop : y = ctx.n_properties ∨ A.is_empty = true
    · rw [if_pos hstop] at hdone ⊢
      rcases List.mem_cons.mp hf with hfh | hfr
      · have hD2 : CanonDesc (pclose ctx) ctx.n_properties B y D := by
          rw [hfh] at hD
          exact hD
        cases hD2 with
        | refl =>
          rcases fcboLoop_result_mono ctx
              ((List.range ctx.n_properties).map
                (fun j => (j, (BitSet.new ctx.n_properties).setBit j)))
              fuel rest (result ++ [(A.to_u128, D.to_u128)]) with ⟨t, ht⟩
          rw [ht]
          apply List.mem_append_left
          apply List.mem_append_right
          rw [← hAB]
          exact List.mem_singleton.mpr rfl
        | step hyj hjn2 hBj hC hBor2 hext2 hlow hD3 =>
          exfalso
          rcases hstop with hstop | hstop
          · omega
          · have hAe := is_empty_all_false hstop
            have hBsup : B = BitSet.supremum ctx.n_properties := by
              rw [hBA, prime_objects_of_empty ctx hAe]
            rw [hBsup, get_supremum] at hBj
            simp at hBj
            omega
      · exact ih rest (result ++ [(A.to_u128, B.to_u128)]) hinvr hdone
          f hfr D hD
    · rw [if_neg hstop] at hdone ⊢
      have hl : ∀ p ∈ ((((List.range ctx.n_properties).map
          (fun j2 => (j2, (BitSet.new ctx.n_properties).setBit j2))).drop
            y).reverse),
          p.2 = (BitSet.new ctx.n_properties).setBit p.1 ∧
          p.1 < ctx.n_properties := by
        intro p hp
        rcases jl_drop_mem ctx.n_properties y hp with ⟨h1, _, h3⟩
        exact ⟨h1, h3⟩
      rcases fcboFold_complete hc hwA hwB hAB
          ((((List.range ctx.n_properties).map
            (fun j2 => (j2, (BitSet.new ctx.n_properties).setBit j2))).drop
              y).reverse) hl Ns rest hNs with ⟨hb, hcpl⟩
      have hinvS : ∀ g ∈ (((((List.range ctx.n_properties).map
          (fun j2 => (j2, (BitSet.new ctx.n_properties).setBit j2))).drop
            y).reverse).foldl (fcboInner ctx A B) (Ns, rest)).snd,
          ConceptOK ctx g.1.1 g.1.2 ∧
          ∀ idx, idx < ctx.n_properties →
            NsEntryOK ctx g.1.2 idx (g.2.2.getD idx default) := by
        intro g hg
        rcases hb g hg with hg2 | ⟨j, Ns2, hjn, hge, hNs2⟩
        · exact hinvr g hg2
        · have hwa : wfBitSet ((BitSet.new ctx.n_properties).setBit j)
              ctx.n_properties := wf_setBit (wf_new _) j
          have hwor : wfBitSet
              (B.or ((BitSet.new ctx.n_properties).setBit j))
              ctx.n_properties := wf_or hwB hwa
          have hD4 : A.and (ctx.extents.getD j default) =
              ctx.prime_properties
                (B.or ((BitSet.new ctx.n_properties).setBit j)) := by
            rw [hAB]
            exact (prime_properties_or_atom hc hwB hjn).symm
          have hpp : ctx.prime_properties (ctx.prime_objects
              (A.and (ctx.extents.getD j default))) =
              A.and (ctx.extents.getD j default) := by
            rw [hD4]
            exact prime_triple_properties hc hwor
          have hwD : wfBitSet (A.and (ctx.extents.getD j default))
              ctx.n_objects := wf_and hwA (wf_getD_extents hc hjn)
          have hwI : wfBitSet
              (ctx.prime_objects (A.and (ctx.extents.getD j default)))
              ctx.n_properties := wf_prime_objects hc _
          have hBsubI : bsubset B
              (ctx.prime_objects (A.and (ctx.extents.getD j default))) := by
            have hIeq : ctx.prime_objects
                (A.and (ctx.extents.getD j default)) =
                pclose ctx (B.or ((BitSet.new ctx.n_properties).setBit j))
                := by
              rw [hD4]
              rfl
            rw [hIeq]
            intro i hi
            apply pclose_extensive hc hwor i
            rw [get_or hwB hwa, hi]
            rfl
          rw [hge]
          refine ⟨⟨hwD, hwI, hpp.symm, rfl⟩, ?_⟩
          intro idx hidx
          exact nsEntryOK_mono (hNs2 idx hidx) hBsubI
      rcases List.mem_cons.mp hf with hfh | hfr
      · have hD2 : CanonDesc (pclose ctx) ctx.n_properties B y D := by
          rw [hfh] at hD
          exact hD
        cases hD2 with
        | refl =>
          rcases fcboLoop_result_mono ctx
              ((List.range ctx.n_properties).map
                (fun j2 => (j2, (BitSet.new ctx.n_properties).setBit j2)))
              fuel
              (((((List.range ctx.n_properties).map
                (fun j2 => (j2, (BitSet.new ctx.n_properties).setBit
                  j2))).drop y).reverse).foldl (fcboInner ctx A D)
                  (Ns, rest)).snd
              (result ++ [(A.to_u128, D.to_u128)]) with ⟨t, ht⟩
          rw [ht]
          apply List.mem_append_left
          apply List.mem_append_right
          rw [← hAB]
          exact List.mem_singleton.mpr rfl
        | step hyj hjn2 hBj hC hBor2 hext2 hlow hD3 =>
          rename_i j C
          have hwa : wfBitSet ((BitSet.new ctx.n_properties).setBit j)
              ctx.n_properties := wf_setBit (wf_new _) j
          have hIeq : ctx.prime_objects
              (A.and (ctx.extents.getD j default)) =
              pclose ctx (B.or ((BitSet.new ctx.n_properties).setBit j))
              := by
            rw [hAB, (prime_properties_or_atom hc hwB hjn2).symm]
            rfl
          have hCI : C = ctx.prime_objects
              (A.and (ctx.extents.getD j default)) := by
            rw [hC, hIeq]
          have hlow2 : ∀ i, i < j →
              (ctx.prime_objects (A.and (ctx.extents.getD j default))).get i
                = B.get i := by
            intro i hi
            rw [← hCI]
            exact hlow i hi
          have hmem : ((j : Nat), (BitSet.new ctx.n_properties).setBit j) ∈
              ((((List.range ctx.n_properties).map
                (fun j2 => (j2, (BitSet.new ctx.n_properties).setBit
                  j2))).drop y).reverse) := by
            rw [List.mem_reverse, ← List.map_drop, range_drop]
            exact List.mem_map.mpr
              ⟨j, List.mem_range'.mpr ⟨j - y, by omega, by omega⟩, rfl⟩
          obtain ⟨Ns2, hframe⟩ := hcpl j
            ((BitSet.new ctx.n_properties).setBit j) hmem hBj hlow2
          have hDdesc : CanonDesc (pclose ctx) ctx.n_properties
              (ctx.prime_objects (A.and (ctx.extents.getD j default)))
              (j + 1) D := by
            rw [← hCI]
            exact hD3
          exact ih _ (result ++ [(A.to_u128, B.to_u128)]) hinvS hdone
            _ hframe D hDdesc
      · exact ih _ (result ++ [(A.to_u128, B.to_u128)]) hinvS hdone f
          (fcboFold_stack_mono ctx A B _ Ns rest f hfr) D hD

/-- A completed FCBO run emits exactly the `u128` encodings of the formal
concepts of the context. -/
theorem fcbo_char {ctx : FcaContext} (hc : wfCtx ctx) (fuel : Nat)
    (hdone : (fcbo_fast_generate_from ctx fuel).snd = []) (p : Nat × Nat) :
    p ∈ (fcbo_fast_generate_from ctx fuel).fst ↔
      ∃ A B, ConceptOK ctx A B ∧ p = (A.to_u128, B.to_u128) := by
  constructor
  · intro hp
    have hinv : FcboInv ctx []
        [((ctx.doubleprime_objects (BitSet.supremum ctx.n_objects)), 0,
          List.replicate ctx.n_properties (BitSet.new ctx.n_properties))]
        := by
      refine ⟨fun c hcm => absurd hcm (List.not_mem_nil _), ?_,
        List.Pairwise.nil,
        fun f hf D hD c hcm => absurd hcm (List.not_mem_nil _),
        List.pairwise_singleton _ _⟩
      intro f hf
      rcases List.mem_singleton.mp hf with rfl
      exact initial_conceptOK hc
    rcases fcboLoop_inv hc fuel _ [] hinv with ⟨L2, heq, hok2, _⟩
    have heq2 : (fcbo_fast_generate_from ctx fuel).fst =
        L2.map (fun c => (c.1.to_u128, c.2.to_u128)) := by
      rw [fcbo_eq_loop, j_atom_eq]
      exact heq
    rw [heq2] at hp
    rcases List.mem_map.mp hp with ⟨c, hcm, rfl⟩
    exact ⟨c.1, c.2, hok2 c hcm, rfl⟩
  · rintro ⟨A, B, hok, rfl⟩
    have hwA : wfBitSet A ctx.n_objects := hok.1
    have hwB : wfBitSet B ctx.n_properties := hok.2.1
    have hAB : A = ctx.prime_properties B := hok.2.2.1
    have hBA : B = ctx.prime_objects A := hok.2.2.2
    have hBc : pclose ctx B = B := by
      show ctx.prime_objects (ctx.prime_properties B) = B
      rw [← hAB]
      exact hBA.symm
    have hB0c : pclose ctx
        (ctx.prime_objects (BitSet.supremum ctx.n_objects)) =
        ctx.prime_objects (BitSet.supremum ctx.n_objects) := by
      show ctx.prime_objects (ctx.prime_properties (ctx.prime_objects
        (BitSet.supremum ctx.n_objects))) = _
      exact prime_triple_objects hc (wf_supremum _)
    have hsubsup : bsubset A (BitSet.supremum ctx.n_objects) := by
      intro t ht
      rw [get_supremum]
      have h1 := get_true_lt ht
      have h2 := hwA.1
      simp
      omega
    have hB0sub : bsubset
        (ctx.prime_objects (BitSet.supremum ctx.n_objects)) B := by
      rw [hBA]
      exact prime_objects_antitone hc hwA (wf_supremum _) hsubsup
    have hdesc : CanonDesc (pclose ctx) ctx.n_properties
        (ctx.prime_objects (BitSet.supremum ctx.n_objects)) 0 B :=
      canonPath_complete (fun X _ => wf_pclose hc X)
        (fun X hX => pclose_extensive hc hX)
        (fun X Y hX hY h => pclose_mono hc hX hY h)
        (fun X hX => pclose_idem hc hX) hwB hBc B.count
        (ctx.prime_objects (BitSet.supremum ctx.n_objects)) 0
        (wf_prime_objects hc _) hB0c hB0sub
        (fun i hi => absurd hi (Nat.not_lt_zero i)) (Nat.sub_le _ _)
    have hinit : ∀ f ∈ [((ctx.doubleprime_objects
        (BitSet.supremum ctx.n_objects)), 0,
        List.replicate ctx.n_properties (BitSet.new ctx.n_properties))],
        ConceptOK ctx f.1.1 f.1.2 ∧
        ∀ idx, idx < ctx.n_properties →
          NsEntryOK ctx f.1.2 idx (f.2.2.getD idx default) := by
      intro f hf
      rcases List.mem_singleton.mp hf with rfl
      refine ⟨initial_conceptOK hc, ?_⟩
      intro idx hidx
      left
      show (List.replicate ctx.n_properties
        (BitSet.new ctx.n_properties)).getD idx default =
        BitSet.new ctx.n_properties
      rw [getD_replicate, if_pos hidx]
    have hdone2 : (fcboLoop ctx ((List.range ctx.n_properties).map
        (fun j => (j, (BitSet.new ctx.n_properties).setBit j))) fuel
        [((ctx.doubleprime_objects (BitSet.supremum ctx.n_objects)), 0,
          List.replicate ctx.n_properties (BitSet.new ctx.n_properties))]
        []).snd = [] := by
      rw [fcbo_eq_loop, j_atom_eq] at hdone
      exact hdone
    have hm := fcboLoop_complete hc fuel
        [((ctx.doubleprime_objects (BitSet.supremum ctx.n_objects)), 0,
          List.replicate ctx.n_properties (BitSet.new ctx.n_properties))]
        [] hinit hdone2 _ (List.mem_singleton.mpr rfl) B hdesc
    rw [fcbo_eq_loop, j_atom_eq, hAB]
    exact hm

/-! ### Completeness of the dual Close-by-One search -/

/-- Invariant of one entry of the dual failed-closure list: either still the
initial empty set, or the extent closure of some subset of the current extent
extended by the entry's pivot atom. -/
def NsDualEntryOK (ctx : FcaContext) (A : BitSet) (j : Nat) (N : BitSet) :
    Prop :=
  N = BitSet.new ctx.n_objects ∨
  ∃ A2, wfBitSet A2 ctx.n_objects ∧ bsubset A2 A ∧
    N = oclose ctx (A2.or ((BitSet.new ctx.n_objects).setBit j))

theorem nsDualEntryOK_mono {ctx : FcaContext} {A A3 : BitSet} {j : Nat}
    {N : BitSet} (h : NsDualEntryOK ctx A j N) (hsub : bsubset A A3) :
    NsDualEntryOK ctx A3 j N := by
  rcases h with h | ⟨A2, hw2, hs2, he2⟩
  · exact Or.inl h
  · exact Or.inr ⟨A2, hw2, fun i hi => hsub i (hs2 i hi), he2⟩

theorem wf_nsDualEntry {ctx : FcaContext} (hc : wfCtx ctx) {A : BitSet}
    {j : Nat} {N : BitSet} (h : NsDualEntryOK ctx A j N) :
    wfBitSet N ctx.n_objects := by
  rcases h with h | ⟨A2, hw2, hs2, he2⟩
  · rw [h]
    exact wf_new _
  · rw [he2]
    exact wf_oclose hc _

/-- A canonical pivot always passes the dual FCBO exclusion (`x`) test. -/
theorem ns_dual_xtest {ctx : FcaContext} (hc : wfCtx ctx) {A B : BitSet}
    (hwA : wfBitSet A ctx.n_objects) (hwB : wfBitSet B ctx.n_properties)
    (hBA : B = ctx.prime_objects A) {j : Nat} (hj : j < ctx.n_objects)
    {N : BitSet} (hN : NsDualEntryOK ctx A j N)
    (hlow : ∀ i, i < j →
      (ctx.prime_properties (B.and (ctx.intents.getD j default))).get i =
        A.get i) :
    (N.and (((BitSet.new ctx.n_objects).setBit j).sub_one)).and A =
      N.and (((BitSet.new ctx.n_objects).setBit j).sub_one) := by
  have hwa : wfBitSet ((BitSet.new ctx.n_objects).setBit j)
      ctx.n_objects := wf_setBit (wf_new _) j
  have hwN : wfBitSet N ctx.n_objects := wf_nsDualEntry hc hN
  have hwX : wfBitSet (N.and (((BitSet.new ctx.n_objects).setBit j).sub_one))
      ctx.n_objects := wf_and hwN (wf_sub_one hwa)
  apply wf_ext (wf_and hwX hwA) hwX
  intro i
  rw [get_and hwX hwA, get_and hwN (wf_sub_one hwa), get_sub_one_atom hj i]
  by_cases hij : i < j
  · have hm : decide (i < j) = true := by simpa using hij
    rw [hm, Bool.and_true]
    cases hv : N.get i
    · rfl
    · have hAi : A.get i = true := by
        rcases hN with hN | ⟨A2, hw2, hs2, he2⟩
        · rw [hN, get_new] at hv
          cases hv
        · have hwa2 : wfBitSet
              (A2.or ((BitSet.new ctx.n_objects).setBit j))
              ctx.n_objects := wf_or hw2 hwa
          have hwb2 : wfBitSet
              (A.or ((BitSet.new ctx.n_objects).setBit j))
              ctx.n_objects := wf_or hwA hwa
          have hsub : bsubset (A2.or ((BitSet.new ctx.n_objects).setBit j))
              (A.or ((BitSet.new ctx.n_objects).setBit j)) := by
            intro t ht
            rw [get_or hw2 hwa] at ht
            rw [get_or hwA hwa]
            rcases Bool.or_eq_true_iff.mp ht with ht | ht
            · rw [hs2 t ht]
              rfl
            · rw [ht, Bool.or_true]
          have hmono := oclose_mono hc hwa2 hwb2 hsub
          rw [← he2] at hmono
          have hicl := hmono i hv
          have hIeq : ctx.prime_properties
              (B.and (ctx.intents.getD j default)) =
              oclose ctx (A.or ((BitSet.new ctx.n_objects).setBit j)) := by
            rw [hBA, (prime_objects_or_atom hc hwA hj).symm]
            rfl
          rw [← hIeq] at hicl
          rw [← hlow i hij]
          exact hicl
      rw [hAi, Bool.true_and]
  · have hm : decide (i < j) = false := by simpa using hij
    rw [hm, Bool.and_false, Bool.false_and]

theorem fcboDualFold_stack_mono (ctx : FcaContext) (A B : BitSet) :
    ∀ (l : List (Nat × BitSet)) (Ns0 : List BitSet)
      (stack0 : List FcboFrame) (f : FcboFrame), f ∈ stack0 →
      f ∈ (l.foldl (fcboDualInner ctx A B) (Ns0, stack0)).snd := by
  intro l
  induction l with
  | nil =>
    intro Ns0 stack0 f hf
    exact hf
  | cons ja l ih =>
    intro Ns0 stack0 f hf
    rcases ja with ⟨j, a⟩
    rw [List.foldl_cons, fcboDualInner_eq]
    by_cases h1 : (A.and a).is_empty = false
    · rw [if_pos h1]
      exact ih Ns0 stack0 f hf
    · rw [if_neg h1]
      by_cases h2 : ((Ns0.getD j default).and a.sub_one).and A =
          (Ns0.getD j default).and a.sub_one
      · rw [if_pos h2]
        by_cases h3 : ((ctx.prime_properties
            (B.and (ctx.intents.getD j default))).and a.sub_one).and A =
            (ctx.prime_properties (B.and (ctx.intents.getD j default))).and
              a.sub_one
        · rw [if_pos h3]
          exact ih Ns0 _ f (List.mem_cons_of_mem _ hf)
        · rw [if_neg h3]
          exact ih _ stack0 f hf
      · rw [if_neg h2]
        exact ih Ns0 stack0 f hf

/-- Completeness of one dual expansion pass. -/
theorem fcboDualFold_complete {ctx : FcaContext} (hc : wfCtx ctx)
    {A B : BitSet} (hwA : wfBitSet A ctx.n_objects)
    (hwB : wfBitSet B ctx.n_properties)
    (hBA : B = ctx.prime_objects A) :
    ∀ (l : List (Nat × BitSet)),
      (∀ p ∈ l, p.2 = (BitSet.new ctx.n_objects).setBit p.1 ∧
        p.1 < ctx.n_objects) →
    ∀ (Ns0 : List BitSet) (stack0 : List FcboFrame),
      (∀ idx, idx < ctx.n_objects →
        NsDualEntryOK ctx A idx (Ns0.getD idx default)) →
      (∀ f ∈ (l.foldl (fcboDualInner ctx A B) (Ns0, stack0)).snd,
        f ∈ stack0 ∨
        ∃ j Ns2, j < ctx.n_objects ∧
          f = ((ctx.prime_properties (B.and (ctx.intents.getD j default)),
            B.and (ctx.intents.getD j default)),
            j + 1, Ns2) ∧
          (∀ idx, idx < ctx.n_objects →
            NsDualEntryOK ctx A idx (Ns2.getD idx default))) ∧
      (∀ j a, (j, a) ∈ l → A.get j = false →
        (∀ i, i < j →
          (ctx.prime_properties (B.and (ctx.intents.getD j default))).get i =
            A.get i) →
        ∃ Ns2, ((ctx.prime_properties (B.and (ctx.intents.getD j default)),
          B.and (ctx.intents.getD j default)),
          j + 1, Ns2) ∈ (l.foldl (fcboDualInner ctx A B) (Ns0, stack0)).snd)
      := by
  intro l
  induction l with
  | nil =>
    intro _ Ns0 stack0 hNs
    refine ⟨fun f hf => Or.inl hf, ?_⟩
    intro j a hja
    exact absurd hja (List.not_mem_nil _)
  | cons ja l ih =>
    intro hl Ns0 stack0 hNs
    rcases ja with ⟨j, a⟩
    have hhead := hl (j, a) (List.mem_cons_self _ _)
    have hae : a = (BitSet.new ctx.n_objects).setBit j := hhead.1
    have hjn : j < ctx.n_objects := hhead.2
    subst hae
    have hltail : ∀ p ∈ l, p.2 = (BitSet.new ctx.n_objects).setBit p.1 ∧
        p.1 < ctx.n_objects := fun p hp => hl p (List.mem_cons_of_mem _ hp)
    have hwa : wfBitSet ((BitSet.new ctx.n_objects).setBit j)
        ctx.n_objects := wf_setBit (wf_new _) j
    rw [List.foldl_cons, fcboDualInner_eq]
    by_cases h1 : (A.and ((BitSet.new ctx.n_objects).setBit j)).is_empty
        = false
    · rw [if_pos h1]
      rcases ih hltail Ns0 stack0 hNs with ⟨hb, hcpl⟩
      refine ⟨hb, ?_⟩
      intro j2 a2 hja2 hAj2 hlow2
      rcases List.mem_cons.mp hja2 with hja2 | hja2
      · exfalso
        have hje : j2 = j := congrArg Prod.fst hja2
        subst hje
        rcases is_empty_false_exists (wf_and hwA hwa) h1 with ⟨i, hi⟩
        rw [get_and hwA hwa, get_setBit (wf_new _) j2 i, get_new] at hi
        by_cases hij : i = j2 ∧ j2 < ctx.n_objects
        · rcases hij with ⟨rfl, _⟩
          rw [if_pos ⟨rfl, hjn⟩, Bool.and_true] at hi
          rw [hAj2] at hi
          cases hi
        · rw [if_neg hij, Bool.and_false] at hi
          cases hi
      · exact hcpl j2 a2 hja2 hAj2 hlow2
    · rw [if_neg h1]
      by_cases h2 : ((Ns0.getD j default).and
          (((BitSet.new ctx.n_objects).setBit j).sub_one)).and A =
          (Ns0.getD j default).and
            (((BitSet.new ctx.n_objects).setBit j).sub_one)
      · rw [if_pos h2]
        by_cases h3 : ((ctx.prime_properties
            (B.and (ctx.intents.getD j default))).and
              (((BitSet.new ctx.n_objects).setBit j).sub_one)).and A =
            (ctx.prime_properties (B.and (ctx.intents.getD j default))).and
              (((BitSet.new ctx.n_objects).setBit j).sub_one)
        · rw [if_pos h3]
          rcases ih hltail Ns0
              (((ctx.prime_properties (B.and (ctx.intents.getD j default)),
                B.and (ctx.intents.getD j default)),
                j + 1, Ns0) :: stack0) hNs with ⟨hb, hcpl⟩
          refine ⟨?_, ?_⟩
          · intro f hf
            rcases hb f hf with hf2 | hf2
            · rcases List.mem_cons.mp hf2 with hf3 | hf3
              · exact Or.inr ⟨j, Ns0, hjn, hf3, hNs⟩
              · exact Or.inl hf3
            · exact Or.inr hf2
          · intro j2 a2 hja2 hAj2 hlow2
            rcases List.mem_cons.mp hja2 with hja2 | hja2
            · have hje : j2 = j := congrArg Prod.fst hja2
              subst hje
              exact ⟨Ns0, fcboDualFold_stack_mono ctx A B l Ns0 _ _
                (List.mem_cons_self _ _)⟩
            · exact hcpl j2 a2 hja2 hAj2 hlow2
        · rw [if_neg h3]
          have hNs2 : ∀ idx, idx < ctx.n_objects → NsDualEntryOK ctx A idx
              ((Ns0.set j (ctx.prime_properties
                (B.and (ctx.intents.getD j default)))).getD idx default)
              := by
            intro idx hidxn
            rw [getD_set]
            by_cases hidx : j = idx ∧ j < Ns0.length
            · rw [if_pos hidx]
              rcases hidx with ⟨rfl, _⟩
              right
              refine ⟨A, hwA, fun i hi => hi, ?_⟩
              rw [hBA, (prime_objects_or_atom hc hwA hjn).symm]
              rfl
            · rw [if_neg hidx]
              exact hNs idx hidxn
          rcases ih hltail _ stack0 hNs2 with ⟨hb, hcpl⟩
          refine ⟨hb, ?_⟩
          intro j2 a2 hja2 hAj2 hlow2
          rcases List.mem_cons.mp hja2 with hja2 | hja2
          · exfalso
            have hje : j2 = j := congrArg Prod.fst hja2
            subst hje
            apply h3
            have hwI : wfBitSet (ctx.prime_properties
                (B.and (ctx.intents.getD j2 default))) ctx.n_objects :=
              wf_prime_properties hc _
            have hwX : wfBitSet ((ctx.prime_properties
                (B.and (ctx.intents.getD j2 default))).and
                  (((BitSet.new ctx.n_objects).setBit j2).sub_one))
                ctx.n_objects := wf_and hwI (wf_sub_one hwa)
            apply wf_ext (wf_and hwX hwA) hwX
            intro i
            rw [get_and hwX hwA, get_and hwI (wf_sub_one hwa),
              get_sub_one_atom hjn i]
            by_cases hij : i < j2
            · have hm : decide (i < j2) = true := by simpa using hij
              rw [hm, Bool.and_true]
              cases hv : (ctx.prime_properties
                  (B.and (ctx.intents.getD j2 default))).get i
              · rfl
              · have hAi : A.get i = true := by
                  rw [← hlow2 i hij]
                  exact hv
                rw [hAi, Bool.true_and]
            · have hm : decide (i < j2) = false := by simpa using hij
              rw [hm, Bool.and_false, Bool.false_and]
          · exact hcpl j2 a2 hja2 hAj2 hlow2
      · rw [if_neg h2]
        rcases ih hltail Ns0 stack0 hNs with ⟨hb, hcpl⟩
        refine ⟨hb, ?_⟩
        intro j2 a2 hja2 hAj2 hlow2
        rcases List.mem_cons.mp hja2 with hja2 | hja2
        · exfalso
          have hje : j2 = j := congrArg Prod.fst hja2
          subst hje
          exact h2 (ns_dual_xtest hc hwA hwB hBA hjn (hNs j2 hjn) hlow2)
        · exact hcpl j2 a2 hja2 hAj2 hlow2

theorem fcboDualLoop_result_mono (ctx : FcaContext)
    (jl : List (Nat × BitSet)) :
    ∀ (fuel : Nat) (stack : List FcboFrame) (result : List (Nat × Nat)),
      ∃ tail, (fcboDualLoop ctx jl fuel stack result).fst = result ++ tail
      := by
  intro fuel
  induction fuel with
  | zero =>
    intro stack result
    exact ⟨[], (List.append_nil result).symm⟩
  | succ fuel ih =>
    intro stack result
    rcases stack with _ | ⟨⟨c, y, Ns⟩, rest⟩
    · exact ⟨[], (List.append_nil result).symm⟩
    · rw [fcboDualLoop_cons]
      by_cases hstop : y = ctx.n_objects ∨ c.snd.is_empty = true
      · rw [if_pos hstop]
        rcases ih rest (result ++ [(c.fst.to_u128, c.snd.to_u128)]) with
          ⟨t, ht⟩
        exact ⟨(c.fst.to_u128, c.snd.to_u128) :: t, by
          rw [ht, List.append_assoc, List.singleton_append]⟩
      · rw [if_neg hstop]
        rcases ih (((jl.drop y).reverse).foldl
            (fcboDualInner ctx c.fst c.snd) (Ns, rest)).snd
            (result ++ [(c.fst.to_u128, c.snd.to_u128)]) with ⟨t, ht⟩
        exact ⟨(c.fst.to_u128, c.snd.to_u128) :: t, by
          rw [ht, List.append_assoc, List.singleton_append]⟩

/-- Completeness of the dual FCBO main loop. -/
theorem fcboDualLoop_complete {ctx : FcaContext} (hc : wfCtx ctx) :
    ∀ (fuel : Nat) (stack : List FcboFrame) (result : List (Nat × Nat)),
      (∀ f ∈ stack, ConceptOK ctx f.1.1 f.1.2 ∧
        ∀ idx, idx < ctx.n_objects →
          NsDualEntryOK ctx f.1.1 idx (f.2.2.getD idx default)) →
      (fcboDualLoop ctx ((List.range ctx.n_objects).map
          (fun j => (j, (BitSet.new ctx.n_objects).setBit j)))
          fuel stack result).snd = [] →
      ∀ f ∈ stack, ∀ D,
        CanonDesc (oclose ctx) ctx.n_objects f.1.1 f.2.1 D →
        (D.to_u128, (ctx.prime_objects D).to_u128) ∈
          (fcboDualLoop ctx ((List.range ctx.n_objects).map
            (fun j => (j, (BitSet.new ctx.n_objects).setBit j)))
            fuel stack result).fst := by
  intro fuel
  induction fuel with
  | zero =>
    intro stack result hinv hdone f hf D hD
    have hstack : stack = [] := hdone
    rw [hstack] at hf
    exact absurd hf (List.not_mem_nil f)
  | succ fuel ih =>
    intro stack result hinv hdone f hf D hD
    rcases stack with _ | ⟨⟨⟨A, B⟩, y, Ns⟩, rest⟩
    · exact absurd hf (List.not_mem_nil f)
    have hokh := hinv (((A, B), y, Ns)) (List.mem_cons_self _ _)
    have hwA : wfBitSet A ctx.n_objects := hokh.1.1
    have hwB : wfBitSet B ctx.n_properties := hokh.1.2.1
    have hAB : A = ctx.prime_properties B := hokh.1.2.2.1
    have hBA : B = ctx.prime_objects A := hokh.1.2.2.2
    have hNs : ∀ idx, idx < ctx.n_objects →
        NsDualEntryOK ctx A idx (Ns.getD idx default) := hokh.2
    have hinvr : ∀ g ∈ rest, ConceptOK ctx g.1.1 g.1.2 ∧
        ∀ idx, idx < ctx.n_objects →
          NsDualEntryOK ctx g.1.1 idx (g.2.2.getD idx default) :=
      fun g hg => hinv g (List.mem_cons_of_mem _ hg)
    rw [fcboDualLoop_cons] at hdone ⊢
    by_cases hstop : y = ctx.n_objects ∨ B.is_empty = true
    · rw [if_pos hstop] at hdone ⊢
      rcases List.mem_cons.mp hf with hfh | hfr
      · have hD2 : CanonDesc (oclose ctx) ctx.n_objects A y D := by
          rw [hfh] at hD
          exact hD
        cases hD2 with
        | refl =>
          rcases fcboDualLoop_result_mono ctx
              ((List.range ctx.n_objects).map
                (fun j => (j, (BitSet.new ctx.n_objects).setBit j)))
              fuel rest (result ++ [(D.to_u128, B.to_u128)]) with ⟨t, ht⟩
          rw [ht]
          apply List.mem_append_left
          apply List.mem_append_right
          rw [← hBA]
          exact List.mem_singleton.mpr rfl
        | step hyj hjn2 hAj hC hBor2 hext2 hlow hD3 =>
          exfalso
          rcases hstop with hstop | hstop
          · omega
          · have hBe := is_empty_all_false hstop
            have hAsup : A = BitSet.supremum ctx.n_objects := by
              rw [hAB, prime_properties_of_empty ctx hBe]
            rw [hAsup, get_supremum] at hAj
            simp at hAj
            omega
      · exact ih rest (result ++ [(A.to_u128, B.to_u128)]) hinvr hdone
          f hfr D hD
    · rw [if_neg hstop] at hdone ⊢
      have hl : ∀ p ∈ ((((List.range ctx.n_objects).map
          (fun j2 => (j2, (BitSet.new ctx.n_objects).setBit j2))).drop
            y).reverse),
          p.2 = (BitSet.new ctx.n_objects).setBit p.1 ∧
          p.1 < ctx.n_objects := by
        intro p hp
        rcases jl_drop_mem ctx.n_objects y hp with ⟨h1, _, h3⟩
        exact ⟨h1, h3⟩
      rcases fcboDualFold_complete hc hwA hwB hBA
          ((((List.range ctx.n_objects).map
            (fun j2 => (j2, (BitSet.new ctx.n_objects).setBit j2))).drop
              y).reverse) hl Ns rest hNs with ⟨hb, hcpl⟩
      have hinvS : ∀ g ∈ (((((List.range ctx.n_objects).map
          (fun j2 => (j2, (BitSet.new ctx.n_objects).setBit j2))).drop
            y).reverse).foldl (fcboDualInner ctx A B) (Ns, rest)).snd,
          ConceptOK ctx g.1.1 g.1.2 ∧
          ∀ idx, idx < ctx.n_objects →
            NsDualEntryOK ctx g.1.1 idx (g.2.2.getD idx default) := by
        intro g hg
        rcases hb g hg with hg2 | ⟨j, Ns2, hjn, hge, hNs2⟩
        · exact hinvr g hg2
        · have hwa : wfBitSet ((BitSet.new ctx.n_objects).setBit j)
              ctx.n_objects := wf_setBit (wf_new _) j
          have hwor : wfBitSet
              (A.or ((BitSet.new ctx.n_objects).setBit j))
              ctx.n_objects := wf_or hwA hwa
          have hD4 : B.and (ctx.intents.getD j default) =
              ctx.prime_objects
                (A.or ((BitSet.new ctx.n_objects).setBit j)) := by
            rw [hBA]
            exact (prime_objects_or_atom hc hwA hjn).symm
          have hpp : ctx.prime_objects (ctx.prime_properties
              (B.and (ctx.intents.getD j default))) =
              B.and (ctx.intents.getD j default) := by
            rw [hD4]
            exact prime_triple_objects hc hwor
          have hwD : wfBitSet (B.and (ctx.intents.getD j default))
              ctx.n_properties := wf_and hwB (wf_getD_intents hc hjn)
          have hwI : wfBitSet
              (ctx.prime_properties (B.and (ctx.intents.getD j default)))
              ctx.n_objects := wf_prime_properties hc _
          have hAsubI : bsubset A
              (ctx.prime_properties (B.and (ctx.intents.getD j default)))
              := by
            have hIeq : ctx.prime_properties
                (B.and (ctx.intents.getD j default)) =
                oclose ctx (A.or ((BitSet.new ctx.n_objects).setBit j))
                := by
              rw [hD4]
              rfl
            rw [hIeq]
            intro i hi
            apply oclose_extensive hc hwor i
            rw [get_or hwA hwa, hi]
            rfl
          rw [hge]
          refine ⟨⟨hwI, hwD, rfl, hpp.symm⟩, ?_⟩
          intro idx hidx
          exact nsDualEntryOK_mono (hNs2 idx hidx) hAsubI
      rcases List.mem_cons.mp hf with hfh | hfr
      · have hD2 : CanonDesc (oclose ctx) ctx.n_objects A y D := by
          rw [hfh] at hD
          exact hD
        cases hD2 with
        | refl =>
          rcases fcboDualLoop_result_mono ctx
              ((List.range ctx.n_objects).map
                (fun j2 => (j2, (BitSet.new ctx.n_objects).setBit j2)))
              fuel
              (((((List.range ctx.n_objects).map
                (fun j2 => (j2, (BitSet.new ctx.n_objects).setBit
                  j2))).drop y).reverse).foldl (fcboDualInner ctx D B)
                  (Ns, rest)).snd
              (result ++ [(D.to_u128, B.to_u128)]) with ⟨t, ht⟩
          rw [ht]
          apply List.mem_append_left
          apply List.mem_append_right
          rw [← hBA]
          exact List.mem_singleton.mpr rfl
        | step hyj hjn2 hAj hC hBor2 hext2 hlow hD3 =>
          rename_i j C
          have hwa : wfBitSet ((BitSet.new ctx.n_objects).setBit j)
              ctx.n_objects := wf_setBit (wf_new _) j
          have hIeq : ctx.prime_properties
              (B.and (ctx.intents.getD j default)) =
              oclose ctx (A.or ((BitSet.new ctx.n_objects).setBit j))
              := by
            rw [hBA, (prime_objects_or_atom hc hwA hjn2).symm]
            rfl
          have hCI : C = ctx.prime_properties
              (B.and (ctx.intents.getD j default)) := by
            rw [hC, hIeq]
          have hlow2 : ∀ i, i < j →
              (ctx.prime_properties
                (B.and (ctx.intents.getD j default))).get i = A.get i := by
            intro i hi
            rw [← hCI]
            exact hlow i hi
          have hmem : ((j : Nat), (BitSet.new ctx.n_objects).setBit j) ∈
              ((((List.range ctx.n_objects).map
                (fun j2 => (j2, (BitSet.new ctx.n_objects).setBit
                  j2))).drop y).reverse) := by
            rw [List.mem_reverse, ← List.map_drop, range_drop]
            exact List.mem_map.mpr
              ⟨j, List.mem_range'.mpr ⟨j - y, by omega, by omega⟩, rfl⟩
          obtain ⟨Ns2, hframe⟩ := hcpl j
            ((BitSet.new ctx.n_objects).setBit j) hmem hAj hlow2
          have hDdesc : CanonDesc (oclose ctx) ctx.n_objects
              (ctx.prime_properties (B.and (ctx.intents.getD j default)))
              (j + 1) D := by
            rw [← hCI]
            exact hD3
          exact ih _ (result ++ [(A.to_u128, B.to_u128)]) hinvS hdone
            _ hframe D hDdesc
      · exact ih _ (result ++ [(A.to_u128, B.to_u128)]) hinvS hdone f
          (fcboDualFold_stack_mono ctx A B _ Ns rest f hfr) D hD

/-- A completed dual FCBO run emits exactly the `u128` encodings of the
formal concepts of the context. -/
theorem fcbo_dual_char {ctx : FcaContext} (hc : wfCtx ctx) (fuel : Nat)
    (hdone : (fcbo_dual ctx fuel).snd = []) (p : Nat × Nat) :
    p ∈ (fcbo_dual ctx fuel).fst ↔
      ∃ A B, ConceptOK ctx A B ∧ p = (A.to_u128, B.to_u128) := by
  constructor
  · intro hp
    have hinv : FcboDualInv ctx []
        [((ctx.doubleprime_objects (BitSet.new ctx.n_objects)), 0,
          List.replicate ctx.n_objects (BitSet.new ctx.n_objects))] := by
      refine ⟨fun c hcm => absurd hcm (List.not_mem_nil _), ?_,
        List.Pairwise.nil,
        fun f hf D hD c hcm => absurd hcm (List.not_mem_nil _),
        List.pairwise_singleton _ _⟩
      intro f hf
      rcases List.mem_singleton.mp hf with rfl
      exact initial_dual_conceptOK hc
    rcases fcboDualLoop_inv hc fuel _ [] hinv with ⟨L2, heq, hok2, _⟩
    have heq2 : (fcbo_dual ctx fuel).fst =
        L2.map (fun c => (c.1.to_u128, c.2.to_u128)) := by
      rw [fcbo_dual_eq_loop, j_atom_eq]
      exact heq
    rw [heq2] at hp
    rcases List.mem_map.mp hp with ⟨c, hcm, rfl⟩
    exact ⟨c.1, c.2, hok2 c hcm, rfl⟩
  · rintro ⟨A, B, hok, rfl⟩
    have hwA : wfBitSet A ctx.n_objects := hok.1
    have hwB : wfBitSet B ctx.n_properties := hok.2.1
    have hAB : A = ctx.prime_properties B := hok.2.2.1
    have hBA : B = ctx.prime_objects A := hok.2.2.2
    have hAc : oclose ctx A = A := by
      show ctx.prime_properties (ctx.prime_objects A) = A
      rw [← hBA]
      exact hAB.symm
    have hA0c : oclose ctx
        (ctx.prime_properties (ctx.prime_objects
          (BitSet.new ctx.n_objects))) =
        ctx.prime_properties (ctx.prime_objects
          (BitSet.new ctx.n_objects)) := by
      show ctx.prime_properties (ctx.prime_objects (ctx.prime_properties
        (ctx.prime_objects (BitSet.new ctx.n_objects)))) = _
      exact prime_triple_properties hc (wf_prime_objects hc _)
    have hsub0 : bsubset (BitSet.new ctx.n_objects) A := by
      intro t ht
      rw [get_new] at ht
      cases ht
    have hA0sub : bsubset
        (ctx.prime_properties (ctx.prime_objects
          (BitSet.new ctx.n_objects))) A := by
      have hm := oclose_mono hc (wf_new _) hwA hsub0
      rw [hAc] at hm
      exact hm
    have hdesc : CanonDesc (oclose ctx) ctx.n_objects
        (ctx.prime_properties (ctx.prime_objects
          (BitSet.new ctx.n_objects))) 0 A :=
      canonPath_complete (fun X _ => wf_oclose hc X)
        (fun X hX => oclose_extensive hc hX)
        (fun X Y hX hY h => oclose_mono hc hX hY h)
        (fun X hX => oclose_idem hc hX) hwA hAc A.count
        (ctx.prime_properties (ctx.prime_objects
          (BitSet.new ctx.n_objects))) 0
        (wf_prime_properties hc _) hA0c hA0sub
        (fun i hi => absurd hi (Nat.not_lt_zero i)) (Nat.sub_le _ _)
    have hinit : ∀ f ∈ [((ctx.doubleprime_objects
        (BitSet.new ctx.n_objects)), 0,
        List.replicate ctx.n_objects (BitSet.new ctx.n_objects))],
        ConceptOK ctx f.1.1 f.1.2 ∧
        ∀ idx, idx < ctx.n_objects →
          NsDualEntryOK ctx f.1.1 idx (f.2.2.getD idx default) := by
      intro f hf
      rcases List.mem_singleton.mp hf with rfl
      refine ⟨initial_dual_conceptOK hc, ?_⟩
      intro idx hidx
      left
      show (List.replicate ctx.n_objects
        (BitSet.new ctx.n_objects)).getD idx default =
        BitSet.new ctx.n_objects
      rw [getD_replicate, if_pos hidx]
    have hdone2 : (fcboDualLoop ctx ((List.range ctx.n_objects).map
        (fun j => (j, (BitSet.new ctx.n_objects).setBit j))) fuel
        [((ctx.doubleprime_objects (BitSet.new ctx.n_objects)), 0,
          List.replicate ctx.n_objects (BitSet.new ctx.n_objects))]
        []).snd = [] := by
      rw [fcbo_dual_eq_loop, j_atom_eq] at hdone
      exact hdone
    have hm := fcboDualLoop_complete hc fuel
        [((ctx.doubleprime_objects (BitSet.new ctx.n_objects)), 0,
          List.replicate ctx.n_objects (BitSet.new ctx.n_objects))]
        [] hinit hdone2 _ (List.mem_singleton.mpr rfl) A hdesc
    rw [fcbo_dual_eq_loop, j_atom_eq, hBA]
    exact hm

/-! ### Completeness of the Lindig lattice construction -/

theorem popMin_none_nil : ∀ {l : List HeapEntry}, popMin l = none →
    l = [] := by
  intro l h
  cases l with
  | nil => rfl
  | cons a as =>
    exfalso
    unfold popMin at h
    rcases h3 : popMin as with _ | ⟨m, r⟩
    · rw [h3] at h
      cases h
    · rw [h3] at h
      have h4 : (if keyLt m.shortlex_key a.shortlex_key = true
          then some (m, a :: r) else some (a, as)) = none := h
      by_cases hk : keyLt m.shortlex_key a.shortlex_key = true
      · rw [if_pos hk] at h4
        cases h4
      · rw [if_neg hk] at h4
        cases h4

theorem popMin_cover : ∀ {l : List HeapEntry} {e : HeapEntry}
    {rest : List HeapEntry}, popMin l = some (e, rest) →
    ∀ x ∈ l, x = e ∨ x ∈ rest := by
  intro l
  induction l with
  | nil =>
    intro e rest h
    cases h
  | cons a as ih =>
    intro e rest h
    unfold popMin at h
    rcases hrec : popMin as with _ | ⟨m, r⟩
    · rw [hrec] at h
      cases h
      intro x hx
      have hnil : as = [] := popMin_none_nil hrec
      subst hnil
      rcases List.mem_cons.mp hx with rfl | hx2
      · exact Or.inl rfl
      · exact absurd hx2 (List.not_mem_nil _)
    · rw [hrec] at h
      have h2 : (if keyLt m.shortlex_key a.shortlex_key = true
          then some (m, a :: r) else some (a, as)) = some (e, rest) := h
      by_cases hk : keyLt m.shortlex_key a.shortlex_key = true
      · rw [if_pos hk] at h2
        cases h2
        intro x hx
        rcases List.mem_cons.mp hx with rfl | hx2
        · exact Or.inr (List.mem_cons_self _ _)
        · rcases ih hrec x hx2 with rfl | hx3
          · exact Or.inl rfl
          · exact Or.inr (List.mem_cons_of_mem _ hx3)
      · rw [if_neg hk] at h2
        cases h2
        intro x hx
        rcases List.mem_cons.mp hx with rfl | hx2
        · exact Or.inl rfl
        · exact Or.inr hx2

theorem nstate_fst_mono {ctx : FcaContext} {A : BitSet} (k k2 : Nat)
    (hk : k ≤ k2) :
    ∀ EI ∈ (nstate ctx A k).fst, EI ∈ (nstate ctx A k2).fst := by
  have hd : ∀ d, ∀ EI ∈ (nstate ctx A k).fst,
      EI ∈ (nstate ctx A (k + d)).fst := by
    intro d
    induction d with
    | zero =>
      intro EI h
      exact h
    | succ d ih =>
      intro EI h
      have he : k + (d + 1) = (k + d) + 1 := by omega
      rw [he]
      rcases hst : nstate ctx A (k + d) with ⟨res, minimal⟩
      rw [nstate_succ_eq ctx A (k + d) res minimal hst]
      have h2 := ih EI h
      rw [hst] at h2
      by_cases h3 : minimal.get (k + d) = false
      · rw [if_pos h3]
        exact h2
      · rw [if_neg h3]
        by_cases h4 : (ncheck ctx A (k + d)).is_empty = false
        · rw [if_pos h4]
          exact h2
        · rw [if_neg h4]
          exact List.mem_append_left _ h2
  intro EI h
  have he2 : k2 = k + (k2 - k) := by omega
  rw [he2]
  exact hd (k2 - k) EI h

theorem count_le_width {b : BitSet} {n : Nat} (h : wfBitSet b n) :
    b.count ≤ n := by
  rw [count_eq_countP h]
  exact le_trans (List.countP_le_length _) (le_of_eq (List.length_range n))

/-- Lindig's covering theorem, completeness half: every upper cover of a
closed extent is emitted by the `neighbors` scan. -/
theorem neighbors_cover {ctx : FcaContext} (hc : wfCtx ctx) {W E : BitSet}
    (hW : wfBitSet W ctx.n_objects) (hWc : Closed ctx W)
    (hE : wfBitSet E ctx.n_objects) (hEc : Closed ctx E)
    (hsub : bsubset W E) (hne : W ≠ E)
    (hcover : ∀ X, wfBitSet X ctx.n_objects → Closed ctx X →
      bsubset W X → W ≠ X → bsubset X E → X = E) :
    ∃ EI ∈ neighbors W ctx, EI.1 = E := by
  have hwatom : ∀ j : Nat,
      wfBitSet ((BitSet.new ctx.n_objects).setBit j) ctx.n_objects :=
    fun j => wf_setBit (wf_new _) j
  have hwor : ∀ j : Nat,
      wfBitSet (W.or ((BitSet.new ctx.n_objects).setBit j)) ctx.n_objects :=
    fun j => wf_or hW (hwatom j)
  have hwcl : ∀ j : Nat, wfBitSet (ctx.doubleprime_objects
      (W.or ((BitSet.new ctx.n_objects).setBit j))).fst ctx.n_objects := by
    intro j
    rw [doubleprime_objects_fst]
    exact wf_prime_properties hc _
  have hclE : ∀ i, i < ctx.n_objects → E.get i = true → W.get i = false →
      (ctx.doubleprime_objects
        (W.or ((BitSet.new ctx.n_objects).setBit i))).fst = E := by
    intro i hin hEi hWi
    have hsubE : bsubset (W.or ((BitSet.new ctx.n_objects).setBit i)) E := by
      intro z hz
      rw [get_or hW (hwatom i), get_setBit (wf_new _) i z, get_new] at hz
      by_cases hzi : z = i ∧ i < ctx.n_objects
      · rcases hzi with ⟨rfl, _⟩
        exact hEi
      · rw [if_neg hzi] at hz
        exact hsub z (by simpa using hz)
    have hclsub : bsubset (ctx.doubleprime_objects
        (W.or ((BitSet.new ctx.n_objects).setBit i))).fst E := by
      rw [doubleprime_objects_fst]
      exact closure_le_closed hc (hwor i) hE hEc hsubE
    have hWsub : bsubset W (ctx.doubleprime_objects
        (W.or ((BitSet.new ctx.n_objects).setBit i))).fst := by
      rw [doubleprime_objects_fst]
      intro z hz
      apply doubleprime_obj_extensive hc (hwor i) z
      rw [get_or hW (hwatom i), hz]
      rfl
    have hWne : W ≠ (ctx.doubleprime_objects
        (W.or ((BitSet.new ctx.n_objects).setBit i))).fst := by
      intro heq
      have hgi : (ctx.doubleprime_objects
          (W.or ((BitSet.new ctx.n_objects).setBit i))).fst.get i = true := by
        rw [doubleprime_objects_fst]
        apply doubleprime_obj_extensive hc (hwor i) i
        rw [get_or hW (hwatom i), get_setBit (wf_new _) i i,
          if_pos ⟨rfl, hin⟩, Bool.or_true]
      rw [← heq, hWi] at hgi
      cases hgi
    have hclosed : Closed ctx (ctx.doubleprime_objects
        (W.or ((BitSet.new ctx.n_objects).setBit i))).fst := by
      rw [doubleprime_objects_fst]
      show ctx.prime_properties (ctx.prime_objects (ctx.prime_properties
        (ctx.prime_objects _))) = _
      rw [prime_triple_objects hc (hwor i)]
    exact hcover _ (hwcl i) hclosed hWsub hWne hclsub
  have hs0 : ∃ s, E.get s = true ∧ W.get s = false := by
    by_contra hcon
    push_neg at hcon
    apply hne
    apply wf_ext hW hE
    apply bsubset_antisymm_get hsub
    intro i hi
    have hne2 := hcon i hi
    cases hv : W.get i
    · exact absurd hv hne2
    · rfl
  rcases hs0 with ⟨s0, hs0E, hs0W⟩
  have hs0n : s0 ≤ ctx.n_objects := by
    have := get_true_lt hs0E
    have := hE.1
    omega
  have hmax : ∃ smax, (E.get smax = true ∧ W.get smax = false) ∧
      ∀ y, smax < y → E.get y = true → W.get y = false → False := by
    refine ⟨Nat.findGreatest
      (fun s => E.get s = true ∧ W.get s = false) ctx.n_objects,
      @Nat.findGreatest_spec s0 (fun s => E.get s = true ∧ W.get s = false) _
        ctx.n_objects hs0n ⟨hs0E, hs0W⟩, ?_⟩
    intro y hy hyE hyW
    by_cases hyn : y ≤ ctx.n_objects
    · exact @Nat.findGreatest_is_greatest y
        (fun s => E.get s = true ∧ W.get s = false) _ ctx.n_objects
        hy hyn ⟨hyE, hyW⟩
    · have := get_true_lt hyE
      have := hE.1
      omega
  rcases hmax with ⟨imax, ⟨hiE, hiW⟩, himax⟩
  have hin : imax < ctx.n_objects := by
    have := get_true_lt hiE
    have := hE.1
    omega
  have hcleared : ∀ y, y < imax → E.get y = true → W.get y = false →
      (nstate ctx W ctx.n_objects).snd.get y = false := by
    intro y hy hyE hyW
    have hyn : y < ctx.n_objects := by omega
    cases hv : (nstate ctx W ctx.n_objects).snd.get y
    · rfl
    · exfalso
      have hchk := nstate_survive_check hW hyn hyW hv
      have hfalse := is_empty_all_false hchk imax
      rcases hst : nstate ctx W y with ⟨res, minimal⟩
      have hwm : wfBitSet minimal ctx.n_objects := by
        have := nstate_wf hW y
        rw [hst] at this
        exact this
      have hmi : minimal.get imax = true := by
        have hge := nstate_snd_ge hW imax y (by omega)
        rw [hst] at hge
        have h2 : minimal.get imax = W.complement.get imax := hge
        rw [h2, get_complement hW imax, hiW]
        simp [hin]
      rw [ncheck_eq ctx W y res minimal hst] at hfalse
      rw [get_and (wf_and (hwcl y) (wf_complement (hwor y))) hwm imax,
        get_and (hwcl y) (wf_complement (hwor y)) imax,
        get_complement (hwor y) imax, get_or hW (hwatom y) imax,
        get_setBit (wf_new _) y imax,
        if_neg (show ¬(imax = y ∧ y < ctx.n_objects) from
          fun hcc => by omega),
        get_new, hclE y hyn hyE hyW, hiE, hiW, hmi] at hfalse
      simp [hin] at hfalse
  have hchkempty : (ncheck ctx W imax).is_empty = true := by
    rcases hstm : nstate ctx W imax with ⟨resm, minm⟩
    have hwmm : wfBitSet minm ctx.n_objects := by
      have := nstate_wf hW imax
      rw [hstm] at this
      exact this
    apply is_empty_of_all_false (n := ctx.n_objects)
    swap
    · intro y
      rw [ncheck_eq ctx W imax resm minm hstm]
      rw [get_and (wf_and (hwcl imax) (wf_complement (hwor imax))) hwmm y,
        get_and (hwcl imax) (wf_complement (hwor imax)) y,
        get_complement (hwor imax) y, get_or hW (hwatom imax) y,
        get_setBit (wf_new _) imax y, get_new, hclE imax hin hiE hiW]
      cases hyE : E.get y
      · simp
      · cases hyW : W.get y
        · by_cases hyi : y = imax ∧ imax < ctx.n_objects
          · rw [if_pos hyi]
            simp
          · rw [if_neg hyi]
            have hyne : y ≠ imax := fun h => hyi ⟨h, hin⟩
            rcases Nat.lt_or_ge y imax with hlt | hge2
            · have hcl := hcleared y hlt hyE hyW
              have hstab := nstate_snd_stable_le hW y imax
                ctx.n_objects hlt (by omega)
              rw [hstm] at hstab
              have hmy : minm.get y = false := by
                rw [← hstab]
                exact hcl
              rw [hmy]
              simp
            · exfalso
              exact himax y (by omega) hyE hyW
        · simp
    · rw [ncheck_eq ctx W imax resm minm hstm]
      exact wf_and (wf_and (hwcl imax) (wf_complement (hwor imax))) hwmm
  have hemit : ctx.doubleprime_objects
      (W.or ((BitSet.new ctx.n_objects).setBit imax)) ∈
      (nstate ctx W (imax + 1)).fst := by
    rcases hstm : nstate ctx W imax with ⟨resm, minm⟩
    have hguard : minm.get imax = true := by
      have h1 := nstate_snd_ge hW imax imax le_rfl
      rw [hstm] at h1
      have h2 : minm.get imax = W.complement.get imax := h1
      rw [h2, get_complement hW imax, hiW]
      simp [hin]
    rw [nstate_succ_eq ctx W imax resm minm hstm,
      if_neg (show ¬(minm.get imax = false) by rw [hguard]; simp),
      if_neg (show ¬((ncheck ctx W imax).is_empty = false) by
        rw [hchkempty]; simp)]
    exact List.mem_append_right _ (List.mem_singleton.mpr rfl)
  refine ⟨ctx.doubleprime_objects
      (W.or ((BitSet.new ctx.n_objects).setBit imax)), ?_, ?_⟩
  · rw [neighbors_eq_nstate]
    exact nstate_fst_mono (imax + 1) ctx.n_objects (by omega) _ hemit
  · exact hclE imax hin hiE hiW

/-- Loop invariant for completeness: every concept index is either still
pending on the heap or has had all its neighbors recorded in the concept
list. -/
def ProcessedOK (ctx : FcaContext) (st : LindigState) : Prop :=
  ∀ k, k < st.concepts.length →
    (∃ e ∈ st.heap, e.index = k) ∨
    ∀ nb ∈ neighbors (st.concepts.getD k dC).1 ctx,
      ∃ m, m < st.concepts.length ∧ (st.concepts.getD m dC).1 = nb.1

theorem lindigInit_proc (ctx : FcaContext) (inf : BitSet) :
    ProcessedOK ctx (lindigInit ctx inf) := by
  intro k hk
  left
  have hk0 : k = 0 := by
    simp [lindigInit] at hk
    omega
  subst hk0
  exact ⟨_, List.mem_singleton.mpr rfl, rfl⟩

theorem lindigProcess_heap_mono {st : LindigState} (cur : Nat)
    (nb : BitSet × BitSet) :
    ∀ e ∈ st.heap, e ∈ (lindigProcess st cur nb).heap := by
  intro e he
  rcases hlk : st.mapping.lookup nb.1.words with _ | eidx
  · rw [lpN_heap cur hlk]
    exact List.mem_cons_of_mem _ he
  · rw [lpE_heap cur hlk]
    exact he

theorem lindigProcess_new_heap {st : LindigState} (cur : Nat)
    (nb : BitSet × BitSet) :
    ∀ k, st.concepts.length ≤ k →
      k < (lindigProcess st cur nb).concepts.length →
      ∃ e ∈ (lindigProcess st cur nb).heap, e.index = k := by
  intro k hk1 hk2
  rcases hlk : st.mapping.lookup nb.1.words with _ | eidx
  · rw [lpN_concepts cur hlk] at hk2
    rw [lpN_heap cur hlk]
    have hlen : (pushUpper st.concepts cur st.concepts.length ++
        [(nb.1, nb.2, [], [cur])]).length = st.concepts.length + 1 := by
      rw [List.length_append, pushUpper_length]
      rfl
    rw [hlen] at hk2
    have hke : k = st.concepts.length := by omega
    subst hke
    exact ⟨_, List.mem_cons_self _ _, rfl⟩
  · exfalso
    rw [lpE_concepts cur hlk, pushLower_length, pushUpper_length] at hk2
    omega

theorem lindigProcess_adds {ctx : FcaContext} {E0 I0 : BitSet}
    {st : LindigState} (hok : StateOK ctx E0 I0 st) (cur : Nat)
    {nb : BitSet × BitSet} (hwE : wfBitSet nb.1 ctx.n_objects) :
    ∃ m, m < (lindigProcess st cur nb).concepts.length ∧
      ((lindigProcess st cur nb).concepts.getD m dC).1 = nb.1 := by
  rcases hlk : st.mapping.lookup nb.1.words with _ | eidx
  · refine ⟨st.concepts.length, ?_, ?_⟩
    · rw [lpN_concepts cur hlk, List.length_append, pushUpper_length]
      simp
    · rw [lpN_concepts cur hlk]
      have hgetlast : (pushUpper st.concepts cur st.concepts.length ++
          [(nb.1, nb.2, [], [cur])]).getD st.concepts.length dC =
          (nb.1, nb.2, [], [cur]) := by
        have := getD_append_right_self
          (pushUpper st.concepts cur st.concepts.length)
          (nb.1, nb.2, [], [cur])
        rw [pushUpper_length] at this
        exact this
      rw [hgetlast]
  · have hmem := lookup_mem hlk
    rcases hok.map_fwd _ hmem with ⟨hlt, hwords⟩
    have hlt2 : eidx < st.concepts.length := hlt
    have hwords2 : (st.concepts.getD eidx dC).1.words = nb.1.words := hwords
    refine ⟨eidx, ?_, ?_⟩
    · rw [lpE_concepts cur hlk, pushLower_length, pushUpper_length]
      exact hlt2
    · rw [lpE_concepts cur hlk,
        (pushLower_getD_parts (pushUpper st.concepts cur eidx)
          eidx cur eidx).1,
        (pushUpper_getD_parts st.concepts cur eidx eidx).1]
      exact bitset_eq_of_words (hok.cwf eidx hlt2).1 hwE hwords2

/-- One expansion pass: the concept list grows monotonically, pending heap
entries persist, freshly added concepts get heap entries, and every neighbor
of the processed extent ends up recorded. -/
theorem lindigFold_proc {ctx : FcaContext} {E0 I0 : BitSet} (hc : wfCtx ctx)
    (A : BitSet) (hA : wfBitSet A ctx.n_objects) (cur : Nat) :
    ∀ (nbrs : List (BitSet × BitSet)) (st : LindigState),
      (∀ nb ∈ nbrs, nb ∈ neighbors A ctx) →
      StateOK ctx E0 I0 st → cur < st.concepts.length →
      (st.concepts.getD cur dC).1 = A →
      st.concepts.length ≤
        (nbrs.foldl (fun s nb => lindigProcess s cur nb) st).concepts.length ∧
      (∀ k, k < st.concepts.length →
        ((nbrs.foldl (fun s nb => lindigProcess s cur nb) st).concepts.getD
          k dC).1 = (st.concepts.getD k dC).1) ∧
      (∀ e ∈ st.heap,
        e ∈ (nbrs.foldl (fun s nb => lindigProcess s cur nb) st).heap) ∧
      (∀ k, st.concepts.length ≤ k →
        k < (nbrs.foldl (fun s nb =>
          lindigProcess s cur nb) st).concepts.length →
        ∃ e ∈ (nbrs.foldl (fun s nb => lindigProcess s cur nb) st).heap,
          e.index = k) ∧
      (∀ nb ∈ nbrs, ∃ m,
        m < (nbrs.foldl (fun s nb =>
          lindigProcess s cur nb) st).concepts.length ∧
        ((nbrs.foldl (fun s nb => lindigProcess s cur nb) st).concepts.getD
          m dC).1 = nb.1) := by
  intro nbrs
  induction nbrs with
  | nil =>
    intro st _ hok hcur hAeq
    refine ⟨le_rfl, fun k _ => rfl, fun e he => he, ?_, ?_⟩
    · intro k hk1 hk2
      have hk3 : k < st.concepts.length := hk2
      exact absurd hk3 (by omega)
    · intro nb hnb
      exact absurd hnb (List.not_mem_nil _)
  | cons nb nbrs ih =>
    intro st hmem hok hcur hAeq
    rw [List.foldl_cons]
    rcases neighbor_props hc hA (hmem nb (List.mem_cons_self _ _)) with
      ⟨hwE, hwI, hpair, hsubA, hneA⟩
    have hsub : bsubset (st.concepts.getD cur dC).1 nb.1 := by
      rw [hAeq]
      exact hsubA
    have hne : (st.concepts.getD cur dC).1 ≠ nb.1 := by
      rw [hAeq]
      exact hneA
    rcases lindigProcess_preserves hok hcur hwE hwI hpair hsub hne with
      ⟨hok2, hlen2, hstab2⟩
    have hadds := lindigProcess_adds hok cur hwE
    rcases ih (lindigProcess st cur nb)
        (fun x hx => hmem x (List.mem_cons_of_mem _ hx)) hok2
        (by omega) (((hstab2 cur hcur).1).trans hAeq) with
      ⟨ihlen, ihstab, ihheap, ihnew, ihnb⟩
    refine ⟨by omega, ?_, ?_, ?_, ?_⟩
    · intro k hk
      rw [ihstab k (by omega)]
      exact (hstab2 k hk).1
    · intro e he
      exact ihheap e (lindigProcess_heap_mono cur nb e he)
    · intro k hk1 hk2
      by_cases hk3 : k < (lindigProcess st cur nb).concepts.length
      · rcases lindigProcess_new_heap cur nb k hk1 hk3 with ⟨e, he, hei⟩
        exact ⟨e, ihheap e he, hei⟩
      · exact ihnew k (by omega) hk2
    · intro nb2 hnb2
      rcases List.mem_cons.mp hnb2 with rfl | hnb3
      · rcases hadds with ⟨m, hm, hme⟩
        exact ⟨m, by omega, (ihstab m hm).trans hme⟩
      · exact ihnb nb2 hnb3

/-- The Lindig main loop preserves the completeness invariant. -/
theorem lindigLoop_proc {ctx : FcaContext} {E0 I0 : BitSet} (hc : wfCtx ctx) :
    ∀ (fuel : Nat) (st : LindigState), StateOK ctx E0 I0 st →
      ProcessedOK ctx st → ProcessedOK ctx (lindigLoop ctx fuel st) := by
  intro fuel
  induction fuel with
  | zero =>
    intro st _ hproc
    exact hproc
  | succ fuel ih =>
    intro st hok hproc
    rcases hpop : popMin st.heap with _ | ⟨entry, rest⟩
    · rw [lindigLoop_none ctx fuel st hpop]
      exact hproc
    · rw [lindigLoop_some ctx fuel st entry rest hpop]
      rcases popMin_mem hpop with ⟨hentry, hrest⟩
      rcases hok.heap_ok entry hentry with ⟨hidx, hext⟩
      have hok2 : StateOK ctx E0 I0 { st with heap := rest } :=
        ⟨hok.len_pos, hok.head_extent, hok.head_intent, hok.cwf, hok.cpair,
         hok.upper_ok, hok.lower_ok, hok.map_fwd, hok.map_bwd,
         fun e he => hok.heap_ok e (hrest e he)⟩
      have hA := (hok.cwf entry.index hidx).1
      rcases lindigFold_proc hc _ hA entry.index
          (neighbors (st.concepts.getD entry.index default).1 ctx)
          { st with heap := rest } (fun nb2 hnb => hnb) hok2 hidx rfl with
        ⟨hlen, hstab, hheap, hnew, hnbs⟩
      have hlen0 : st.concepts.length ≤
          ((neighbors (st.concepts.getD entry.index default).1 ctx).foldl
            (fun s nb2 => lindigProcess s entry.index nb2)
            { st with heap := rest }).concepts.length := hlen
      have hok3 := lindigFold_preserves hc _ hA entry.index
        (neighbors (st.concepts.getD entry.index default).1 ctx)
        { st with heap := rest } (fun nb2 hnb => hnb) hok2 hidx rfl
      refine ih _ hok3 ?_
      intro k hk
      by_cases hkold : k < st.concepts.length
      · by_cases hkc : k = entry.index
        · right
          intro nb2 hnb2
          have hknb : nb2 ∈ neighbors
              (st.concepts.getD entry.index default).1 ctx := by
            rw [hstab k hkold, hkc] at hnb2
            exact hnb2
          exact hnbs nb2 hknb
        · rcases hproc k hkold with ⟨e, he, hei⟩ | hall
          · left
            rcases popMin_cover hpop e he with rfl | he2
            · exact absurd hei.symm hkc
            · exact ⟨e, hheap e he2, hei⟩
          · right
            intro nb2 hnb2
            have hknb : nb2 ∈ neighbors
                (st.concepts.getD k dC).1 ctx := by
              rw [hstab k hkold] at hnb2
              exact hnb2
            rcases hall nb2 hknb with ⟨m, hm, hme⟩
            refine ⟨m, by omega, ?_⟩
            rw [hstab m hm]
            exact hme
      · left
        exact hnew k (Nat.le_of_not_lt hkold) hk

theorem getD_mem_self {α : Type} [Inhabited α] (l : List α) (m : Nat)
    (hm : m < l.length) : l.getD m default ∈ l := by
  rw [getD_eq_getElem _ _ _ hm]
  exact l.getElem_mem hm

/-- Every formal concept's extent is recorded in a finished Lindig state. -/
theorem lindig_all_extents {ctx : FcaContext} {E0 I0 : BitSet}
    (hc : wfCtx ctx) {st : LindigState} (hok : StateOK ctx E0 I0 st)
    (hproc : ProcessedOK ctx st) (hheap : st.heap = [])
    (hbot : ∀ X, wfBitSet X ctx.n_objects → Closed ctx X → bsubset E0 X) :
    ∀ (n : Nat) (A : BitSet), A.count ≤ n → wfBitSet A ctx.n_objects →
      Closed ctx A →
      ∃ m, m < st.concepts.length ∧ (st.concepts.getD m dC).1 = A := by
  have hwE0 : wfBitSet E0 ctx.n_objects := by
    have := (hok.cwf 0 hok.len_pos).1
    rw [hok.head_extent] at this
    exact this
  have hE0c : Closed ctx E0 := by
    have := hok.cpair 0 hok.len_pos
    rw [hok.head_extent] at this
    exact closed_of_pair this
  intro n
  induction n with
  | zero =>
    intro A hcnt hwA hAc
    by_cases hA0 : A = E0
    · refine ⟨0, hok.len_pos, ?_⟩
      rw [hok.head_extent, hA0]
    · exfalso
      have hsub := hbot A hwA hAc
      have hlt := bsubset_strict_count hwE0 hwA hsub
        (fun h => hA0 h.symm)
      omega
  | succ n ih =>
    intro A hcnt hwA hAc
    by_cases hA0 : A = E0
    · refine ⟨0, hok.len_pos, ?_⟩
      rw [hok.head_extent, hA0]
    · have hE0sub := hbot A hwA hAc
      have hE0ne : E0 ≠ A := fun h => hA0 h.symm
      have hE0cnt : E0.count ≤ ctx.n_objects := count_le_width hwE0
      have hdec : DecidablePred (fun s => ∃ W, wfBitSet W ctx.n_objects ∧
          Closed ctx W ∧ bsubset W A ∧ W ≠ A ∧ s ≤ W.count) :=
        fun s => Classical.propDecidable _
      have hspec := @Nat.findGreatest_spec E0.count
        (fun s => ∃ W, wfBitSet W ctx.n_objects ∧ Closed ctx W ∧
          bsubset W A ∧ W ≠ A ∧ s ≤ W.count) hdec ctx.n_objects hE0cnt
        ⟨E0, hwE0, hE0c, hE0sub, hE0ne, le_rfl⟩
      rcases hspec with ⟨W, hwW, hWc, hWA, hWne, hWcnt⟩
      have hcover : ∀ X, wfBitSet X ctx.n_objects → Closed ctx X →
          bsubset W X → W ≠ X → bsubset X A → X = A := by
        intro X hwX hXc hWX hWXne hXA
        by_contra hXAne
        have hXn : X.count ≤ ctx.n_objects := count_le_width hwX
        have h1 : W.count < X.count :=
          bsubset_strict_count hwW hwX hWX hWXne
        exact @Nat.findGreatest_is_greatest X.count
          (fun s => ∃ W, wfBitSet W ctx.n_objects ∧ Closed ctx W ∧
            bsubset W A ∧ W ≠ A ∧ s ≤ W.count) hdec ctx.n_objects
          (by omega) hXn ⟨X, hwX, hXc, hXA, hXAne, le_rfl⟩
      have hWcntA : W.count < A.count :=
        bsubset_strict_count hwW hwA hWA hWne
      rcases ih W (by omega) hwW hWc with ⟨mW, hmW, hextW⟩
      rcases neighbors_cover hc hwW hWc hwA hAc hWA hWne hcover with
        ⟨EI, hEImem, hEIe⟩
      rcases hproc mW hmW with ⟨e, he, _⟩ | hall
      · rw [hheap] at he
        exact absurd he (List.not_mem_nil _)
      · rcases hall EI (by rw [hextW]; exact hEImem) with ⟨m, hm, hme⟩
        exact ⟨m, hm, hme.trans hEIe⟩

/-- A completed Lindig run records exactly the formal concepts. -/
theorem lindig_char (nO nP : Nat) (er ir : List Nat)
    (hraw : wellFormedRaw nO nP er ir) (fuel : Nat)
    (hdone : (lindigRun nO nP er ir fuel).heap = []) (p : Nat × Nat) :
    (∃ c ∈ (lindigRun nO nP er ir fuel).concepts,
      p = (c.1.to_u128, c.2.1.to_u128)) ↔
    ∃ A B, ConceptOK (FcaContext.new nO nP er ir) A B ∧
      p = (A.to_u128, B.to_u128) := by
  have hc := wfCtx_new nO nP er ir hraw
  have hok := stateOK_run nO nP er ir hraw fuel
  constructor
  · rintro ⟨c, hcm, rfl⟩
    rcases List.getElem_of_mem hcm with ⟨k, hk, hck⟩
    have hcg : (lindigRun nO nP er ir fuel).concepts.getD k dC = c := by
      rw [getD_eq_getElem _ _ _ hk, hck]
    rcases hok.cpair k hk with ⟨hI, hE⟩
    rcases hok.cwf k hk with ⟨hwE, hwI⟩
    rw [hcg] at hI hE hwE hwI
    exact ⟨c.1, c.2.1, ⟨hwE, hwI, hE, hI⟩, rfl⟩
  · rintro ⟨A, B, hokAB, rfl⟩
    have hwA := hokAB.1
    have hAB := hokAB.2.2.1
    have hBA := hokAB.2.2.2
    have hAc : Closed (FcaContext.new nO nP er ir) A := by
      show (FcaContext.new nO nP er ir).prime_properties
        ((FcaContext.new nO nP er ir).prime_objects A) = A
      rw [← hBA]
      exact hAB.symm
    have hproc : ProcessedOK (FcaContext.new nO nP er ir)
        (lindigRun nO nP er ir fuel) :=
      lindigLoop_proc hc fuel _
        (lindigInit_ok hc (wf_from_u128 (zero_lt_two_pow nO)))
        (lindigInit_proc _ _)
    have hbot : ∀ X, wfBitSet X (FcaContext.new nO nP er ir).n_objects →
        Closed (FcaContext.new nO nP er ir) X →
        bsubset ((FcaContext.new nO nP er ir).doubleprime_objects
          (BitSet.from_u128 0 nO)).fst X := by
      intro X hwX hXc
      have h1 := bottom_min hc (wf_prime_objects hc X)
      have hXc2 : (FcaContext.new nO nP er ir).prime_properties
          ((FcaContext.new nO nP er ir).prime_objects X) = X := hXc
      rw [hXc2] at h1
      have he : ((FcaContext.new nO nP er ir).doubleprime_objects
          (BitSet.from_u128 0 nO)).fst =
          (FcaContext.new nO nP er ir).prime_properties
            (BitSet.supremum (FcaContext.new nO nP er ir).n_properties)
          := by
        rw [doubleprime_objects_fst, prime_objects_zero]
      rw [he]
      exact h1
    rcases lindig_all_extents hc hok hproc hdone hbot A.count A le_rfl
        hwA hAc with ⟨m, hm, hme⟩
    refine ⟨(lindigRun nO nP er ir fuel).concepts.getD m dC, ?_, ?_⟩
    · exact getD_mem_self _ m hm
    · rcases hok.cpair m hm with ⟨hI, _⟩
      have h2 : ((lindigRun nO nP er ir fuel).concepts.getD m dC).2.1 = B
          := by
        rw [hI, hme, ← hBA]
      rw [hme, h2]

/-- C1: for every well-formed context, the set of `(extent, intent)` pairs
returned by a completed `lindig_lattice` run with infimum `0` (ignoring the
cover lists) equals the set returned by a completed
`fcbo_fast_generate_from` run and equals the set returned by a completed
`fcbo_dual` run. -/
theorem c1_lindig_fcbo_dual_same_set (nO nP : Nat) (er ir : List Nat)
    (hraw : wellFormedRaw nO nP er ir) (fuel : Nat)
    (hl : (lindigRun nO nP er ir fuel).heap = [])
    (hf : (fcbo_fast_generate_from (FcaContext.new nO nP er ir) fuel).snd
      = [])
    (hd : (fcbo_dual (FcaContext.new nO nP er ir) fuel).snd = []) :
    ∀ p : Nat × Nat,
      (p ∈ (lindig_lattice (FcaContext.new nO nP er ir)
          (BitSet.from_u128 0 nO) fuel).map (fun c => (c.1, c.2.1)) ↔
        p ∈ (fcbo_fast_generate_from (FcaContext.new nO nP er ir)
          fuel).fst) ∧
      (p ∈ (fcbo_fast_generate_from (FcaContext.new nO nP er ir) fuel).fst ↔
        p ∈ (fcbo_dual (FcaContext.new nO nP er ir) fuel).fst) := by
  have hc := wfCtx_new nO nP er ir hraw
  intro p
  have hlin : p ∈ (lindig_lattice (FcaContext.new nO nP er ir)
      (BitSet.from_u128 0 nO) fuel).map (fun c => (c.1, c.2.1)) ↔
      ∃ A B, ConceptOK (FcaContext.new nO nP er ir) A B ∧
        p = (A.to_u128, B.to_u128) := by
    rw [lindig_lattice_eq_run, List.map_map]
    constructor
    · intro hp
      rcases List.mem_map.mp hp with ⟨c, hcm, hpe⟩
      have hpe2 : p = (c.1.to_u128, c.2.1.to_u128) := hpe.symm
      exact (lindig_char nO nP er ir hraw fuel hl p).mp ⟨c, hcm, hpe2⟩
    · intro hp
      rcases (lindig_char nO nP er ir hraw fuel hl p).mpr hp with
        ⟨c, hcm, hpe⟩
      exact List.mem_map.mpr ⟨c, hcm, hpe.symm⟩
  have hfc := fcbo_char hc fuel hf p
  have hdc := fcbo_dual_char hc fuel hd p
  exact ⟨hlin.trans hfc.symm, hfc.trans hdc.symm⟩

theorem c1_lindig_fcbo_dual_same_set_witness :
    (wellFormedRaw 3 3 [1, 2, 6] [1, 6, 4] ∧
      (lindigRun 3 3 [1, 2, 6] [1, 6, 4] 20).heap = [] ∧
      (fcbo_fast_generate_from (FcaContext.new 3 3 [1, 2, 6] [1, 6, 4])
        20).snd = [] ∧
      (fcbo_dual (FcaContext.new 3 3 [1, 2, 6] [1, 6, 4]) 20).snd = []) ∧
    ((((5 : Nat), (1 : Nat)) ∈ (lindig_lattice
        (FcaContext.new 3 3 [1, 2, 6] [1, 6, 4])
        (BitSet.from_u128 0 3) 20).map (fun c => (c.1, c.2.1)) ↔
      ((5 : Nat), (1 : Nat)) ∈ (fcbo_fast_generate_from
        (FcaContext.new 3 3 [1, 2, 6] [1, 6, 4]) 20).fst) ∧
      (((5 : Nat), (1 : Nat)) ∈ (fcbo_fast_generate_from
        (FcaContext.new 3 3 [1, 2, 6] [1, 6, 4]) 20).fst ↔
      ((5 : Nat), (1 : Nat)) ∈ (fcbo_dual
        (FcaContext.new 3 3 [1, 2, 6] [1, 6, 4]) 20).fst)) :=
  ⟨⟨wellFormedRaw_367, by decide, by decide, by decide⟩,
    c1_lindig_fcbo_dual_same_set 3 3 [1, 2, 6] [1, 6, 4] wellFormedRaw_367
      20 (by decide) (by decide) (by decide) (5, 1)⟩

end Concepts
